import Mathlib

/-! # pacleaves: graph construction and strongly connected components

A shallow embedding of `pacleaves.c` (bitmap, compact graph, edge resolver, graph builder and
the iterative Tarjan variant, the command line and the report) together with proofs about it.
-/

set_option autoImplicit false

namespace Pacleaves

/-! ## Bitmap (`bitmap_*`): an array of `unsigned long` words -/

/-- Number of bits in an `unsigned long` (`8 * sizeof(long)` on an LP64 target). -/
def BITS_PER_LONG : Nat := 64

/-- The macro `BIT(x)`, that is `1UL << x`; only used with `x < BITS_PER_LONG`. -/
def BIT (x : Nat) : Nat := 1 <<< x

/-- Number of words needed for `len` bits. -/
def bitmap_end (len : Nat) : Nat :=
  len / BITS_PER_LONG + (if len % BITS_PER_LONG ≠ 0 then 1 else 0)

/-- A zero-filled bitmap (`calloc`), assuming the allocation succeeds. -/
def bitmap_new (len : Nat) : List Nat := List.replicate (bitmap_end len) 0

/-- Word update `bitmap[i / BITS_PER_LONG] |= BIT(i % BITS_PER_LONG)`. -/
def bitmap_setbit (bitmap : List Nat) (i : Nat) : List Nat :=
  bitmap.set (i / BITS_PER_LONG)
    (bitmap.getD (i / BITS_PER_LONG) 0 ||| BIT (i % BITS_PER_LONG))

/-- Word update `bitmap[i / BITS_PER_LONG] &= ~BIT(i % BITS_PER_LONG)`; the complement is taken
in `BITS_PER_LONG` bits. -/
def bitmap_clearbit (bitmap : List Nat) (i : Nat) : List Nat :=
  bitmap.set (i / BITS_PER_LONG)
    (bitmap.getD (i / BITS_PER_LONG) 0 &&& (2 ^ BITS_PER_LONG - 1 - BIT (i % BITS_PER_LONG)))

/-- The scan `for(i = 0; i < end; i++) if(bitmap[i]) return false; return true`. -/
def bitmap_empty (bitmap : List Nat) (len : Nat) : Bool :=
  (List.range (bitmap_end len)).all (fun i => bitmap.getD i 0 == 0)

/-- The call `memset(bitmap, 0, bitmap_end(len) * sizeof(bitmap[0]))`. -/
def bitmap_clear (bitmap : List Nat) (len : Nat) : List Nat :=
  List.replicate (min (bitmap_end len) bitmap.length) 0 ++ bitmap.drop (bitmap_end len)

/-! ## Compact graph (`graph_t`) -/

/-- The struct `graph_t`: `idx` is the flexible array holding `nodes` row offsets followed by the
sentinel-terminated neighbour lists. -/
structure graph_t where
  nodes : Nat
  edges : Nat
  idx : List Int
deriving DecidableEq

/-- The pointer `&graph->idx[graph->idx[u]]`, represented by its offset into `idx`. -/
def graph_edges_from (graph : graph_t) (u : Nat) : Nat := (graph.idx.getD u 0).toNat

/-- The neighbour sequence of `u`: the entries read from `graph_edges_from graph u` up to the
first negative entry. -/
def neighbors (graph : graph_t) (u : Nat) : List Int :=
  (graph.idx.drop (graph_edges_from graph u)).takeWhile (fun w => decide (0 ≤ w))

/-- Well-formed graph: the node count fits an `int`, every row offset is in the array, every
neighbour list is terminated by a negative entry inside the array, and every neighbour entry
is a node. -/
def graph_wf (graph : graph_t) : Prop :=
  graph.nodes < 2 ^ 31 ∧ graph.nodes ≤ graph.idx.length ∧
  ∀ u, u < graph.nodes →
    0 ≤ graph.idx.getD u 0 ∧
    graph_edges_from graph u + (neighbors graph u).length < graph.idx.length ∧
    ∀ w ∈ neighbors graph u, w < (graph.nodes : Int)

instance (graph : graph_t) : Decidable (graph_wf graph) := by
  unfold graph_wf; infer_instance

/-! ## SCC engine (`tarjan`) -/

/-- The value `~0U` of an `unsigned int`. -/
def UINT_ALL : Nat := 4294967295

/-- The mutable locals and arrays of `tarjan`. The arrays `stack` and `estack` come from `malloc`
and are modelled as zero-filled; `rindex` and `sccredges` come from `calloc`. -/
structure tarjan_state where
  stack : List Nat
  estack : List Nat
  rindex : List Nat
  sccredges : List Nat
  sccs : List (List Int)
  idx : Nat
  r : Nat
  top : Nat
  u : Nat
  j : Nat
deriving DecidableEq

/-- The function `append_scc`: copy `len` entries starting at `scc`, terminate with `-1`, append
the new entry to the list (allocation assumed to succeed). -/
def append_scc (sccs : List (List Int)) (scc : List Nat) (len : Nat) : List (List Int) :=
  sccs ++ [(scc.take len).map Int.ofNat ++ [-1]]

/-- Members of a reported cluster, read as `main` does: entries up to the first negative one. -/
def scc_members (scc : List Int) : List Nat :=
  (scc.takeWhile (fun i => decide (0 ≤ i))).map Int.toNat

/-- The loop `for(w = *edges++; w >= 0; w = *edges++) bitmap_setbit(sccredges, w)` reading from
offset `pos`. -/
def tarjan_mark_edges (graph : graph_t) : Nat → Nat → List Nat → List Nat
  | 0, _, bitmap => bitmap
  | fuel + 1, pos, bitmap =>
    let w := graph.idx.getD pos (-1)
    if 0 ≤ w then tarjan_mark_edges graph fuel (pos + 1) (bitmap_setbit bitmap w.toNat)
    else bitmap

/-- Body of the `do { ... } while(...)` loop: pop one node of the completion stack, mark it
finished and record its neighbours in the bitmap. -/
def tarjan_pop_one (graph : graph_t) (s : tarjan_state) : tarjan_state :=
  let v := s.stack.getD s.r 0
  { s with
    r := s.r + 1
    rindex := s.rindex.set v UINT_ALL
    sccredges := tarjan_mark_edges graph (graph.idx.length + 1) (graph_edges_from graph v)
      s.sccredges }

/-- The loop `do { ... } while(r < N && uidx <= rindex[stack[r]])`. Each round increases `r` and
the loop stops when `r` reaches `N`, so a budget of `N` further rounds is never used up. -/
def tarjan_collect (graph : graph_t) (uidx : Nat) : Nat → tarjan_state → tarjan_state
  | 0, s => tarjan_pop_one graph s
  | fuel + 1, s =>
    let s1 := tarjan_pop_one graph s
    if s1.r < graph.nodes ∧ uidx ≤ s1.rindex.getD (s1.stack.getD s1.r 0) 0 then
      tarjan_collect graph uidx fuel s1
    else s1

/-- The loop `for(j = scc; j < r; j++) bitmap_clearbit(sccredges, stack[j])`. -/
def tarjan_clear_members (stack : List Nat) (scc r : Nat) (bitmap : List Nat) : List Nat :=
  (List.range' scc (r - scc)).foldl (fun bm j => bitmap_clearbit bm (stack.getD j 0)) bitmap

/-- Lines 336-374: push the finished node `u` on the completion stack and, when its marker is
still even, collect and possibly report its component. -/
def tarjan_finish (graph : graph_t) (allcycles : Bool) (s : tarjan_state) : tarjan_state :=
  let s1 := { s with r := s.r - 1, stack := s.stack.set (s.r - 1) s.u }
  let uidx := s1.rindex.getD s1.u 0
  if uidx &&& 1 = 0 then
    let scc := s1.r
    let s2 := tarjan_collect graph uidx graph.nodes s1
    if !allcycles then
      let s3 := { s2 with
        sccredges := tarjan_clear_members s2.stack scc s2.r s2.sccredges
        j := max scc s2.r }
      if bitmap_empty s3.sccredges graph.nodes then
        { s3 with sccs := append_scc s3.sccs (s3.stack.drop scc) (s3.r - scc) }
      else
        { s3 with sccredges := bitmap_clear s3.sccredges graph.nodes }
    else if s2.r - scc > 1 then
      { s2 with sccs := append_scc s2.sccs (s2.stack.drop scc) (s2.r - scc) }
    else s2
  else s1

/-- One iteration of the `while(1)` loop; the flag is `true` when the iteration ends in `break`. -/
def tarjan_step (graph : graph_t) (allcycles : Bool) (s : tarjan_state) : tarjan_state × Bool :=
  let v := graph.idx.getD (graph_edges_from graph s.u + s.j) (-1)
  let s := { s with j := s.j + 1 }
  if 0 ≤ v then
    let v := v.toNat
    if s.rindex.getD v 0 = 0 then
      ({ s with
          estack := s.estack.set s.top s.j
          stack := s.stack.set s.top s.u
          top := s.top + 1
          u := v
          j := 0
          idx := (s.idx + 2) % 2 ^ 32
          rindex := s.rindex.set v ((s.idx + 2) % 2 ^ 32) }, false)
    else if s.rindex.getD v 0 < s.rindex.getD s.u 0 then
      ({ s with rindex := s.rindex.set s.u (s.rindex.getD v 0 ||| 1) }, false)
    else (s, false)
  else
    let s := tarjan_finish graph allcycles s
    if s.top = 0 then (s, true)
    else
      let v := s.u
      let u := s.stack.getD (s.top - 1) 0
      let s := { s with top := s.top - 1, u := u, j := s.estack.getD (s.top - 1) 0 }
      if s.rindex.getD v 0 < s.rindex.getD u 0 then
        ({ s with rindex := s.rindex.set u (s.rindex.getD v 0 ||| 1) }, false)
      else (s, false)

/-- The `while(1)` loop, bounded by a step budget; `none` means the budget ran out. -/
def tarjan_while (graph : graph_t) (allcycles : Bool) : Nat → tarjan_state → Option tarjan_state
  | 0, _ => none
  | fuel + 1, s =>
    match tarjan_step graph allcycles s with
    | (s1, true) => some s1
    | (s1, false) => tarjan_while graph allcycles fuel s1

/-- Body of the outer `for(i = 0; i < N; i++)` loop. -/
def tarjan_root (graph : graph_t) (allcycles : Bool) (fuel : Nat) (s : tarjan_state) (i : Nat) :
    Option tarjan_state :=
  if s.rindex.getD i 0 ≠ 0 then some s
  else tarjan_while graph allcycles fuel
    { s with u := i, j := 0, idx := 2, rindex := s.rindex.set i 2 }

/-- The outer loop, for `n` more values of `i`. -/
def tarjan_for (graph : graph_t) (allcycles : Bool) (fuel : Nat) :
    Nat → Nat → tarjan_state → Option tarjan_state
  | 0, _, s => some s
  | n + 1, i, s =>
    match tarjan_root graph allcycles fuel s i with
    | none => none
    | some s1 => tarjan_for graph allcycles fuel n (i + 1) s1

/-- State after the allocations at the top of `tarjan` (all assumed to succeed). -/
def tarjan_init (graph : graph_t) : tarjan_state :=
  { stack := List.replicate graph.nodes 0
    estack := List.replicate graph.nodes 0
    rindex := List.replicate graph.nodes 0
    sccredges := bitmap_new graph.nodes
    sccs := []
    idx := 0
    r := graph.nodes
    top := 0
    u := 0
    j := 0 }

/-- Step budget given to each `while(1)` loop: one step per slot of `idx` per node is never
exceeded on a well-formed graph. -/
def tarjan_fuel (graph : graph_t) : Nat := graph.nodes * (graph.idx.length + 1)

/-- The function `tarjan`: the list of reported clusters, each terminated by `-1`. All
allocations are assumed to succeed; `none` stands for an exhausted step budget. -/
def tarjan (graph : graph_t) (allcycles : Bool) : Option (List (List Int)) :=
  (tarjan_for graph allcycles (tarjan_fuel graph) graph.nodes 0 (tarjan_init graph)).map
    (fun s => s.sccs)

/-! ## Bit view of a bitmap -/

/-- Bit `i` of a bitmap. -/
def bm_bit (bitmap : List Nat) (i : Nat) : Bool :=
  (bitmap.getD (i / BITS_PER_LONG) 0).testBit (i % BITS_PER_LONG)

/-- Every word of the bitmap fits an `unsigned long`. -/
def bm_ok (bitmap : List Nat) : Prop := ∀ w ∈ bitmap, w < 2 ^ BITS_PER_LONG

/-! ## Graph semantics -/

/-- Neighbours of `u` as node numbers. -/
def nbrs (graph : graph_t) (u : Nat) : List Nat := (neighbors graph u).map Int.toNat

/-- There is an edge `a → b`: `a` is a node and `b` occurs in its neighbour list. -/
def Edge (graph : graph_t) (a b : Nat) : Prop := a < graph.nodes ∧ b ∈ nbrs graph a

/-- Directed reachability (zero or more edges). -/
def Reach (graph : graph_t) : Nat → Nat → Prop := Relation.ReflTransGen (Edge graph)

/-- Reachability along edges whose two ends satisfy `S`. -/
def ReachIn (graph : graph_t) (S : Nat → Prop) : Nat → Nat → Prop :=
  Relation.ReflTransGen (fun a b => Edge graph a b ∧ S a ∧ S b)

/-- The strongly connected component of `v` has no edge to a node outside itself. -/
def scc_closed (graph : graph_t) (v : Nat) : Prop :=
  ∀ x, Reach graph v x → Reach graph x v → ∀ b, Edge graph x b → Reach graph b v

/-- The node `v` lies on a directed cycle through at least two distinct nodes. -/
def on_cycle (graph : graph_t) (v : Nat) : Prop :=
  ∃ x, x ≠ v ∧ Reach graph v x ∧ Reach graph x v

/-! ## A list view of the `tarjan` state

The two stacks that share the array `stack` are viewed as two lists: the ancestors of the current
node (nearest first, each with its saved edge position) and the completion stack (most recently
finished node first).  `d` is a ghost field: the marker each node received when discovered. -/

/-- List view of a `tarjan_state`, with the ghost discovery markers `d`. -/
structure astate where
  u : Nat
  j : Nat
  anc : List (Nat × Nat)
  comp : List Nat
  rindex : List Nat
  idx : Nat
  sccredges : List Nat
  sccs : List (List Int)
  d : Nat → Nat

/-- Marker of node `v`. -/
def astate.rix (a : astate) (v : Nat) : Nat := a.rindex.getD v 0

/-- The nodes on the depth-first path, current node first. -/
def astate.pathN (a : astate) : List Nat := a.u :: a.anc.map Prod.fst

/-- The path nodes with their edge positions, current node first. -/
def astate.pj (a : astate) : List (Nat × Nat) := (a.u, a.j) :: a.anc

/-- The nodes that are discovered but not yet assigned to a component. -/
def astate.opn (a : astate) : List Nat := a.pathN ++ a.comp

/-- The view relation between a concrete state and its list view. -/
structure Sim (graph : graph_t) (s : tarjan_state) (a : astate) : Prop where
  u : a.u = s.u
  j : a.j = s.j
  anc : a.anc = ((s.stack.take s.top).zip (s.estack.take s.top)).reverse
  comp : a.comp = s.stack.drop s.r
  rindex : a.rindex = s.rindex
  idx : a.idx = s.idx
  sccredges : a.sccredges = s.sccredges
  sccs : a.sccs = s.sccs
  stack_len : s.stack.length = graph.nodes
  estack_len : s.estack.length = graph.nodes
  top_le : s.top ≤ graph.nodes
  r_le : s.r ≤ graph.nodes

/-- The view relation when the `while(1)` loop has just left through `break`. -/
structure SimEnd (graph : graph_t) (s : tarjan_state) (a : astate) : Prop where
  comp : a.comp = s.stack.drop s.r
  rindex : a.rindex = s.rindex
  sccredges : a.sccredges = s.sccredges
  sccs : a.sccs = s.sccs
  stack_len : s.stack.length = graph.nodes
  estack_len : s.estack.length = graph.nodes
  top_zero : s.top = 0
  r_le : s.r ≤ graph.nodes

/-- Effect of finishing the current node on the list view (lines 336-374). -/
def afinish (graph : graph_t) (allcycles : Bool) (a : astate) : astate :=
  if a.rix a.u &&& 1 = 0 then
    let members := a.u :: a.comp.takeWhile (fun w => decide (a.rix a.u ≤ a.rix w))
    let a1 := { a with
      comp := a.comp.dropWhile (fun w => decide (a.rix a.u ≤ a.rix w))
      rindex := members.foldl (fun ri v => ri.set v UINT_ALL) a.rindex
      sccredges := members.foldl (fun bm v => (nbrs graph v).foldl bitmap_setbit bm) a.sccredges }
    if !allcycles then
      let bm := members.foldl bitmap_clearbit a1.sccredges
      if bitmap_empty bm graph.nodes then
        { a1 with sccredges := bm, sccs := a1.sccs ++ [members.map Int.ofNat ++ [-1]] }
      else { a1 with sccredges := bitmap_clear bm graph.nodes }
    else if members.length > 1 then
      { a1 with sccs := a1.sccs ++ [members.map Int.ofNat ++ [-1]] }
    else a1
  else { a with comp := a.u :: a.comp }

/-- Effect of one `while(1)` iteration on the list view. -/
def astep (graph : graph_t) (allcycles : Bool) (a : astate) : astate × Bool :=
  let v := graph.idx.getD (graph_edges_from graph a.u + a.j) (-1)
  if 0 ≤ v then
    let v := v.toNat
    if a.rix v = 0 then
      ({ a with
          u := v
          j := 0
          anc := (a.u, a.j + 1) :: a.anc
          idx := (a.idx + 2) % 2 ^ 32
          rindex := a.rindex.set v ((a.idx + 2) % 2 ^ 32)
          d := Function.update a.d v ((a.idx + 2) % 2 ^ 32) }, false)
    else if a.rix v < a.rix a.u then
      ({ a with j := a.j + 1, rindex := a.rindex.set a.u (a.rix v ||| 1) }, false)
    else ({ a with j := a.j + 1 }, false)
  else
    let a1 := afinish graph allcycles a
    match a.anc with
    | [] => (a1, true)
    | (p, jp) :: rest =>
      let a2 := { a1 with u := p, j := jp, anc := rest }
      if a1.rix a.u < a1.rix p then
        ({ a2 with rindex := a1.rindex.set p (a1.rix a.u ||| 1) }, false)
      else (a2, false)

/-- Discover the unvisited neighbour `b` (lines 323-329). -/
def a_tree (a : astate) (b : Nat) : astate :=
  { a with
    u := b
    j := 0
    anc := (a.u, a.j + 1) :: a.anc
    idx := a.idx + 2
    rindex := a.rindex.set b (a.idx + 2)
    d := Function.update a.d b (a.idx + 2) }

/-- Lower the marker of the path node `q` to the low-link of `y` (lines 331 and 383). -/
def a_lower (a : astate) (q y : Nat) : astate :=
  { a with rindex := a.rindex.set q (2 * (a.rix y / 2) + 1) }

/-- Move on to the next neighbour of the current node. -/
def a_advance (a : astate) : astate := { a with j := a.j + 1 }

/-- Put the finished current node on the completion stack and resume its parent. -/
def a_retreat (a : astate) (p jp : Nat) (rest : List (Nat × Nat)) : astate :=
  { a with u := p, j := jp, anc := rest, comp := a.u :: a.comp }

/-- Members of the component collected when the current node is a root. -/
def a_members (a : astate) : List Nat :=
  a.u :: a.comp.takeWhile (fun w => decide (a.rix a.u ≤ a.rix w))

/-- Remove the collected component from the completion stack and mark its members finished;
`bits` and `sccs` are the bitmap and the cluster list after the closure test. -/
def a_pop (a : astate) (bits : List Nat) (sccs : List (List Int)) : astate :=
  { a with
    comp := a.comp.dropWhile (fun w => decide (a.rix a.u ≤ a.rix w))
    rindex := (a_members a).foldl (fun ri v => ri.set v UINT_ALL) a.rindex
    sccredges := bits
    sccs := sccs }

/-- Resume the parent `p` at edge position `jp`. -/
def a_resume (a : astate) (p jp : Nat) (rest : List (Nat × Nat)) : astate :=
  { a with u := p, j := jp, anc := rest }

/-- The list view when the `while(1)` loop is entered for root `i`. -/
def a_start (s : tarjan_state) (i : Nat) : astate :=
  { u := i
    j := 0
    anc := []
    comp := []
    rindex := s.rindex.set i 2
    idx := 2
    sccredges := s.sccredges
    sccs := s.sccs
    d := fun _ => 2 }

/-! ## Invariants of the `while(1)` loop -/

/-- An already processed edge `w → b`: `b` is finished, or still open with a marker not below
the low-link of `w`. -/
def edge_done (a : astate) (w b : Nat) : Prop :=
  a.rix b = UINT_ALL ∨ (b ∈ a.opn ∧ a.rix w ≤ a.d b + 1)

/-- Shape of the open nodes and of their markers. -/
structure AShape (graph : graph_t) (a : astate) : Prop where
  rindex_len : a.rindex.length = graph.nodes
  bits_len : a.sccredges.length = bitmap_end graph.nodes
  nodup : a.opn.Nodup
  lt_nodes : ∀ v ∈ a.opn, v < graph.nodes
  opn_iff : ∀ v, v < graph.nodes → (v ∈ a.opn ↔ (a.rix v ≠ 0 ∧ a.rix v ≠ UINT_ALL))
  marker : ∀ v ∈ a.opn, 2 ≤ a.d v ∧ a.d v ≤ a.idx ∧ a.d v % 2 = 0 ∧ 2 ≤ a.rix v ∧
    (a.rix v = a.d v ∨ (a.rix v % 2 = 1 ∧ a.rix v < a.d v))
  idx_even : a.idx % 2 = 0
  idx_bound : a.idx + 2 * ((List.range graph.nodes).map
    (fun v => if a.rix v = 0 then 1 else 0)).sum ≤ 2 * graph.nodes
  d_inj : ∀ x ∈ a.opn, ∀ y ∈ a.opn, a.d x = a.d y → x = y
  path_sorted : a.pathN.Pairwise (fun x y => a.d y < a.d x)
  comp_pre : a.comp.Pairwise (fun w w' => ∀ p ∈ a.pathN, a.d p < a.d w' → a.d p < a.d w)
  comp_odd : ∀ w ∈ a.comp, a.rix w % 2 = 1
  root_two : ∃ v ∈ a.pathN, a.d v = 2

/-- Facts about the edges already looked at. -/
structure AEdge (graph : graph_t) (a : astate) : Prop where
  chain : List.Chain' (fun (x y : Nat × Nat) => 1 ≤ y.2 ∧ (nbrs graph y.1)[y.2 - 1]? = some x.1)
    a.pj
  processed : ∀ q ∈ a.pj, q.2 ≤ (nbrs graph q.1).length ∧
    ∀ k, k < q.2 → ∀ b, (nbrs graph q.1)[k]? = some b → edge_done a q.1 b
  finished : ∀ w ∈ a.comp, ∀ b ∈ nbrs graph w, edge_done a w b
  lowlink : ∀ p ∈ a.pathN, ∀ w ∈ a.comp, a.d p < a.d w →
    (∀ q ∈ a.pathN, a.d q ≤ a.d w → a.d q ≤ a.d p) → a.rix p / 2 ≤ a.rix w / 2
  done_closed : ∀ x, x < graph.nodes → a.rix x = UINT_ALL →
    ∀ b ∈ nbrs graph x, a.rix b = UINT_ALL

/-- Reachability facts about the open nodes. -/
structure AReach (graph : graph_t) (a : astate) : Prop where
  parent : ∀ w ∈ a.comp, ∃ x, Edge graph x w ∧ x ∈ a.opn ∧ a.d x < a.d w ∧
    ∀ p ∈ a.pathN, a.d p ≤ a.d w → a.d p ≤ a.d x
  low : ∀ w ∈ a.opn, ∃ x ∈ a.opn, a.d x = 2 * (a.rix w / 2) ∧
    ReachIn graph (fun z => z ∈ a.opn ∧ a.d x ≤ a.d z) w x

/-- What makes a collected component reportable: closed (leaf mode) or at least two members
(cycle mode). -/
def scc_crit (graph : graph_t) (allcycles : Bool) (m : List Nat) : Prop :=
  if allcycles then 2 ≤ m.length else ∀ x ∈ m, ∀ b ∈ nbrs graph x, b ∈ m

/-- Which nodes must end up in a reported cluster. -/
def scc_want (graph : graph_t) (allcycles : Bool) (v : Nat) : Prop :=
  if allcycles then on_cycle graph v else scc_closed graph v

/-- A reported cluster `c` with member list `m`. -/
structure good_scc (graph : graph_t) (allcycles : Bool) (c : List Int) (m : List Nat) : Prop where
  enc : c = m.map Int.ofNat ++ [-1]
  ne : m ≠ []
  nodup : m.Nodup
  lt_nodes : ∀ v ∈ m, v < graph.nodes
  conn : ∀ x ∈ m, ∀ y ∈ m, ReachIn graph (fun z => z ∈ m) x y
  maxl : ∀ x ∈ m, ∀ y, Reach graph x y → Reach graph y x → y ∈ m
  crit : scc_crit graph allcycles m

/-- Facts about the clusters reported so far; they only mention finished nodes, so they are
stated on the marker array. -/
structure AOut (graph : graph_t) (allcycles : Bool) (rindex : List Nat) (bits : List Nat)
    (sccs : List (List Int)) : Prop where
  good : ∀ c ∈ sccs, ∃ m, good_scc graph allcycles c m ∧ ∀ v ∈ m, rindex.getD v 0 = UINT_ALL
  complete : ∀ v, v < graph.nodes → rindex.getD v 0 = UINT_ALL → scc_want graph allcycles v →
    ∃ c ∈ sccs, v ∈ scc_members c
  disjoint : sccs.Pairwise (fun c c' => ∀ v, v ∈ scc_members c → v ∉ scc_members c')
  bits_zero : allcycles = false → ∀ w ∈ bits, w = 0

/-- The full invariant of the `while(1)` loop. -/
structure AInv (graph : graph_t) (allcycles : Bool) (a : astate) : Prop where
  shape : AShape graph a
  edge : AEdge graph a
  reach : AReach graph a
  out : AOut graph allcycles a.rindex a.sccredges a.sccs

/-- What holds when the `while(1)` loop leaves through `break`. -/
structure APost (graph : graph_t) (allcycles : Bool) (a : astate) : Prop where
  comp_nil : a.comp = []
  rindex_len : a.rindex.length = graph.nodes
  bits_len : a.sccredges.length = bitmap_end graph.nodes
  visited : ∀ v, v < graph.nodes → a.rix v = 0 ∨ a.rix v = UINT_ALL
  done_closed : ∀ x, x < graph.nodes → a.rix x = UINT_ALL →
    ∀ b ∈ nbrs graph x, a.rix b = UINT_ALL
  out : AOut graph allcycles a.rindex a.sccredges a.sccs

/-- Remaining work of the `while(1)` loop: edge slots of undiscovered nodes plus the edge slots
still to be read on the path. -/
def ameasure (graph : graph_t) (a : astate) : Nat :=
  ((List.range graph.nodes).map
    (fun v => if a.rix v = 0 then (nbrs graph v).length + 1 else 0)).sum +
  (a.pj.map (fun q => (nbrs graph q.1).length + 1 - q.2)).sum

/-- Invariant of the outer `for` loop, before the iteration for node `i`. -/
structure BInv (graph : graph_t) (allcycles : Bool) (i : Nat) (s : tarjan_state) : Prop where
  stack_len : s.stack.length = graph.nodes
  estack_len : s.estack.length = graph.nodes
  rindex_len : s.rindex.length = graph.nodes
  bits_len : s.sccredges.length = bitmap_end graph.nodes
  top_zero : s.top = 0
  r_full : s.r = graph.nodes
  visited : ∀ v, v < graph.nodes → s.rindex.getD v 0 = 0 ∨ s.rindex.getD v 0 = UINT_ALL
  below : ∀ v, v < i → v < graph.nodes → s.rindex.getD v 0 = UINT_ALL
  done_closed : ∀ x, x < graph.nodes → s.rindex.getD x 0 = UINT_ALL →
    ∀ b ∈ nbrs graph x, s.rindex.getD b 0 = UINT_ALL
  out : AOut graph allcycles s.rindex s.sccredges s.sccs

/-- The shapes the result of `astep` can take. -/
inductive StepCase (g : graph_t) (ac : Bool) (a : astate) : Prop where
  | tree (b : Nat) (hbj : (nbrs g a.u)[a.j]? = some b) (hb : b < g.nodes) (h0 : a.rix b = 0)
      (heq : astep g ac a = (a_tree a b, false))
  | back (b : Nat) (hbj : (nbrs g a.u)[a.j]? = some b) (hb : b < g.nodes) (h0 : a.rix b ≠ 0)
      (hlt : a.rix b < a.rix a.u)
      (heq : astep g ac a = (a_advance (a_lower a a.u b), false))
  | skip (b : Nat) (hbj : (nbrs g a.u)[a.j]? = some b) (hb : b < g.nodes) (h0 : a.rix b ≠ 0)
      (hlt : ¬ a.rix b < a.rix a.u) (heq : astep g ac a = (a_advance a, false))
  | ret_low (p jp : Nat) (rest : List (Nat × Nat)) (hj : a.j = (nbrs g a.u).length)
      (hodd : a.rix a.u % 2 = 1) (hanc : a.anc = (p, jp) :: rest) (hlt : a.rix a.u < a.rix p)
      (heq : astep g ac a = (a_retreat (a_lower a p a.u) p jp rest, false))
  | ret (p jp : Nat) (rest : List (Nat × Nat)) (hj : a.j = (nbrs g a.u).length)
      (hodd : a.rix a.u % 2 = 1) (hanc : a.anc = (p, jp) :: rest) (hlt : ¬ a.rix a.u < a.rix p)
      (heq : astep g ac a = (a_retreat a p jp rest, false))
  | pop (p jp : Nat) (rest : List (Nat × Nat)) (hj : a.j = (nbrs g a.u).length)
      (hroot : a.rix a.u % 2 = 0) (hanc : a.anc = (p, jp) :: rest)
      (heq : astep g ac a = (a_resume (a_pop a (afinish g ac a).sccredges
        (afinish g ac a).sccs) p jp rest, false))
  | brk (hj : a.j = (nbrs g a.u).length) (hroot : a.rix a.u % 2 = 0) (hanc : a.anc = [])
      (heq : astep g ac a = (afinish g ac a, true))

/-! ## Example inputs -/

/-- The four-node example graph with edges 0 → 3, 1 → 3 and 3 → 1; node 2 has no edges. -/
def example_graph : graph_t :=
  { nodes := 4, edges := 3, idx := [4, 6, 8, 9, 3, -1, 3, -1, -1, 1, -1] }

/-! ## Package store (libalpm), edge resolver and graph builder -/

/-- The package store as the core sees it. Packages and dependency constraints are opaque
handles; `depends` and `optdepends` give a package's mandatory and optional constraints,
`satisfies p dep` tells whether package `p` satisfies constraint `dep` (the test made by
`alpm_find_satisfier`), `name` and `version` are the strings printed in the report. -/
structure pkg_store where
  depends : Nat → List Nat
  optdepends : Nat → List Nat
  satisfies : Nat → Nat → Bool
  name : Nat → String
  version : Nat → String

/-- The libalpm call `alpm_find_satisfier(pkgs, depstring)`: the first package of the list that
satisfies the constraint, if any. -/
def alpm_find_satisfier (st : pkg_store) (pkgs : List Nat) (dep : Nat) : Option Nat :=
  pkgs.find? (fun p => st.satisfies p dep)

/-- The libalpm call `alpm_list_msort(list, n, fn)`: a stable merge sort by the comparison `fn`
(`a` stays before `b` when `fn a b <= 0`). It is represented by the stable insertion sort, which
returns the same list. -/
def alpm_list_msort {α : Type} (list : List α) (_n : Nat) (fn : α → α → Int) : List α :=
  list.insertionSort (fun a b => fn a b ≤ 0)

/-- The scan of `pkgs_index_of` starting at position `i`; `-1` when `pkg` does not occur. -/
def pkgs_index_from (i : Nat) : List Nat → Nat → Int
  | [], _ => -1
  | p :: rest, pkg => if p = pkg then (i : Int) else pkgs_index_from (i + 1) rest pkg

/-- The function `pkgs_index_of`. -/
def pkgs_index_of (pkgs : List Nat) (pkg : Nat) : Int := pkgs_index_from 0 pkgs pkg

/-- The struct `edge_t`. -/
structure edge_t where
  u : Int
  v : Int
deriving DecidableEq

/-- The function `append_edge` (allocation assumed to succeed). -/
def append_edge (edges : List edge_t) (u v : Int) : List edge_t := edges ++ [{ u := u, v := v }]

/-- The function `append_edges` for dependent `v`: the new edge list and the new candidate list
`copy`. Removing the node of `fst` (`pkgs_node_of` followed by `alpm_list_remove_item`) erases its
first occurrence; `alpm_list_join(node, copy)` puts it back in front. String computation and
allocation are assumed to succeed, so the function always reports success. -/
def append_edges (st : pkg_store) (edges : List edge_t) (v : Nat) (deps : List Nat)
    (pkgs : List Nat) (copy : List Nat) : List edge_t × List Nat :=
  match deps with
  | [] => (edges, copy)
  | dep :: rest =>
    match alpm_find_satisfier st copy dep with
    | none => append_edges st edges v rest pkgs copy
    | some fst =>
      let removed := copy.erase fst
      let snd := alpm_find_satisfier st removed dep
      let copy1 := fst :: removed
      match snd with
      | some _ => append_edges st edges v rest pkgs copy1
      | none =>
        let u := pkgs_index_of pkgs fst
        if u = (v : Int) then append_edges st edges v rest pkgs copy1
        else append_edges st (append_edge edges u v) v rest pkgs copy1

/-- The function `edge_compare`. -/
def edge_compare (x y : edge_t) : Int :=
  let ret := x.u - y.u
  if ret ≠ 0 then ret else x.v - y.v

/-- The first loop of `graph_build_rdepends` (lines 209-223), from package number `i` on. -/
def build_edges (st : pkg_store) (optdepends : Bool) (pkgs : List Nat) :
    List Nat → Nat → List edge_t → List Nat → List edge_t × List Nat
  | [], _, edges, copy => (edges, copy)
  | pkg :: rest, i, edges, copy =>
    let r1 := append_edges st edges i (st.depends pkg) pkgs copy
    let r2 := if optdepends then append_edges st r1.1 i (st.optdepends pkg) pkgs r1.2 else r1
    build_edges st optdepends pkgs rest (i + 1) r2.1 r2.2

/-- The duplicate-removal loop (lines 229-240) with `x` the element at `it`. -/
def dedup_from (x : edge_t) : List edge_t → List edge_t
  | [] => [x]
  | y :: rest => if edge_compare x y = 0 then dedup_from x rest else x :: dedup_from y rest

/-- The duplicate-removal loop (lines 229-240). -/
def dedup_edges : List edge_t → List edge_t
  | [] => []
  | x :: rest => dedup_from x rest

/-- The function `graph_alloc` (allocation assumed to succeed); the fresh array is modelled as
zero-filled. -/
def graph_alloc (nodes edges : Nat) : graph_t :=
  { nodes := nodes, edges := edges, idx := List.replicate (2 * nodes + edges) 0 }

/-- The inner loop of the layout (lines 248-255): copy the edges of node `i`. The result is the
remaining edge list, the array and the write index. -/
def layout_row (i : Nat) : List edge_t → List Int → Nat → List edge_t × List Int × Nat
  | [], idx, j => ([], idx, j)
  | e :: rest, idx, j =>
    if e.u ≠ (i : Int) then (e :: rest, idx, j)
    else layout_row i rest (idx.set j e.v) (j + 1)

/-- The layout loop (lines 246-257) for `n` more nodes starting at node `i`. -/
def layout_rows : Nat → Nat → List edge_t → List Int → Nat → List edge_t × List Int × Nat
  | 0, _, it, idx, j => (it, idx, j)
  | n + 1, i, it, idx, j =>
    let r := layout_row i it (idx.set i (j : Int)) j
    layout_rows n (i + 1) r.1 (r.2.1.set r.2.2 (-1)) (r.2.2 + 1)

/-- The function `graph_build_rdepends` (all allocations assumed to succeed). -/
def graph_build_rdepends (st : pkg_store) (pkgs : List Nat) (optdepends : Bool) : graph_t :=
  let copy := pkgs
  let edges := (build_edges st optdepends pkgs pkgs 0 [] copy).1
  let nnodes := pkgs.length
  let sorted := alpm_list_msort edges edges.length edge_compare
  let uniq := dedup_edges sorted
  let nedges := uniq.length
  let graph := graph_alloc nnodes nedges
  { graph with idx := (layout_rows nnodes 0 uniq graph.idx nnodes).2.1 }

/-- The constraints of package `q` that the builder looks at: the mandatory ones, then the
optional ones when `optdepends` is set. -/
def considered (st : pkg_store) (optdepends : Bool) (q : Nat) : List Nat :=
  st.depends q ++ (if optdepends then st.optdepends q else [])

/-- Package `p` is the only installed package that satisfies `dep`. -/
def unique_sat (st : pkg_store) (pkgs : List Nat) (dep p : Nat) : Prop :=
  p ∈ pkgs ∧ st.satisfies p dep = true ∧ ∀ w ∈ pkgs, st.satisfies w dep = true → w = p

/-- The edge `e` is forced by the constraints `deps` of the package with number `v`. -/
def forced_edge (st : pkg_store) (pkgs : List Nat) (v : Nat) (deps : List Nat) (e : edge_t) :
    Prop :=
  e.v = (v : Int) ∧ ∃ dep ∈ deps, ∃ p, unique_sat st pkgs dep p ∧
    e.u = pkgs_index_of pkgs p ∧ e.u ≠ (v : Int)

/-- An edge whose ends are package numbers and that is not a self-loop. -/
def edge_ok (n : Nat) (e : edge_t) : Prop :=
  0 ≤ e.u ∧ e.u < (n : Int) ∧ 0 ≤ e.v ∧ e.v < (n : Int) ∧ e.u ≠ e.v

/-- The edges leaving node `i` at the front of the remaining sorted edge list. -/
def row_of (i : Nat) (it : List edge_t) : List edge_t :=
  it.takeWhile (fun e => decide (e.u = (i : Int)))

/-- The edge list that remains after the edges of node `i`. -/
def rest_of (i : Nat) (it : List edge_t) : List edge_t :=
  it.dropWhile (fun e => decide (e.u = (i : Int)))

/-- The row offsets the layout loop writes for `n` nodes starting at node `i`, with write
index `j`. -/
def spec_ptrs : Nat → Nat → List edge_t → Nat → List Int
  | 0, _, _, _ => []
  | n + 1, i, it, j =>
    (j : Int) :: spec_ptrs n (i + 1) (rest_of i it) (j + (row_of i it).length + 1)

/-- The neighbour lists the layout loop writes for `n` nodes starting at node `i`. -/
def spec_body : Nat → Nat → List edge_t → List Int
  | 0, _, _ => []
  | n + 1, i, it =>
    (row_of i it).map (fun e => e.v) ++ (-1 : Int) :: spec_body n (i + 1) (rest_of i it)

/-- The edges of node `i + k` as the layout loop meets them, `n` nodes remaining. -/
def rowk : Nat → Nat → List edge_t → Nat → List edge_t
  | 0, _, _, _ => []
  | _ + 1, i, it, 0 => row_of i it
  | n + 1, i, it, k + 1 => rowk n (i + 1) (rest_of i it) k

/-- The sorted, duplicate-free edge list from which `graph_build_rdepends` lays out the graph. -/
def build_uniq (st : pkg_store) (pkgs : List Nat) (optdepends : Bool) : List edge_t :=
  dedup_edges (alpm_list_msort (build_edges st optdepends pkgs pkgs 0 [] pkgs).1
    (build_edges st optdepends pkgs pkgs 0 [] pkgs).1.length edge_compare)

/-! ## Reporting (`main`) -/

/-- The function `sort_by_first`. -/
def sort_by_first (x y : List Int) : Int := x.getD 0 0 - y.getD 0 0

/-- Exit status `EXIT_SUCCESS`. -/
def EXIT_SUCCESS : Nat := 0

/-- Exit status `EXIT_FAILURE`. -/
def EXIT_FAILURE : Nat := 1

/-- The struct `config_t` after `parseargs`. -/
structure config_t where
  root : String
  dbpath : String
  allcycles : Bool
  optdepends : Bool

/-- The clusters in the order in which `main` prints them: the result of `tarjan` sorted with
`sort_by_first`. -/
def report_order (graph : graph_t) (allcycles : Bool) : Option (List (List Int)) :=
  (tarjan graph allcycles).map (fun sccs => alpm_list_msort sccs sccs.length sort_by_first)

/-- The inner printing loop of `main` for one cluster, starting with marker `mark`. -/
def print_scc (st : pkg_store) (pkgs : List Nat) : List Int → Char → String
  | [], _ => ""
  | i :: rest, mark =>
    if 0 ≤ i then
      let pkg := pkgs.getD i.toNat 0
      String.singleton mark ++ " " ++ st.name pkg ++ " " ++ st.version pkg ++ "\n" ++
        print_scc st pkgs rest ' '
    else ""

/-- The printing loop of `main` over all clusters. -/
def print_sccs (st : pkg_store) (pkgs : List Nat) : List (List Int) → String
  | [] => ""
  | scc :: rest => print_scc st pkgs scc '-' ++ print_sccs st pkgs rest

/-- The part of `main` after a successful `parseargs` (lines 483-537): exit status and text
written to standard output. `handle_ok` tells whether `alpm_initialize` succeeded, `pkgs` is the
list returned by `alpm_db_get_pkgcache` (the empty list is the null pointer), `release_ok` tells
whether `alpm_release` succeeded. Allocations are assumed to succeed; the branch for an exhausted
step budget of `tarjan` has no counterpart in the source. -/
def main_run (st : pkg_store) (config : config_t) (handle_ok : Bool) (pkgs : List Nat)
    (release_ok : Bool) : Nat × String :=
  if !handle_ok then (EXIT_FAILURE, "")
  else if pkgs.isEmpty then (EXIT_FAILURE, "")
  else
    let rgraph := graph_build_rdepends st pkgs config.optdepends
    match report_order rgraph config.allcycles with
    | none => (EXIT_FAILURE, "")
    | some sccs =>
      (if release_ok then EXIT_SUCCESS else EXIT_FAILURE, print_sccs st pkgs sccs)

/-- The numerically smallest member of a cluster (`0` for a cluster without members). -/
def scc_min (scc : List Int) : Nat :=
  (scc_members scc).foldl min ((scc_members scc).headD 0)

/-! ## Example package stores -/

/-- Two packages `10` and `20`: the only constraint `100` of package `10` is satisfied by `20`
alone, the only constraint `200` of package `20` is satisfied by `10` alone. -/
def example_store : pkg_store :=
  { depends := fun p => if p = 10 then [100] else if p = 20 then [200] else []
    optdepends := fun _ => []
    satisfies := fun p d => (p == 20 && d == 100) || (p == 10 && d == 200)
    name := fun p => if p = 10 then "a" else "b"
    version := fun _ => "1" }

/-- Two packages `10` and `20`: the only constraint `100` of package `10` is satisfied by `20`
alone, package `20` has no constraints. -/
def example_store_leaf : pkg_store :=
  { depends := fun p => if p = 10 then [100] else []
    optdepends := fun _ => []
    satisfies := fun p d => p == 20 && d == 100
    name := fun p => if p = 10 then "a" else "b"
    version := fun _ => "1" }

/-- The default configuration of `main`. -/
def example_config : config_t :=
  { root := "/", dbpath := "/var/lib/pacman", allcycles := false, optdepends := false }

/-! ## Optional constraints treated as mandatory ones -/

/-- The package store in which every package's optional constraints have been appended to its
mandatory constraints. -/
def merge_optdepends (st : pkg_store) : pkg_store :=
  { st with depends := fun p => st.depends p ++ st.optdepends p }

/-- A store that differs from `example_store` only in the optional constraints. -/
def example_store_opt : pkg_store :=
  { example_store with optdepends := fun p => if p = 10 then [200, 100] else [100] }

/-! ## The report as a list of lines -/

/-- One report line: the marker, a space, the package name, a space, the package version and a
newline, for the package with number `i`. -/
def report_line (st : pkg_store) (pkgs : List Nat) (mark : Char) (i : Nat) : String :=
  String.singleton mark ++ " " ++ st.name (pkgs.getD i 0) ++ " " ++ st.version (pkgs.getD i 0) ++
    "\n"

/-- The lines of one cluster with members `m`: marker `-` for the first member, a space for
every later one. -/
def cluster_lines (st : pkg_store) (pkgs : List Nat) : List Nat → List String
  | [] => []
  | i :: rest => report_line st pkgs '-' i :: rest.map (report_line st pkgs ' ')

/-- The lines of the whole report: the lines of each cluster, in cluster order. -/
def report_lines (st : pkg_store) (pkgs : List Nat) (sccs : List (List Int)) : List String :=
  sccs.flatMap (fun scc => cluster_lines st pkgs (scc_members scc))

/-! ## Command line (`usage`, `parseargs`, `main`) -/

/-- The text written by the `printf` calls of `usage`. -/
def usage_text (myname : String) : String :=
  "usage:  " ++ myname ++ " [option(s)] [operation]\n" ++
  "operations:\n" ++
  "  " ++ myname ++ " \x7b-c --cycles\x7d     show all dependency cycles found\n" ++
  "  " ++ myname ++ " \x7b-h --help\x7d       show this help\n" ++
  "\noptions:\n" ++
  "  -o, --optdepends     treat optional dependencies as dependencies\n" ++
  "  -b, --dbpath <path>  set an alternate database location\n" ++
  "  -r, --root <path>    set an alternate installation root\n"

/-- The function `usage`: its return value and the text it writes to standard output. -/
def usage (myname : String) : Int × String := (1, usage_text myname)

/-- The function `parseargs`. The library call `getopt_long` is represented by the values it
returns one after the other, each with the `optarg` it sets (`--help` and `-h` both give `h`, an
invalid option gives `?`), and by `operands`, the arguments left over when it returns `-1`
(`optind < argc` exactly when there are some). The result is the return value, the
configuration and the text written to standard output. -/
def parseargs (config : config_t) (myname : String) :
    List (Char × String) → List String → Int × config_t × String
  | [], operands => if operands ≠ [] then (-1, config, "") else (0, config, "")
  | (opt, optarg) :: rest, operands =>
    if opt = 'c' then parseargs { config with allcycles := true } myname rest operands
    else if opt = 'h' then ((usage myname).1, config, (usage myname).2)
    else if opt = 'o' then parseargs { config with optdepends := true } myname rest operands
    else if opt = 'r' then parseargs { config with root := optarg } myname rest operands
    else if opt = 'b' then parseargs { config with dbpath := optarg } myname rest operands
    else if opt = '?' then (-1, config, "")
    else parseargs config myname rest operands

/-- The function `main`: exit status and text written to standard output. The command line is
given as for `parseargs`, the package store as for `main_run`. -/
def main (st : pkg_store) (myname : String) (opts : List (Char × String))
    (operands : List String) (handle_ok : Bool) (pkgs : List Nat) (release_ok : Bool) :
    Nat × String :=
  let config : config_t :=
    { root := "/", dbpath := "/var/lib/pacman", allcycles := false, optdepends := false }
  let ret := parseargs config myname opts operands
  if ret.1 ≠ 0 then (if ret.1 < 0 then EXIT_FAILURE else EXIT_SUCCESS, ret.2.2)
  else
    let out := main_run st ret.2.1 handle_ok pkgs release_ok
    (out.1, ret.2.2 ++ out.2)

/-! ## Sequences of bitmap operations -/

/-- One call on a bitmap: `bitmap_setbit(i)`, `bitmap_clearbit(i)` or `bitmap_clear`. -/
inductive bitmap_op where
  | setbit (i : Nat)
  | clearbit (i : Nat)
  | clear
deriving DecidableEq

/-- The call `op` on a bitmap for `len` bits. -/
def bitmap_apply (len : Nat) (bitmap : List Nat) : bitmap_op → List Nat
  | bitmap_op.setbit i => bitmap_setbit bitmap i
  | bitmap_op.clearbit i => bitmap_clearbit bitmap i
  | bitmap_op.clear => bitmap_clear bitmap len

/-- The bitmap reached from `bitmap_new(len)` by the calls `ops`, first call first. -/
def bitmap_run (len : Nat) (ops : List bitmap_op) : List Nat :=
  ops.foldl (bitmap_apply len) (bitmap_new len)

/-- The index of a `setbit` or `clearbit` call is below `len`. -/
def op_in_range (len : Nat) : bitmap_op → Prop
  | bitmap_op.setbit i => i < len
  | bitmap_op.clearbit i => i < len
  | bitmap_op.clear => True

instance (len : Nat) (op : bitmap_op) : Decidable (op_in_range len op) := by
  cases op <;> unfold op_in_range <;> infer_instance

/-- Whether index `k` is set after the calls `ops`, given latest call first: the latest call
that is `setbit(k)`, `clearbit(k)` or `clear` is `setbit(k)`. -/
def set_latest : List bitmap_op → Nat → Bool
  | [], _ => false
  | bitmap_op.setbit i :: earlier, k => if i = k then true else set_latest earlier k
  | bitmap_op.clearbit i :: earlier, k => if i = k then false else set_latest earlier k
  | bitmap_op.clear :: _, _ => false

/-- Whether index `k` is set after the calls `ops`, first call first. -/
def is_set (ops : List bitmap_op) (k : Nat) : Bool := set_latest ops.reverse k

/-! ## The states `tarjan` runs through -/

/-- The state on entry to the `while(1)` loop for root `i` (lines 316-319). -/
def tarjan_enter (s : tarjan_state) (i : Nat) : tarjan_state :=
  { s with u := i, j := 0, idx := 2, rindex := s.rindex.set i 2 }

/-- The state at the top of the `while(1)` loop after `n` iterations; `none` when the loop has
left through `break` before. -/
def tarjan_iter (graph : graph_t) (allcycles : Bool) : Nat → tarjan_state → Option tarjan_state
  | 0, s => some s
  | n + 1, s =>
    match tarjan_step graph allcycles s with
    | (_, true) => none
    | (s1, false) => tarjan_iter graph allcycles n s1

/-- The state at the top of the `while(1)` loop in the traversal started by the outer loop at
`i = k`, after `n` iterations; `none` when `k` is not a node, was visited before, or the loop has
left before. -/
def tarjan_at (graph : graph_t) (allcycles : Bool) (k n : Nat) : Option tarjan_state :=
  match tarjan_for graph allcycles (tarjan_fuel graph) k 0 (tarjan_init graph) with
  | none => none
  | some s =>
    if k < graph.nodes ∧ s.rindex.getD k 0 = 0 then
      tarjan_iter graph allcycles n (tarjan_enter s k)
    else none

/-- The condition `r < N && uidx <= rindex[stack[r]]` of the `do ... while` loop. -/
def tarjan_collect_cond (graph : graph_t) (uidx : Nat) (s : tarjan_state) : Prop :=
  s.r < graph.nodes ∧ uidx ≤ s.rindex.getD (s.stack.getD s.r 0) 0

/-- The iteration of the `while(1)` loop that starts in state `s` enters the `do ... while`
loop: the neighbour list of `u` is exhausted and the marker of `u` is even. -/
def tarjan_collects (graph : graph_t) (s : tarjan_state) : Prop :=
  graph.idx.getD (graph_edges_from graph s.u + s.j) (-1) < 0 ∧ s.rindex.getD s.u 0 &&& 1 = 0

instance (graph : graph_t) (s : tarjan_state) : Decidable (tarjan_collects graph s) := by
  unfold tarjan_collects; infer_instance

/-- The state right after the `do ... while` loop (line 351) in the iteration that starts in
state `s`: `j` has been advanced by the read of line 321 and `u` pushed by line 336. -/
def tarjan_collected (graph : graph_t) (s : tarjan_state) : tarjan_state :=
  tarjan_collect graph (s.rindex.getD s.u 0) graph.nodes
    { s with j := s.j + 1, r := s.r - 1, stack := s.stack.set (s.r - 1) s.u }

/-- The entries `stack[scc], ..., stack[r - 1]` right after the `do ... while` loop in the
iteration that starts in state `s` (`scc` is the value of `r` after `stack[--r] = u`). -/
def tarjan_cluster (graph : graph_t) (s : tarjan_state) : List Nat :=
  ((tarjan_collected graph s).stack.drop (s.r - 1)).take
    ((tarjan_collected graph s).r - (s.r - 1))

/-- The three-node graph with edges 0 → 1, 0 → 2, 1 → 0 and 2 → 0. -/
def example_fork : graph_t :=
  { nodes := 3, edges := 4, idx := [3, 6, 8, 1, 2, -1, 0, -1, 0, -1] }

/-- The state of the run on `example_graph` in closed-leaf mode at the top of the `while(1)` loop
after five iterations of the traversal from node 0: the component of nodes 3 and 1 has been
reported and node 0 is about to finish. -/
def example_state : tarjan_state :=
  { stack := [0, 3, 3, 1], estack := [1, 1, 0, 0], rindex := [2, 4294967295, 0, 4294967295],
    sccredges := [0], sccs := [[3, 1, -1]], idx := 6, r := 4, top := 0, u := 0, j := 1 }

/-- The state of the run on `example_fork` in closed-leaf mode at the top of the `while(1)` loop
after six iterations of the traversal from node 0: nodes 1 and 2 lie on the completion stack
and node 0 is about to finish. -/
def example_fork_state : tarjan_state :=
  { stack := [0, 2, 1], estack := [2, 0, 0], rindex := [2, 3, 3], sccredges := [0], sccs := [],
    idx := 6, r := 1, top := 0, u := 0, j := 2 }

/-! ## The array accesses of `tarjan`, with bounds checks

The functions below repeat `tarjan_step` and the functions it uses, with every access to `stack`,
`estack`, `rindex` and the bitmap checked against the array bounds: the result is `none` as soon
as an index is outside its array, or a push on one of the two stacks that share `stack` would
overwrite an entry of the other one. Reads of the graph are as in the unchecked functions. -/

/-- The read `a[i]`; `none` when `i` is outside the array. -/
def array_read (a : List Nat) (i : Nat) : Option Nat := a[i]?

/-- The write `a[i] = x`; `none` when `i` is outside the array. -/
def array_write (a : List Nat) (i x : Nat) : Option (List Nat) :=
  if i < a.length then some (a.set i x) else none

/-- Checked `bitmap_setbit`. -/
def bitmap_setbit_chk (bitmap : List Nat) (i : Nat) : Option (List Nat) := do
  let w ← array_read bitmap (i / BITS_PER_LONG)
  array_write bitmap (i / BITS_PER_LONG) (w ||| BIT (i % BITS_PER_LONG))

/-- Checked `bitmap_clearbit`. -/
def bitmap_clearbit_chk (bitmap : List Nat) (i : Nat) : Option (List Nat) := do
  let w ← array_read bitmap (i / BITS_PER_LONG)
  array_write bitmap (i / BITS_PER_LONG) (w &&& (2 ^ BITS_PER_LONG - 1 - BIT (i % BITS_PER_LONG)))

/-- The loop of `bitmap_empty` from word `i`, with `n` words to go, reads checked. -/
def bitmap_empty_from (bitmap : List Nat) : Nat → Nat → Option Bool
  | 0, _ => some true
  | n + 1, i => do
    let w ← array_read bitmap i
    if w ≠ 0 then some false else bitmap_empty_from bitmap n (i + 1)

/-- Checked `bitmap_empty`. -/
def bitmap_empty_chk (bitmap : List Nat) (len : Nat) : Option Bool :=
  bitmap_empty_from bitmap (bitmap_end len) 0

/-- Checked `bitmap_clear`: the `memset` must stay inside the array. -/
def bitmap_clear_chk (bitmap : List Nat) (len : Nat) : Option (List Nat) :=
  if bitmap_end len ≤ bitmap.length then some (bitmap_clear bitmap len) else none

/-- Checked `append_scc` for the entries `stack[scc], ..., stack[scc + len - 1]`: the `memcpy`
must read inside the array. -/
def append_scc_chk (sccs : List (List Int)) (stack : List Nat) (scc len : Nat) :
    Option (List (List Int)) :=
  if scc + len ≤ stack.length then some (append_scc sccs (stack.drop scc) len) else none

/-- Checked `tarjan_mark_edges`. -/
def tarjan_mark_edges_chk (graph : graph_t) : Nat → Nat → List Nat → Option (List Nat)
  | 0, _, bitmap => some bitmap
  | fuel + 1, pos, bitmap =>
    let w := graph.idx.getD pos (-1)
    if 0 ≤ w then do
      let bm ← bitmap_setbit_chk bitmap w.toNat
      tarjan_mark_edges_chk graph fuel (pos + 1) bm
    else some bitmap

/-- Checked `tarjan_pop_one`. -/
def tarjan_pop_one_chk (graph : graph_t) (s : tarjan_state) : Option tarjan_state := do
  let v ← array_read s.stack s.r
  let rindex ← array_write s.rindex v UINT_ALL
  let bits ← tarjan_mark_edges_chk graph (graph.idx.length + 1) (graph_edges_from graph v)
    s.sccredges
  some { s with r := s.r + 1, rindex := rindex, sccredges := bits }

/-- Checked `tarjan_collect`. -/
def tarjan_collect_chk (graph : graph_t) (uidx : Nat) : Nat → tarjan_state → Option tarjan_state
  | 0, s => tarjan_pop_one_chk graph s
  | fuel + 1, s => do
    let s1 ← tarjan_pop_one_chk graph s
    if s1.r < graph.nodes then do
      let w ← array_read s1.stack s1.r
      let x ← array_read s1.rindex w
      if uidx ≤ x then tarjan_collect_chk graph uidx fuel s1 else some s1
    else some s1

/-- Checked `tarjan_clear_members`. -/
def tarjan_clear_members_chk (stack : List Nat) (scc r : Nat) (bitmap : List Nat) :
    Option (List Nat) :=
  (List.range' scc (r - scc)).foldlM
    (fun bm j => do
      let v ← array_read stack j
      bitmap_clearbit_chk bm v) bitmap

/-- Checked `tarjan_finish`; `none` also when `stack[--r] = u` would leave the array or
overwrite an entry of the depth-first stack `stack[0..top)`. -/
def tarjan_finish_chk (graph : graph_t) (allcycles : Bool) (s : tarjan_state) :
    Option tarjan_state :=
  if s.r = 0 ∨ s.r - 1 < s.top then none
  else do
    let stack ← array_write s.stack (s.r - 1) s.u
    let s1 := { s with r := s.r - 1, stack := stack }
    let uidx ← array_read s1.rindex s1.u
    if uidx &&& 1 = 0 then do
      let scc := s1.r
      let s2 ← tarjan_collect_chk graph uidx graph.nodes s1
      if !allcycles then do
        let bits ← tarjan_clear_members_chk s2.stack scc s2.r s2.sccredges
        let s3 := { s2 with sccredges := bits, j := max scc s2.r }
        let e ← bitmap_empty_chk s3.sccredges graph.nodes
        if e then do
          let sccs ← append_scc_chk s3.sccs s3.stack scc (s3.r - scc)
          some { s3 with sccs := sccs }
        else do
          let cleared ← bitmap_clear_chk s3.sccredges graph.nodes
          some { s3 with sccredges := cleared }
      else if s2.r - scc > 1 then do
        let sccs ← append_scc_chk s2.sccs s2.stack scc (s2.r - scc)
        some { s2 with sccs := sccs }
      else some s2
    else some s1

/-- Checked `tarjan_step`; `none` also when the push `stack[top++] = u` would overwrite an entry
of the completion stack `stack[r..N)`. -/
def tarjan_step_chk (graph : graph_t) (allcycles : Bool) (s : tarjan_state) :
    Option (tarjan_state × Bool) :=
  let v := graph.idx.getD (graph_edges_from graph s.u + s.j) (-1)
  let s := { s with j := s.j + 1 }
  if 0 ≤ v then
    let v := v.toNat
    do
      let rv ← array_read s.rindex v
      if rv = 0 then
        if s.r ≤ s.top then none
        else do
          let estack ← array_write s.estack s.top s.j
          let stack ← array_write s.stack s.top s.u
          let rindex ← array_write s.rindex v ((s.idx + 2) % 2 ^ 32)
          some ({ s with
            estack := estack
            stack := stack
            top := s.top + 1
            u := v
            j := 0
            idx := (s.idx + 2) % 2 ^ 32
            rindex := rindex }, false)
      else do
        let ru ← array_read s.rindex s.u
        if rv < ru then do
          let rindex ← array_write s.rindex s.u (rv ||| 1)
          some ({ s with rindex := rindex }, false)
        else some (s, false)
  else do
    let s ← tarjan_finish_chk graph allcycles s
    if s.top = 0 then some (s, true)
    else do
      let v := s.u
      let u ← array_read s.stack (s.top - 1)
      let j ← array_read s.estack (s.top - 1)
      let s := { s with top := s.top - 1, u := u, j := j }
      let rv ← array_read s.rindex v
      let ru ← array_read s.rindex u
      if rv < ru then do
        let rindex ← array_write s.rindex u (rv ||| 1)
        some ({ s with rindex := rindex }, false)
      else some (s, false)

/-! ## Arithmetic and list helpers -/

theorem lor_one (x : Nat) : x ||| 1 = 2 * (x / 2) + 1 := by
  apply Nat.eq_of_testBit_eq
  intro i
  rw [Nat.testBit_or]
  cases i with
  | zero =>
    simp only [Nat.testBit_zero]
    have h1 : (2 * (x / 2) + 1) % 2 = 1 := by omega
    simp [h1]
  | succ i =>
    simp only [Nat.testBit_succ]
    have h1 : (2 * (x / 2) + 1) / 2 = x / 2 := by omega
    simp [h1]

theorem getD_set_eq {α : Type} (l : List α) (i : Nat) (x d : α) (h : i < l.length) :
    (l.set i x).getD i d = x := by
  simp [List.getD_eq_getElem?_getD, List.getElem?_set, h]

theorem getD_set_ne {α : Type} (l : List α) (i k : Nat) (x d : α) (h : i ≠ k) :
    (l.set i x).getD k d = l.getD k d := by
  simp [List.getD_eq_getElem?_getD, List.getElem?_set, h]

theorem getD_of_getElem? {α : Type} (l : List α) (i : Nat) (x d : α) (h : l[i]? = some x) :
    l.getD i d = x := by
  simp [List.getD_eq_getElem?_getD, h]

theorem takeWhile_getElem? {α : Type} (p : α → Bool) (l : List α) (k : Nat)
    (h : k < (l.takeWhile p).length) : (l.takeWhile p)[k]? = l[k]? := by
  induction l generalizing k with
  | nil => simp at h
  | cons x xs ih =>
    by_cases hp : p x = true
    · rw [List.takeWhile_cons_of_pos hp] at h ⊢
      cases k with
      | zero => simp
      | succ k =>
        simp only [List.length_cons, Nat.add_lt_add_iff_right] at h
        simpa using ih k h
    · rw [List.takeWhile_cons_of_neg hp] at h
      simp at h

theorem takeWhile_stop {α : Type} (p : α → Bool) (l : List α) (x : α)
    (h : l[(l.takeWhile p).length]? = some x) : p x = false := by
  induction l with
  | nil => simp at h
  | cons y ys ih =>
    by_cases hp : p y = true
    · rw [List.takeWhile_cons_of_pos hp] at h
      simp only [List.length_cons, List.getElem?_cons_succ] at h
      exact ih h
    · rw [List.takeWhile_cons_of_neg hp] at h
      simp only [List.length_nil, List.getElem?_cons_zero, Option.some.injEq] at h
      subst h
      simpa using hp

theorem takeWhile_eq_filter {α : Type} (p : α → Bool) (l : List α)
    (h : l.Pairwise (fun w w' => p w' = true → p w = true)) : l.takeWhile p = l.filter p := by
  induction l with
  | nil => rfl
  | cons x xs ih =>
    rw [List.pairwise_cons] at h
    by_cases hp : p x = true
    · rw [List.takeWhile_cons_of_pos hp, List.filter_cons_of_pos hp, ih h.2]
    · rw [List.takeWhile_cons_of_neg hp, List.filter_cons_of_neg hp]
      symm
      rw [List.filter_eq_nil_iff]
      intro w hw hpw
      exact hp (h.1 w hw hpw)

theorem dropWhile_eq_filter {α : Type} (p : α → Bool) (l : List α)
    (h : l.Pairwise (fun w w' => p w' = true → p w = true)) :
    l.dropWhile p = l.filter (fun w => !p w) := by
  induction l with
  | nil => rfl
  | cons x xs ih =>
    rw [List.pairwise_cons] at h
    by_cases hp : p x = true
    · rw [List.dropWhile_cons_of_pos hp, ih h.2]
      simp [List.filter_cons, hp]
    · rw [List.dropWhile_cons_of_neg hp]
      symm
      rw [List.filter_eq_self]
      intro w hw
      rw [List.mem_cons] at hw
      rcases hw with rfl | hw
      · simpa using hp
      · by_cases hpw : p w = true
        · exact absurd (h.1 w hw hpw) hp
        · simpa using hpw

theorem sum_map_range_update (f f' : Nat → Nat) (n v : Nat) (hv : v < n)
    (h : ∀ i, i < n → i ≠ v → f' i = f i) :
    ((List.range n).map f').sum + f v = ((List.range n).map f).sum + f' v := by
  induction n with
  | zero => omega
  | succ n ih =>
    rw [List.range_succ, List.map_append, List.map_append, List.sum_append, List.sum_append]
    simp only [List.map_cons, List.map_nil, List.sum_cons, List.sum_nil, Nat.add_zero]
    by_cases hvn : v = n
    · subst hvn
      have : (List.range v).map f' = (List.range v).map f := by
        apply List.map_congr_left
        intro i hi
        rw [List.mem_range] at hi
        exact h i (by omega) (by omega)
      rw [this]; omega
    · have h1 := ih (by omega) (fun i hi hne => h i (by omega) hne)
      have h2 := h n (by omega) (fun hc => hvn hc.symm)
      omega

theorem sum_map_range_congr (f f' : Nat → Nat) (n : Nat) (h : ∀ i, i < n → f' i = f i) :
    ((List.range n).map f').sum = ((List.range n).map f).sum := by
  congr 1
  apply List.map_congr_left
  intro i hi
  exact h i (List.mem_range.mp hi)

theorem nodup_length_le (l : List Nat) (n : Nat) (hn : l.Nodup) (hl : ∀ v ∈ l, v < n) :
    l.length ≤ n := by
  have hs : l ⊆ List.range n := fun v hv => List.mem_range.mpr (hl v hv)
  have := (List.subperm_of_subset hn hs).length_le
  simpa using this

theorem scc_members_enc (m : List Nat) : scc_members (m.map Int.ofNat ++ [-1]) = m := by
  unfold scc_members
  induction m with
  | nil => simp
  | cons x xs ih =>
    simp only [List.map_cons, List.cons_append]
    rw [List.takeWhile_cons_of_pos (by simp)]
    simp only [List.map_cons, Int.ofNat_eq_coe, Int.toNat_ofNat, List.cons.injEq, true_and]
    simpa using ih

/-! ## Reading neighbour lists of a well-formed graph -/

theorem nbrs_length (g : graph_t) (u : Nat) : (nbrs g u).length = (neighbors g u).length := by
  simp [nbrs]

theorem neighbors_nonneg (g : graph_t) (u : Nat) (w : Int) (h : w ∈ neighbors g u) : 0 ≤ w := by
  unfold neighbors at h
  have := List.mem_takeWhile_imp h
  simpa using this

theorem nbrs_lt (g : graph_t) (hg : graph_wf g) (u : Nat) (hu : u < g.nodes) (b : Nat)
    (hb : b ∈ nbrs g u) : b < g.nodes := by
  unfold nbrs at hb
  rw [List.mem_map] at hb
  obtain ⟨w, hw, rfl⟩ := hb
  have h1 := (hg.2.2 u hu).2.2 w hw
  have h2 := neighbors_nonneg g u w hw
  omega

theorem read_lt (g : graph_t) (u k : Nat) (h : k < (nbrs g u).length) :
    ∃ b, (nbrs g u)[k]? = some b ∧ g.idx.getD (graph_edges_from g u + k) (-1) = (b : Int) := by
  rw [nbrs_length] at h
  have h1 := takeWhile_getElem? (fun w => decide (0 ≤ w)) (g.idx.drop (graph_edges_from g u)) k h
  have h2 : (neighbors g u)[k]? = some ((neighbors g u)[k]) := List.getElem?_eq_getElem h
  have h3 : 0 ≤ (neighbors g u)[k] := neighbors_nonneg g u _ (List.getElem_mem h)
  refine ⟨((neighbors g u)[k]).toNat, ?_, ?_⟩
  · simp [nbrs, List.getElem?_map, h2]
  · rw [List.getD_eq_getElem?_getD, ← List.getElem?_drop]
    have h4 : (g.idx.drop (graph_edges_from g u))[k]? = some ((neighbors g u)[k]) := by
      rw [← h1]; exact h2
    rw [h4]
    simp only [Option.getD_some]
    omega

theorem read_end (g : graph_t) (hg : graph_wf g) (u : Nat) (hu : u < g.nodes) :
    g.idx.getD (graph_edges_from g u + (nbrs g u).length) (-1) < 0 := by
  have hlen := (hg.2.2 u hu).2.1
  rw [nbrs_length]
  have hx : g.idx[graph_edges_from g u + (neighbors g u).length]? =
      some (g.idx[graph_edges_from g u + (neighbors g u).length]) := List.getElem?_eq_getElem hlen
  have h1 := takeWhile_stop (fun w => decide (0 ≤ w)) (g.idx.drop (graph_edges_from g u))
    (g.idx[graph_edges_from g u + (neighbors g u).length]) (by
      rw [List.getElem?_drop]; exact hx)
  rw [List.getD_eq_getElem?_getD, hx]
  simpa using h1

theorem read_nonneg (g : graph_t) (hg : graph_wf g) (u k : Nat) (hu : u < g.nodes)
    (hk : k ≤ (nbrs g u).length) (h : 0 ≤ g.idx.getD (graph_edges_from g u + k) (-1)) :
    k < (nbrs g u).length := by
  rcases Nat.lt_or_ge k (nbrs g u).length with h1 | h1
  · exact h1
  · have : k = (nbrs g u).length := by omega
    subst this
    have := read_end g hg u hu
    omega

theorem read_neg (g : graph_t) (u k : Nat)
    (hk : k ≤ (nbrs g u).length) (h : ¬ 0 ≤ g.idx.getD (graph_edges_from g u + k) (-1)) :
    k = (nbrs g u).length := by
  rcases Nat.lt_or_ge k (nbrs g u).length with h1 | h1
  · obtain ⟨b, _, hb⟩ := read_lt g u k h1
    rw [hb] at h
    omega
  · omega

/-! ## Bitmap lemmas -/

theorem bitmap_end_spec (len i : Nat) (h : i < len) : i / BITS_PER_LONG < bitmap_end len := by
  unfold bitmap_end BITS_PER_LONG
  split <;> omega

theorem bm_ok_set (bm : List Nat) (k w : Nat) (h : bm_ok bm) (hw : w < 2 ^ BITS_PER_LONG) :
    bm_ok (bm.set k w) := by
  intro x hx
  rcases List.mem_or_eq_of_mem_set hx with h1 | h1
  · exact h x h1
  · rw [h1]; exact hw

theorem getD_lt_of_ok (bm : List Nat) (k : Nat) (h : bm_ok bm) :
    bm.getD k 0 < 2 ^ BITS_PER_LONG := by
  rw [List.getD_eq_getElem?_getD]
  rcases Nat.lt_or_ge k bm.length with h1 | h1
  · rw [List.getElem?_eq_getElem h1]
    exact h _ (List.getElem_mem h1)
  · rw [List.getElem?_eq_none h1]
    simp

theorem BIT_lt (x : Nat) (h : x < BITS_PER_LONG) : BIT x < 2 ^ BITS_PER_LONG := by
  unfold BIT
  rw [Nat.one_shiftLeft]
  exact Nat.pow_lt_pow_right (by decide) h

theorem bm_ok_setbit (bm : List Nat) (i : Nat) (h : bm_ok bm) : bm_ok (bitmap_setbit bm i) := by
  unfold bitmap_setbit
  apply bm_ok_set _ _ _ h
  apply Nat.or_lt_two_pow (getD_lt_of_ok bm _ h)
  exact BIT_lt _ (Nat.mod_lt _ (by decide))

theorem bm_ok_clearbit (bm : List Nat) (i : Nat) (h : bm_ok bm) :
    bm_ok (bitmap_clearbit bm i) := by
  unfold bitmap_clearbit
  apply bm_ok_set _ _ _ h
  exact Nat.lt_of_le_of_lt Nat.and_le_left (getD_lt_of_ok bm _ h)

theorem length_setbit (bm : List Nat) (i : Nat) : (bitmap_setbit bm i).length = bm.length := by
  simp [bitmap_setbit]

theorem length_clearbit (bm : List Nat) (i : Nat) :
    (bitmap_clearbit bm i).length = bm.length := by
  simp [bitmap_clearbit]

theorem div_mod_ne (i k : Nat) (h : k ≠ i) (hd : i / BITS_PER_LONG = k / BITS_PER_LONG) :
    i % BITS_PER_LONG ≠ k % BITS_PER_LONG := by
  unfold BITS_PER_LONG at *
  omega

theorem bit_setbit (bm : List Nat) (i k : Nat) (h : i / BITS_PER_LONG < bm.length) :
    bm_bit (bitmap_setbit bm i) k = (decide (k = i) || bm_bit bm k) := by
  unfold bm_bit bitmap_setbit
  by_cases hd : i / BITS_PER_LONG = k / BITS_PER_LONG
  · rw [← hd, getD_set_eq _ _ _ _ h, Nat.testBit_or, BIT, Nat.one_shiftLeft, Nat.testBit_two_pow]
    by_cases hk : k = i
    · subst hk; simp
    · have := div_mod_ne i k hk hd
      simp [hk, this, Bool.or_comm]
  · rw [getD_set_ne _ _ _ _ _ hd]
    have hk : k ≠ i := fun hc => hd (by rw [hc])
    simp [hk]

theorem bit_clearbit (bm : List Nat) (i k : Nat) (h : i / BITS_PER_LONG < bm.length) :
    bm_bit (bitmap_clearbit bm i) k = (!decide (k = i) && bm_bit bm k) := by
  unfold bm_bit bitmap_clearbit
  have hmask : ∀ m, (2 ^ BITS_PER_LONG - 1 - BIT (i % BITS_PER_LONG)).testBit m =
      (decide (m < BITS_PER_LONG) && !decide (i % BITS_PER_LONG = m)) := by
    intro m
    have hlt : BIT (i % BITS_PER_LONG) < 2 ^ BITS_PER_LONG := BIT_lt _ (Nat.mod_lt _ (by decide))
    have : 2 ^ BITS_PER_LONG - 1 - BIT (i % BITS_PER_LONG) =
        2 ^ BITS_PER_LONG - (BIT (i % BITS_PER_LONG) + 1) := by omega
    rw [this, Nat.testBit_two_pow_sub_succ hlt, BIT, Nat.one_shiftLeft, Nat.testBit_two_pow]
  by_cases hd : i / BITS_PER_LONG = k / BITS_PER_LONG
  · rw [← hd, getD_set_eq _ _ _ _ h, Nat.testBit_and, hmask]
    have hm : k % BITS_PER_LONG < BITS_PER_LONG := Nat.mod_lt _ (by decide)
    by_cases hk : k = i
    · subst hk; simp
    · have := div_mod_ne i k hk hd
      simp [hk, this, hm, Bool.and_comm]
  · rw [getD_set_ne _ _ _ _ _ hd]
    have hk : k ≠ i := fun hc => hd (by rw [hc])
    simp [hk]

theorem word_zero_iff (w : Nat) (h : w < 2 ^ BITS_PER_LONG) :
    w = 0 ↔ ∀ m, m < BITS_PER_LONG → w.testBit m = false := by
  constructor
  · intro h0 m _; subst h0; simp
  · intro hall
    apply Nat.eq_of_testBit_eq
    intro m
    rw [Nat.zero_testBit]
    rcases Nat.lt_or_ge m BITS_PER_LONG with h1 | h1
    · exact hall m h1
    · apply Nat.testBit_lt_two_pow
      exact Nat.lt_of_lt_of_le h (Nat.pow_le_pow_right (by decide) h1)

theorem bitmap_empty_iff_zero (bm : List Nat) (len : Nat) (hl : bm.length = bitmap_end len) :
    bitmap_empty bm len = true ↔ ∀ w ∈ bm, w = 0 := by
  unfold bitmap_empty
  rw [List.all_eq_true]
  constructor
  · intro h w hw
    obtain ⟨k, hk, rfl⟩ := List.getElem_of_mem hw
    have := h k (List.mem_range.mpr (by omega))
    rw [List.getD_eq_getElem?_getD, List.getElem?_eq_getElem hk] at this
    simpa using this
  · intro h k hk
    rw [List.mem_range] at hk
    rw [List.getD_eq_getElem?_getD, List.getElem?_eq_getElem (by omega)]
    simpa using h _ (List.getElem_mem (by omega))

theorem bits_zero_iff (bm : List Nat) (hok : bm_ok bm) :
    (∀ w ∈ bm, w = 0) ↔ ∀ k, bm_bit bm k = false := by
  constructor
  · intro h k
    unfold bm_bit
    rw [List.getD_eq_getElem?_getD]
    rcases Nat.lt_or_ge (k / BITS_PER_LONG) bm.length with h1 | h1
    · rw [List.getElem?_eq_getElem h1]
      simp [h _ (List.getElem_mem h1)]
    · rw [List.getElem?_eq_none h1]; simp
  · intro h w hw
    obtain ⟨k, hk, rfl⟩ := List.getElem_of_mem hw
    rw [word_zero_iff _ (hok _ (List.getElem_mem hk))]
    intro m hm
    have := h (k * BITS_PER_LONG + m)
    unfold bm_bit at this
    have h1 : (k * BITS_PER_LONG + m) / BITS_PER_LONG = k := by
      unfold BITS_PER_LONG at *; omega
    have h2 : (k * BITS_PER_LONG + m) % BITS_PER_LONG = m := by
      unfold BITS_PER_LONG at *; omega
    rw [h1, h2, List.getD_eq_getElem?_getD, List.getElem?_eq_getElem hk] at this
    simpa using this

theorem bm_ok_of_zero (bm : List Nat) (h : ∀ w ∈ bm, w = 0) : bm_ok bm := by
  intro w hw
  rw [h w hw]
  exact Nat.two_pow_pos _

theorem bitmap_clear_zero (bm : List Nat) (len : Nat) (hl : bm.length = bitmap_end len) :
    ∀ w ∈ bitmap_clear bm len, w = 0 := by
  intro w hw
  unfold bitmap_clear at hw
  rw [List.drop_of_length_le (by omega)] at hw
  simp only [List.append_nil] at hw
  exact (List.mem_replicate.mp hw).2

theorem length_bitmap_clear (bm : List Nat) (len : Nat) :
    (bitmap_clear bm len).length = bm.length := by
  unfold bitmap_clear
  simp only [List.length_append, List.length_replicate, List.length_drop]
  omega

theorem bitmap_new_zero (len : Nat) : ∀ w ∈ bitmap_new len, w = 0 := by
  intro w hw
  exact (List.mem_replicate.mp hw).2

/-- Bits after recording a list of nodes. -/
theorem bit_foldl_setbit (l : List Nat) (bm : List Nat) (n : Nat)
    (hl : bm.length = bitmap_end n) (hlt : ∀ b ∈ l, b < n) (k : Nat) :
    bm_bit (l.foldl bitmap_setbit bm) k = (decide (k ∈ l) || bm_bit bm k) := by
  induction l generalizing bm with
  | nil => simp
  | cons x xs ih =>
    simp only [List.foldl_cons]
    rw [ih _ (by rw [length_setbit]; exact hl) (fun b hb => hlt b (List.mem_cons_of_mem _ hb)),
      bit_setbit _ _ _ (by rw [hl]; exact bitmap_end_spec n x (hlt x (List.mem_cons_self _ _)))]
    by_cases h1 : k = x <;> by_cases h2 : k ∈ xs <;> simp [h1, h2]

theorem length_foldl_setbit (l : List Nat) (bm : List Nat) :
    (l.foldl bitmap_setbit bm).length = bm.length := by
  induction l generalizing bm with
  | nil => rfl
  | cons x xs ih => simp only [List.foldl_cons]; rw [ih, length_setbit]

theorem bm_ok_foldl_setbit (l : List Nat) (bm : List Nat) (h : bm_ok bm) :
    bm_ok (l.foldl bitmap_setbit bm) := by
  induction l generalizing bm with
  | nil => exact h
  | cons x xs ih => simp only [List.foldl_cons]; exact ih _ (bm_ok_setbit _ _ h)

theorem bit_foldl_clearbit (l : List Nat) (bm : List Nat) (n : Nat)
    (hl : bm.length = bitmap_end n) (hlt : ∀ b ∈ l, b < n) (k : Nat) :
    bm_bit (l.foldl bitmap_clearbit bm) k = (!decide (k ∈ l) && bm_bit bm k) := by
  induction l generalizing bm with
  | nil => simp
  | cons x xs ih =>
    simp only [List.foldl_cons]
    rw [ih _ (by rw [length_clearbit]; exact hl) (fun b hb => hlt b (List.mem_cons_of_mem _ hb)),
      bit_clearbit _ _ _ (by rw [hl]; exact bitmap_end_spec n x (hlt x (List.mem_cons_self _ _)))]
    by_cases h1 : k = x <;> by_cases h2 : k ∈ xs <;> simp [h1, h2]

theorem length_foldl_clearbit (l : List Nat) (bm : List Nat) :
    (l.foldl bitmap_clearbit bm).length = bm.length := by
  induction l generalizing bm with
  | nil => rfl
  | cons x xs ih => simp only [List.foldl_cons]; rw [ih, length_clearbit]

theorem bm_ok_foldl_clearbit (l : List Nat) (bm : List Nat) (h : bm_ok bm) :
    bm_ok (l.foldl bitmap_clearbit bm) := by
  induction l generalizing bm with
  | nil => exact h
  | cons x xs ih => simp only [List.foldl_cons]; exact ih _ (bm_ok_clearbit _ _ h)

/-! ## The inner loops of `tarjan` on lists -/

theorem mark_edges_drop (g : graph_t) (hg : graph_wf g) (v : Nat) (hv : v < g.nodes)
    (fuel k : Nat) (bm : List Nat) (hk : k ≤ (nbrs g v).length)
    (hf : (nbrs g v).length - k < fuel) :
    tarjan_mark_edges g fuel (graph_edges_from g v + k) bm =
      ((nbrs g v).drop k).foldl bitmap_setbit bm := by
  induction fuel generalizing k bm with
  | zero => omega
  | succ fuel ih =>
    unfold tarjan_mark_edges
    by_cases h0 : 0 ≤ g.idx.getD (graph_edges_from g v + k) (-1)
    · have hlt := read_nonneg g hg v k hv hk h0
      obtain ⟨b, hb1, hb2⟩ := read_lt g v k hlt
      simp only [h0, if_true]
      rw [Nat.add_assoc, ih (k + 1) _ (by omega) (by omega)]
      have hb3 : (nbrs g v)[k] = b := by
        rw [List.getElem?_eq_getElem hlt] at hb1
        exact Option.some.inj hb1
      rw [List.drop_eq_getElem_cons hlt, List.foldl_cons, hb3, hb2]
      simp
    · have hlen := read_neg g v k hk h0
      simp only [h0, if_false]
      rw [hlen, List.drop_length]
      rfl

theorem mark_edges_spec (g : graph_t) (hg : graph_wf g) (v : Nat) (hv : v < g.nodes)
    (bm : List Nat) :
    tarjan_mark_edges g (g.idx.length + 1) (graph_edges_from g v) bm =
      (nbrs g v).foldl bitmap_setbit bm := by
  have h := mark_edges_drop g hg v hv (g.idx.length + 1) 0 bm (Nat.zero_le _) (by
    have := (hg.2.2 v hv).2.1
    rw [nbrs_length]; omega)
  simpa using h

theorem takeWhile_congr_mem {α : Type} (p q : α → Bool) (l : List α)
    (h : ∀ w ∈ l, p w = q w) : l.takeWhile p = l.takeWhile q := by
  induction l with
  | nil => rfl
  | cons x xs ih =>
    have hx := h x (List.mem_cons_self _ _)
    have ih' := ih (fun w hw => h w (List.mem_cons_of_mem _ hw))
    simp only [List.takeWhile_cons, hx, ih']

theorem drop_cons_getD (l : List Nat) (r x : Nat) (rest : List Nat)
    (h : l.drop r = x :: rest) : l.getD r 0 = x ∧ l.drop (r + 1) = rest ∧ r < l.length := by
  have hr : r < l.length := by
    by_contra hc
    rw [List.drop_of_length_le (by omega)] at h
    exact List.noConfusion h
  rw [List.drop_eq_getElem_cons hr] at h
  injection h with h1 h2
  refine ⟨?_, h2, hr⟩
  rw [List.getD_eq_getElem?_getD, List.getElem?_eq_getElem hr, h1]
  rfl

theorem collect_spec (g : graph_t) (hg : graph_wf g) (uidx fuel : Nat) (s : tarjan_state)
    (x : Nat) (rest : List Nat)
    (hlen : s.stack.length = g.nodes) (hdrop : s.stack.drop s.r = x :: rest)
    (hnd : (x :: rest).Nodup) (hlt : ∀ v ∈ x :: rest, v < g.nodes)
    (hfuel : g.nodes ≤ fuel + s.r + 1) :
    tarjan_collect g uidx fuel s =
      { s with
        r := s.r + 1 + (rest.takeWhile (fun w => decide (uidx ≤ s.rindex.getD w 0))).length
        rindex := (x :: rest.takeWhile (fun w => decide (uidx ≤ s.rindex.getD w 0))).foldl
          (fun ri v => ri.set v UINT_ALL) s.rindex
        sccredges := (x :: rest.takeWhile (fun w => decide (uidx ≤ s.rindex.getD w 0))).foldl
          (fun bm v => (nbrs g v).foldl bitmap_setbit bm) s.sccredges } := by
  induction fuel generalizing s x rest with
  | zero =>
    obtain ⟨h1, h2, h3⟩ := drop_cons_getD _ _ _ _ hdrop
    have hrest : rest = [] := by
      have : (s.stack.drop (s.r + 1)).length = 0 := by
        rw [List.length_drop]; omega
      rw [h2] at this
      exact List.length_eq_zero.mp this
    subst hrest
    unfold tarjan_collect tarjan_pop_one
    simp only [h1, List.takeWhile_nil, List.length_nil, List.foldl_cons, List.foldl_nil,
      Nat.add_zero]
    rw [mark_edges_spec g hg x (hlt x (List.mem_cons_self _ _))]
  | succ fuel ih =>
    obtain ⟨h1, h2, h3⟩ := drop_cons_getD _ _ _ _ hdrop
    unfold tarjan_collect
    have hp : tarjan_pop_one g s = { s with
        r := s.r + 1
        rindex := s.rindex.set x UINT_ALL
        sccredges := (nbrs g x).foldl bitmap_setbit s.sccredges } := by
      unfold tarjan_pop_one
      simp only [h1]
      rw [mark_edges_spec g hg x (hlt x (List.mem_cons_self _ _))]
    rw [hp]
    cases rest with
    | nil =>
      have hr : ¬ (s.r + 1 < g.nodes) := by
        have : (s.stack.drop (s.r + 1)).length = 0 := by rw [h2]; rfl
        rw [List.length_drop] at this
        omega
      simp only [hr, false_and, if_false, List.takeWhile_nil, List.length_nil, List.foldl_cons,
        List.foldl_nil, Nat.add_zero]
    | cons y rest' =>
      obtain ⟨k1, k2, k3⟩ := drop_cons_getD _ _ _ _ h2
      have hyx : x ≠ y := by
        intro hc
        rw [List.nodup_cons] at hnd
        exact hnd.1 (by rw [hc]; exact List.mem_cons_self _ _)
      have hr : s.r + 1 < g.nodes := by omega
      simp only [hr, true_and, k1, getD_set_ne _ _ _ _ _ hyx]
      by_cases hc : uidx ≤ s.rindex.getD y 0
      · simp only [hc, if_true]
        have hnd' : (y :: rest').Nodup := (List.nodup_cons.mp hnd).2
        rw [ih { s with
            r := s.r + 1
            rindex := s.rindex.set x UINT_ALL
            sccredges := (nbrs g x).foldl bitmap_setbit s.sccredges } y rest' hlen h2 hnd'
          (fun v hv => hlt v (List.mem_cons_of_mem _ hv)) (by simp only; omega)]
        have htw : rest'.takeWhile (fun w => decide (uidx ≤ (s.rindex.set x UINT_ALL).getD w 0))
            = rest'.takeWhile (fun w => decide (uidx ≤ s.rindex.getD w 0)) := by
          apply takeWhile_congr_mem
          intro w hw
          have hxw : x ≠ w := by
            intro hc2
            rw [List.nodup_cons] at hnd
            exact hnd.1 (by rw [hc2]; exact List.mem_cons_of_mem _ hw)
          rw [getD_set_ne _ _ _ _ _ hxw]
        simp only [htw]
        rw [List.takeWhile_cons_of_pos (by simpa using hc)]
        simp only [List.length_cons, List.foldl_cons]
        congr 1
        omega
      · simp only [hc, if_false]
        rw [List.takeWhile_cons_of_neg (by simpa using hc)]
        simp only [List.length_nil, List.foldl_cons, List.foldl_nil, Nat.add_zero]

/-! ## The array state and its list view -/

theorem take_set_succ {α : Type} (l : List α) (k : Nat) (x : α) (h : k < l.length) :
    (l.set k x).take (k + 1) = l.take k ++ [x] := by
  induction l generalizing k with
  | nil => simp at h
  | cons y ys ih =>
    cases k with
    | zero => simp
    | succ k =>
      simp only [List.length_cons, Nat.add_lt_add_iff_right] at h
      simp [ih k h]

theorem take_set_ge {α : Type} (l : List α) (k n : Nat) (x : α) (h : n ≤ k) :
    (l.set k x).take n = l.take n := by
  induction l generalizing k n with
  | nil => simp
  | cons y ys ih =>
    cases n with
    | zero => simp
    | succ n =>
      cases k with
      | zero => omega
      | succ k => simp [ih k n (by omega)]

theorem drop_set_lt {α : Type} (l : List α) (k n : Nat) (x : α) (h : k < n) :
    (l.set k x).drop n = l.drop n := by
  induction l generalizing k n with
  | nil => simp
  | cons y ys ih =>
    cases n with
    | zero => omega
    | succ n =>
      cases k with
      | zero => simp
      | succ k => simp [ih k n (by omega)]

theorem drop_set_self {α : Type} (l : List α) (k : Nat) (x : α) (h : k < l.length) :
    (l.set k x).drop k = x :: l.drop (k + 1) := by
  induction l generalizing k with
  | nil => simp at h
  | cons y ys ih =>
    cases k with
    | zero => simp
    | succ k =>
      simp only [List.length_cons, Nat.add_lt_add_iff_right] at h
      simp [ih k h]

theorem take_length_takeWhile {α : Type} (p : α → Bool) (l : List α) :
    l.take (l.takeWhile p).length = l.takeWhile p := by
  induction l with
  | nil => rfl
  | cons x xs ih =>
    by_cases hp : p x = true
    · simp [List.takeWhile_cons_of_pos hp, ih]
    · simp [List.takeWhile_cons_of_neg hp]

theorem drop_length_takeWhile {α : Type} (p : α → Bool) (l : List α) :
    l.drop (l.takeWhile p).length = l.dropWhile p := by
  induction l with
  | nil => rfl
  | cons x xs ih =>
    by_cases hp : p x = true
    · simp [List.takeWhile_cons_of_pos hp, List.dropWhile_cons_of_pos hp, ih]
    · simp [List.takeWhile_cons_of_neg hp, List.dropWhile_cons_of_neg hp]

theorem length_takeWhile_le' {α : Type} (p : α → Bool) (l : List α) :
    (l.takeWhile p).length ≤ l.length := by
  induction l with
  | nil => simp
  | cons x xs ih =>
    by_cases hp : p x = true
    · simp [List.takeWhile_cons_of_pos hp]; omega
    · simp [List.takeWhile_cons_of_neg hp]

theorem foldl_range'_getD {β : Type} (f : β → Nat → β) (l : List Nat) (a n : Nat) (b : β)
    (h : a + n ≤ l.length) :
    (List.range' a n).foldl (fun bm j => f bm (l.getD j 0)) b = ((l.drop a).take n).foldl f b := by
  induction n generalizing a b with
  | zero => simp
  | succ n ih =>
    have ha : a < l.length := by omega
    rw [List.range'_succ, List.foldl_cons, ih (a + 1) _ (by omega),
      List.drop_eq_getElem_cons ha, List.take_succ_cons, List.foldl_cons,
      List.getD_eq_getElem?_getD, List.getElem?_eq_getElem ha]
    rfl

theorem foldl_set_length (m : List Nat) (ri : List Nat) :
    (m.foldl (fun ri v => ri.set v UINT_ALL) ri).length = ri.length := by
  induction m generalizing ri with
  | nil => rfl
  | cons x xs ih => simp only [List.foldl_cons]; rw [ih]; simp

theorem foldl_set_getD (m : List Nat) (ri : List Nat) (v : Nat) (hm : ∀ x ∈ m, x < ri.length) :
    (m.foldl (fun ri v => ri.set v UINT_ALL) ri).getD v 0 =
      if v ∈ m then UINT_ALL else ri.getD v 0 := by
  induction m generalizing ri with
  | nil => simp
  | cons x xs ih =>
    simp only [List.foldl_cons]
    rw [ih _ (fun y hy => by simpa using hm y (List.mem_cons_of_mem _ hy))]
    by_cases h1 : v ∈ xs
    · rw [if_pos h1, if_pos (List.mem_cons_of_mem _ h1)]
    · by_cases h2 : v = x
      · subst h2
        rw [if_neg h1, if_pos (List.mem_cons_self _ _),
          getD_set_eq _ _ _ _ (hm v (List.mem_cons_self _ _))]
      · rw [if_neg h1, if_neg (by simp [h1, h2]), getD_set_ne _ _ _ _ _ (Ne.symm h2)]

theorem finish_sim (g : graph_t) (hg : graph_wf g) (ac : Bool) (s : tarjan_state) (a : astate)
    (hu : a.u = s.u) (hcomp : a.comp = s.stack.drop s.r) (hri : a.rindex = s.rindex)
    (hbits : a.sccredges = s.sccredges) (hsccs : a.sccs = s.sccs)
    (hlen : s.stack.length = g.nodes) (htop : s.top < s.r) (hr : s.r ≤ g.nodes)
    (hnd : (a.u :: a.comp).Nodup) (hlt : ∀ v ∈ a.u :: a.comp, v < g.nodes) :
    (afinish g ac a).comp = (tarjan_finish g ac s).stack.drop (tarjan_finish g ac s).r ∧
    (afinish g ac a).rindex = (tarjan_finish g ac s).rindex ∧
    (afinish g ac a).sccredges = (tarjan_finish g ac s).sccredges ∧
    (afinish g ac a).sccs = (tarjan_finish g ac s).sccs ∧
    (tarjan_finish g ac s).stack.take s.top = s.stack.take s.top ∧
    (tarjan_finish g ac s).estack = s.estack ∧
    (tarjan_finish g ac s).top = s.top ∧
    (tarjan_finish g ac s).u = s.u ∧
    (tarjan_finish g ac s).idx = s.idx ∧
    (tarjan_finish g ac s).stack.length = g.nodes ∧
    (tarjan_finish g ac s).r ≤ g.nodes := by
  have hr1 : s.r - 1 < s.stack.length := by omega
  have hd1 : (s.stack.set (s.r - 1) s.u).drop (s.r - 1) = a.u :: a.comp := by
    rw [drop_set_self _ _ _ hr1, hu, hcomp]
    congr 2
    omega
  have htk : (s.stack.set (s.r - 1) s.u).take s.top = s.stack.take s.top :=
    take_set_ge _ _ _ _ (by omega)
  unfold tarjan_finish afinish astate.rix
  simp only [hri, hu]
  by_cases hroot : s.rindex.getD s.u 0 &&& 1 = 0
  · simp only [hroot, if_true]
    rw [collect_spec g hg _ _ _ a.u a.comp (by simpa using hlen) hd1 hnd hlt (by simp only; omega)]
    simp only [hri, hu]
    have hk := length_takeWhile_le' (fun w => decide (s.rindex.getD s.u 0 ≤ s.rindex.getD w 0))
      a.comp
    have hcl : a.comp.length = g.nodes - s.r := by rw [hcomp, List.length_drop, hlen]
    have hmem : ((s.stack.set (s.r - 1) s.u).drop (s.r - 1)).take
        (s.r - 1 + 1 + (a.comp.takeWhile
          (fun w => decide (s.rindex.getD s.u 0 ≤ s.rindex.getD w 0))).length - (s.r - 1)) =
        s.u :: a.comp.takeWhile (fun w => decide (s.rindex.getD s.u 0 ≤ s.rindex.getD w 0)) := by
      rw [hd1]
      have : s.r - 1 + 1 + (a.comp.takeWhile
          (fun w => decide (s.rindex.getD s.u 0 ≤ s.rindex.getD w 0))).length - (s.r - 1) =
          (a.comp.takeWhile
            (fun w => decide (s.rindex.getD s.u 0 ≤ s.rindex.getD w 0))).length + 1 := by omega
      rw [this, List.take_succ_cons, take_length_takeWhile, hu]
    have hdr : (s.stack.set (s.r - 1) s.u).drop (s.r - 1 + 1 + (a.comp.takeWhile
          (fun w => decide (s.rindex.getD s.u 0 ≤ s.rindex.getD w 0))).length) =
        a.comp.dropWhile (fun w => decide (s.rindex.getD s.u 0 ≤ s.rindex.getD w 0)) := by
      rw [drop_set_lt _ _ _ _ (by omega), ← drop_length_takeWhile, hcomp, List.drop_drop]
      congr 1
      omega
    have hclear : tarjan_clear_members (s.stack.set (s.r - 1) s.u) (s.r - 1)
        (s.r - 1 + 1 + (a.comp.takeWhile
          (fun w => decide (s.rindex.getD s.u 0 ≤ s.rindex.getD w 0))).length)
        ((s.u :: a.comp.takeWhile
          (fun w => decide (s.rindex.getD s.u 0 ≤ s.rindex.getD w 0))).foldl
          (fun bm v => (nbrs g v).foldl bitmap_setbit bm) s.sccredges) =
        (s.u :: a.comp.takeWhile
          (fun w => decide (s.rindex.getD s.u 0 ≤ s.rindex.getD w 0))).foldl bitmap_clearbit
        ((s.u :: a.comp.takeWhile
          (fun w => decide (s.rindex.getD s.u 0 ≤ s.rindex.getD w 0))).foldl
          (fun bm v => (nbrs g v).foldl bitmap_setbit bm) s.sccredges) := by
      unfold tarjan_clear_members
      rw [foldl_range'_getD bitmap_clearbit _ _ _ _ (by simp only [List.length_set]; omega), hmem]
    cases ac with
    | false =>
      simp only [Bool.not_false, if_true, hbits, hsccs, hclear]
      split
      · simp only [append_scc, hmem, hdr, htk, List.length_set, hlen]
        refine ⟨trivial, trivial, trivial, trivial, trivial, trivial, trivial, trivial, trivial,
          trivial, ?_⟩
        omega
      · simp only [hdr, htk, List.length_set, hlen]
        refine ⟨trivial, trivial, trivial, trivial, trivial, trivial, trivial, trivial, trivial,
          trivial, ?_⟩
        omega
    | true =>
      simp only [Bool.not_true, Bool.false_eq_true, if_false, hbits, hsccs, List.length_cons]
      have hgt : (s.r - 1 + 1 + (a.comp.takeWhile
          (fun w => decide (s.rindex.getD s.u 0 ≤ s.rindex.getD w 0))).length - (s.r - 1) > 1) ↔
          (a.comp.takeWhile
            (fun w => decide (s.rindex.getD s.u 0 ≤ s.rindex.getD w 0))).length + 1 > 1 := by
        omega
      simp only [hgt]
      split
      · simp only [append_scc, hmem, hdr, htk, List.length_set, hlen]
        refine ⟨trivial, trivial, trivial, trivial, trivial, trivial, trivial, trivial, trivial,
          trivial, ?_⟩
        omega
      · simp only [hdr, htk, List.length_set, hlen]
        refine ⟨trivial, trivial, trivial, trivial, trivial, trivial, trivial, trivial, trivial,
          trivial, ?_⟩
        omega
  · simp only [hroot, if_false, hd1, htk, List.length_set, hlen]
    refine ⟨by rw [hu], trivial, hbits, hsccs, trivial, trivial, trivial, trivial, trivial,
      trivial, ?_⟩
    omega

theorem zip_take_succ (l1 l2 : List Nat) (k : Nat) (h1 : k < l1.length) (h2 : k < l2.length) :
    ((l1.take (k + 1)).zip (l2.take (k + 1))).reverse =
      (l1.getD k 0, l2.getD k 0) :: ((l1.take k).zip (l2.take k)).reverse := by
  rw [List.take_succ, List.take_succ, List.getElem?_eq_getElem h1, List.getElem?_eq_getElem h2]
  simp only [Option.toList]
  rw [List.zip_append (by simp [List.length_take]; omega)]
  simp [List.getD_eq_getElem?_getD, List.getElem?_eq_getElem h1, List.getElem?_eq_getElem h2]

theorem getD_of_take_eq (l l' : List Nat) (n k : Nat) (h : l.take n = l'.take n) (hk : k < n) :
    l.getD k 0 = l'.getD k 0 := by
  have h1 : (l.take n)[k]? = (l'.take n)[k]? := by rw [h]
  rw [List.getElem?_take_of_lt hk, List.getElem?_take_of_lt hk] at h1
  rw [List.getD_eq_getElem?_getD, List.getD_eq_getElem?_getD, h1]

theorem take_of_take_eq (l l' : List Nat) (n k : Nat) (h : l.take n = l'.take n) (hk : k ≤ n) :
    l.take k = l'.take k := by
  have : (l.take n).take k = (l'.take n).take k := by rw [h]
  rwa [List.take_take, List.take_take, Nat.min_eq_left hk] at this

theorem anc_length (g : graph_t) (s : tarjan_state) (a : astate) (hsim : Sim g s a) :
    a.anc.length = s.top := by
  rw [hsim.anc]
  simp only [List.length_reverse, List.length_zip, List.length_take, hsim.stack_len,
    hsim.estack_len]
  have := hsim.top_le
  omega

theorem top_lt_r (g : graph_t) (s : tarjan_state) (a : astate) (hsim : Sim g s a)
    (hsh : AShape g a) : s.top < s.r := by
  have h1 := nodup_length_le a.opn g.nodes hsh.nodup hsh.lt_nodes
  have h2 := anc_length g s a hsim
  have h3 : a.comp.length = g.nodes - s.r := by
    rw [hsim.comp, List.length_drop, hsim.stack_len]
  have h4 := hsim.r_le
  simp only [astate.opn, astate.pathN, List.length_append, List.length_cons, List.length_map]
    at h1
  omega

theorem afinish_idx (g : graph_t) (ac : Bool) (a : astate) : (afinish g ac a).idx = a.idx := by
  unfold afinish
  dsimp only
  split_ifs <;> rfl

theorem afinish_d (g : graph_t) (ac : Bool) (a : astate) : (afinish g ac a).d = a.d := by
  unfold afinish
  dsimp only
  split_ifs <;> rfl

theorem afinish_u (g : graph_t) (ac : Bool) (a : astate) : (afinish g ac a).u = a.u := by
  unfold afinish
  dsimp only
  split_ifs <;> rfl

theorem afinish_j (g : graph_t) (ac : Bool) (a : astate) : (afinish g ac a).j = a.j := by
  unfold afinish
  dsimp only
  split_ifs <;> rfl

theorem afinish_anc (g : graph_t) (ac : Bool) (a : astate) : (afinish g ac a).anc = a.anc := by
  unfold afinish
  dsimp only
  split_ifs <;> rfl

theorem step_sim (g : graph_t) (hg : graph_wf g) (ac : Bool) (s : tarjan_state) (a : astate)
    (hsim : Sim g s a) (hsh : AShape g a) :
    (tarjan_step g ac s).2 = (astep g ac a).2 ∧
    ((astep g ac a).2 = false → Sim g (tarjan_step g ac s).1 (astep g ac a).1) ∧
    ((astep g ac a).2 = true → SimEnd g (tarjan_step g ac s).1 (astep g ac a).1) := by
  have htr := top_lt_r g s a hsim hsh
  obtain ⟨hu, hj, hanc, hcomp, hri, hidx, hbits, hsccs, hsl, hel, htl, hrl⟩ := hsim
  have hal : a.anc.length = s.top := by
    rw [hanc]
    simp only [List.length_reverse, List.length_zip, List.length_take, hsl, hel]
    omega
  unfold tarjan_step astep astate.rix
  simp only [hu, hj, hri, hidx]
  by_cases hv : 0 ≤ g.idx.getD (graph_edges_from g s.u + s.j) (-1)
  · simp only [hv, if_true]
    by_cases h0 : s.rindex.getD (g.idx.getD (graph_edges_from g s.u + s.j) (-1)).toNat 0 = 0
    · simp only [h0, if_true, true_and, Bool.false_eq_true, false_implies, and_true]
      intro _
      refine ⟨rfl, rfl, ?_, ?_, rfl, rfl, hbits, hsccs, ?_, ?_, ?_, hrl⟩
      · simp only
        rw [take_set_succ _ _ _ (by omega), take_set_succ _ _ _ (by omega),
          List.zip_append (by simp [List.length_take]; omega)]
        simp [hanc]
      · simp only
        rw [drop_set_lt _ _ _ _ htr, hcomp]
      · simpa using hsl
      · simpa using hel
      · simp only; omega
    · simp only [h0, if_false]
      split
      · simp only [true_and, Bool.false_eq_true, false_implies, and_true]
        intro _
        exact ⟨rfl, rfl, hanc, hcomp, rfl, rfl, hbits, hsccs, hsl, hel, htl, hrl⟩
      · simp only [true_and, Bool.false_eq_true, false_implies, and_true]
        intro _
        exact ⟨rfl, rfl, hanc, hcomp, rfl, rfl, hbits, hsccs, hsl, hel, htl, hrl⟩
  · simp only [hv, if_false]
    have hnd : (a.u :: a.comp).Nodup := by
      have := hsh.nodup
      simp only [astate.opn, astate.pathN, List.cons_append] at this
      rw [List.nodup_cons] at this ⊢
      exact ⟨fun hc => this.1 (List.mem_append_right _ hc), (List.nodup_append.mp this.2).2.1⟩
    have hlt : ∀ v ∈ a.u :: a.comp, v < g.nodes := by
      intro v hv'
      apply hsh.lt_nodes
      simp only [astate.opn, astate.pathN, List.cons_append, List.mem_cons, List.mem_append]
      rcases List.mem_cons.mp hv' with h | h
      · exact Or.inl h
      · exact Or.inr (Or.inr h)
    obtain ⟨f1, f2, f3, f4, f5, f6, f7, f8, f9, f10, f11⟩ :=
      finish_sim g hg ac { s with j := s.j + 1 } a hu hcomp hri hbits hsccs hsl htr hrl hnd hlt
    simp only at f5 f6 f7 f8 f9
    by_cases ht : s.top = 0
    · have hnil : a.anc = [] := List.length_eq_zero.mp (by rw [hal, ht])
      have ht' : (tarjan_finish g ac { s with j := s.j + 1 }).top = 0 := by rw [f7]; exact ht
      simp only [hnil, ht', if_true, true_and, not_false_eq_true, imp_false, not_true_eq_false,
        true_implies]
      simp only [Bool.true_eq_false, false_implies, true_and]
      exact ⟨f1, f2, f3, f4, f10, by rw [f6]; exact hel, ht', f11⟩
    · have ht' : ¬ (tarjan_finish g ac { s with j := s.j + 1 }).top = 0 := by rw [f7]; exact ht
      have hcons : a.anc = (s.stack.getD (s.top - 1) 0, s.estack.getD (s.top - 1) 0) ::
          ((s.stack.take (s.top - 1)).zip (s.estack.take (s.top - 1))).reverse := by
        rw [hanc]
        have : s.top = (s.top - 1) + 1 := by omega
        conv => lhs; rw [this]
        exact zip_take_succ _ _ _ (by omega) (by omega)
      have hget : (tarjan_finish g ac { s with j := s.j + 1 }).stack.getD (s.top - 1) 0 =
          s.stack.getD (s.top - 1) 0 := getD_of_take_eq _ _ _ _ f5 (by omega)
      have htake : (tarjan_finish g ac { s with j := s.j + 1 }).stack.take (s.top - 1) =
          s.stack.take (s.top - 1) := take_of_take_eq _ _ _ _ f5 (by omega)
      simp only [hcons, ht, ht', if_false, f7, f8, f6, hget, ← f2, astate.rix]
      have hidx' : (afinish g ac a).idx =
          (tarjan_finish g ac { s with j := s.j + 1 }).idx := by
        rw [f9, afinish_idx, hidx]
      split
      · simp only [true_and, Bool.false_eq_true, false_implies, and_true]
        intro _
        refine ⟨?_, ?_, ?_, ?_, ?_, ?_, ?_, ?_, ?_, ?_, ?_, ?_⟩
        · rfl
        · rfl
        · simp only [htake]
        · exact f1
        · rfl
        · exact hidx'
        · exact f3
        · exact f4
        · exact f10
        · exact hel
        · simp only; omega
        · exact f11
      · simp only [true_and, Bool.false_eq_true, false_implies, and_true]
        intro _
        refine ⟨?_, ?_, ?_, ?_, ?_, ?_, ?_, ?_, ?_, ?_, ?_, ?_⟩
        · rfl
        · rfl
        · simp only [htake]
        · exact f1
        · rfl
        · exact hidx'
        · exact f3
        · exact f4
        · exact f10
        · exact hel
        · simp only; omega
        · exact f11

/-! ## Invariant preservation: discovering a new node -/

section tree
variable (g : graph_t) (a : astate) (b : Nat)

theorem not_opn_of_unvisited (hsh : AShape g a) (hb : b < g.nodes) (h0 : a.rix b = 0) :
    b ∉ a.opn := by
  intro hc
  exact ((hsh.opn_iff b hb).mp hc).1 h0

theorem rix_tree_self (hsh : AShape g a) (hb : b < g.nodes) :
    (a_tree a b).rix b = a.idx + 2 := by
  unfold a_tree astate.rix
  exact getD_set_eq _ _ _ _ (by rw [hsh.rindex_len]; exact hb)

theorem rix_tree_ne (v : Nat) (hv : v ≠ b) : (a_tree a b).rix v = a.rix v := by
  unfold a_tree astate.rix
  exact getD_set_ne _ _ _ _ _ (Ne.symm hv)

theorem d_tree_ne (v : Nat) (hv : v ≠ b) : (a_tree a b).d v = a.d v := by
  unfold a_tree
  exact Function.update_noteq hv _ _

theorem d_tree_self : (a_tree a b).d b = a.idx + 2 := by
  unfold a_tree
  exact Function.update_same _ _ _

theorem opn_tree : (a_tree a b).opn = b :: a.opn := rfl

theorem pathN_tree : (a_tree a b).pathN = b :: a.pathN := rfl

theorem comp_tree : (a_tree a b).comp = a.comp := rfl

theorem unvisited_count_pos (hsh : AShape g a) (hb : b < g.nodes) (h0 : a.rix b = 0) :
    ((List.range g.nodes).map (fun v => if (a_tree a b).rix v = 0 then 1 else 0)).sum + 1 =
      ((List.range g.nodes).map (fun v => if a.rix v = 0 then 1 else 0)).sum := by
  have h := sum_map_range_update (fun v => if a.rix v = 0 then 1 else 0)
    (fun v => if (a_tree a b).rix v = 0 then 1 else 0) g.nodes b hb (by
      intro i _ hne
      simp only [rix_tree_ne a b i hne])
  simp only [h0, if_true, rix_tree_self g a b hsh hb] at h
  simpa using h

theorem idx_lt_of_unvisited (hsh : AShape g a) (hb : b < g.nodes) (h0 : a.rix b = 0) :
    a.idx + 2 ≤ 2 * g.nodes := by
  have h1 := unvisited_count_pos g a b hsh hb h0
  have h2 := hsh.idx_bound
  omega

theorem tree_shape (hg : graph_wf g) (h : AShape g a) (hb : b < g.nodes) (h0 : a.rix b = 0) :
    AShape g (a_tree a b) := by
  have hbo := not_opn_of_unvisited g a b h hb h0
  have hne : ∀ v ∈ a.opn, v ≠ b := fun v hv hc => hbo (hc ▸ hv)
  have hI := idx_lt_of_unvisited g a b h hb h0
  have hN := hg.1
  have hpo : ∀ v ∈ a.pathN, v ∈ a.opn := fun v hv => List.mem_append_left _ hv
  have hco : ∀ v ∈ a.comp, v ∈ a.opn := fun v hv => List.mem_append_right _ hv
  refine ⟨?_, h.bits_len, ?_, ?_, ?_, ?_, ?_, ?_, ?_, ?_, ?_, ?_, ?_⟩
  · simp [a_tree, h.rindex_len]
  · rw [opn_tree, List.nodup_cons]
    exact ⟨hbo, h.nodup⟩
  · intro v hv
    rw [opn_tree, List.mem_cons] at hv
    rcases hv with rfl | hv
    · exact hb
    · exact h.lt_nodes v hv
  · intro v hv
    rw [opn_tree, List.mem_cons]
    by_cases hvb : v = b
    · subst hvb
      rw [rix_tree_self g a v h hb]
      simp only [true_or, true_iff]
      unfold UINT_ALL
      omega
    · rw [rix_tree_ne a b v hvb, ← h.opn_iff v hv]
      simp [hvb]
  · intro v hv
    rw [opn_tree, List.mem_cons] at hv
    rcases hv with rfl | hv
    · rw [d_tree_self, rix_tree_self g a v h hb]
      have := h.idx_even
      refine ⟨by omega, ?_, by omega, by omega, Or.inl rfl⟩
      show a.idx + 2 ≤ a.idx + 2
      omega
    · rw [d_tree_ne a b v (hne v hv), rix_tree_ne a b v (hne v hv)]
      obtain ⟨m1, m2, m3, m4, m5⟩ := h.marker v hv
      refine ⟨m1, ?_, m3, m4, m5⟩
      show a.d v ≤ a.idx + 2
      omega
  · show (a.idx + 2) % 2 = 0
    have := h.idx_even
    omega
  · have h1 := unvisited_count_pos g a b h hb h0
    have h2 := h.idx_bound
    show a.idx + 2 + 2 * _ ≤ 2 * g.nodes
    omega
  · intro x hx y hy hxy
    rw [opn_tree, List.mem_cons] at hx hy
    rcases hx with rfl | hx <;> rcases hy with rfl | hy
    · rfl
    · rw [d_tree_self, d_tree_ne a x y (hne y hy)] at hxy
      have := (h.marker y hy).2.1
      omega
    · rw [d_tree_self, d_tree_ne a y x (hne x hx)] at hxy
      have := (h.marker x hx).2.1
      omega
    · rw [d_tree_ne a b x (hne x hx), d_tree_ne a b y (hne y hy)] at hxy
      exact h.d_inj x hx y hy hxy
  · rw [pathN_tree, List.pairwise_cons]
    constructor
    · intro y hy
      rw [d_tree_self, d_tree_ne a b y (hne y (hpo y hy))]
      have := (h.marker y (hpo y hy)).2.1
      omega
    · apply List.Pairwise.imp_of_mem _ h.path_sorted
      intro x y hx hy hxy
      rw [d_tree_ne a b x (hne x (hpo x hx)), d_tree_ne a b y (hne y (hpo y hy))]
      exact hxy
  · rw [comp_tree]
    apply List.Pairwise.imp_of_mem _ h.comp_pre
    intro w w' hw hw' hww p hp
    rw [pathN_tree, List.mem_cons] at hp
    rw [d_tree_ne a b w (hne w (hco w hw)), d_tree_ne a b w' (hne w' (hco w' hw'))]
    rcases hp with rfl | hp
    · rw [d_tree_self]
      intro hlt
      have := (h.marker w' (hco w' hw')).2.1
      omega
    · rw [d_tree_ne a b p (hne p (hpo p hp))]
      exact hww p hp
  · intro w hw
    rw [comp_tree] at hw
    rw [rix_tree_ne a b w (hne w (hco w hw))]
    exact h.comp_odd w hw
  · obtain ⟨v, hv, hd⟩ := h.root_two
    refine ⟨v, ?_, ?_⟩
    · rw [pathN_tree]; exact List.mem_cons_of_mem _ hv
    · rw [d_tree_ne a b v (hne v (hpo v hv))]; exact hd

end tree

theorem chain_head_irrel (g : graph_t) (u j j' : Nat) (anc : List (Nat × Nat))
    (h : List.Chain' (fun (x y : Nat × Nat) => 1 ≤ y.2 ∧ (nbrs g y.1)[y.2 - 1]? = some x.1)
      ((u, j) :: anc)) :
    List.Chain' (fun (x y : Nat × Nat) => 1 ≤ y.2 ∧ (nbrs g y.1)[y.2 - 1]? = some x.1)
      ((u, j') :: anc) := by
  cases anc with
  | nil => exact List.chain'_singleton _
  | cons y ys =>
    rw [List.chain'_cons] at h ⊢
    exact h

theorem out_frame (g : graph_t) (ac : Bool) (ri ri' bits : List Nat) (sccs : List (List Int))
    (h : AOut g ac ri bits sccs)
    (hri : ∀ v, ri'.getD v 0 = UINT_ALL ↔ ri.getD v 0 = UINT_ALL) :
    AOut g ac ri' bits sccs := by
  refine ⟨?_, ?_, h.disjoint, h.bits_zero⟩
  · intro c hc
    obtain ⟨m, hm, hall⟩ := h.good c hc
    exact ⟨m, hm, fun v hv => (hri v).mpr (hall v hv)⟩
  · intro v hv hmax hw
    exact h.complete v hv ((hri v).mp hmax) hw

theorem edge_done_tree (g : graph_t) (a : astate) (b w x : Nat) (hsh : AShape g a)
    (hb : b < g.nodes) (h0 : a.rix b = 0) (hw : w ≠ b) (h : edge_done a w x) :
    edge_done (a_tree a b) w x := by
  have hbo := not_opn_of_unvisited g a b hsh hb h0
  rcases h with h | ⟨h1, h2⟩
  · left
    have hx : x ≠ b := by
      intro hc; subst hc; rw [h0] at h; exact absurd h (by decide)
    rw [rix_tree_ne a b x hx]; exact h
  · right
    have hx : x ≠ b := fun hc => hbo (hc ▸ h1)
    rw [opn_tree, rix_tree_ne a b w hw, d_tree_ne a b x hx]
    exact ⟨List.mem_cons_of_mem _ h1, h2⟩

theorem tree_edge (g : graph_t) (a : astate) (b : Nat) (h : AShape g a) (he : AEdge g a)
    (hb : b < g.nodes) (h0 : a.rix b = 0) (hbj : (nbrs g a.u)[a.j]? = some b) :
    AEdge g (a_tree a b) := by
  have hbo := not_opn_of_unvisited g a b h hb h0
  have hne : ∀ v ∈ a.opn, v ≠ b := fun v hv hc => hbo (hc ▸ hv)
  have hpo : ∀ v ∈ a.pathN, v ∈ a.opn := fun v hv => List.mem_append_left _ hv
  have hco : ∀ v ∈ a.comp, v ∈ a.opn := fun v hv => List.mem_append_right _ hv
  have huo : a.u ∈ a.opn := hpo _ (List.mem_cons_self _ _)
  have hjl : a.j < (nbrs g a.u).length := by
    by_contra hc
    rw [List.getElem?_eq_none (by omega)] at hbj
    exact Option.noConfusion hbj
  refine ⟨?_, ?_, ?_, ?_, ?_⟩
  · show List.Chain' _ ((b, 0) :: (a.u, a.j + 1) :: a.anc)
    rw [List.chain'_cons]
    refine ⟨⟨by simp, by simpa using hbj⟩, ?_⟩
    exact chain_head_irrel g a.u a.j (a.j + 1) a.anc he.chain
  · intro q hq
    have hq' : q = (b, 0) ∨ q = (a.u, a.j + 1) ∨ q ∈ a.anc := by
      simpa [a_tree, astate.pj] using hq
    rcases hq' with rfl | rfl | hq'
    · exact ⟨Nat.zero_le _, fun k hk => absurd hk (Nat.not_lt_zero _)⟩
    · refine ⟨hjl, ?_⟩
      intro k hk x hx
      simp only at hk hx
      rcases Nat.lt_or_ge k a.j with hk' | hk'
      · exact edge_done_tree g a b _ x h hb h0 (hne _ huo)
          ((he.processed (a.u, a.j) (List.mem_cons_self _ _)).2 k hk' x hx)
      · have hkj : k = a.j := by omega
        subst hkj
        rw [hbj] at hx
        have hxb : b = x := Option.some.inj hx
        subst hxb
        right
        rw [opn_tree, d_tree_self, rix_tree_ne a b a.u (hne _ huo)]
        refine ⟨List.mem_cons_self _ _, ?_⟩
        have := (h.marker a.u huo)
        omega
    · have hqo : q.1 ∈ a.opn := hpo _ (List.mem_cons_of_mem _ (List.mem_map_of_mem _ hq'))
      obtain ⟨p1, p2⟩ := he.processed q (List.mem_cons_of_mem _ hq')
      exact ⟨p1, fun k hk x hx => edge_done_tree g a b _ x h hb h0 (hne _ hqo) (p2 k hk x hx)⟩
  · intro w hw x hx
    rw [comp_tree] at hw
    exact edge_done_tree g a b w x h hb h0 (hne _ (hco w hw)) (he.finished w hw x hx)
  · intro p hp w hw hlt hown
    rw [comp_tree] at hw
    rw [pathN_tree, List.mem_cons] at hp
    have hwb := hne w (hco w hw)
    rw [d_tree_ne a b w hwb] at hlt
    rw [rix_tree_ne a b w hwb]
    rcases hp with rfl | hp
    · rw [d_tree_self] at hlt
      have := (h.marker w (hco w hw)).2.1
      omega
    · have hpb := hne p (hpo p hp)
      rw [d_tree_ne a b p hpb] at hlt
      rw [rix_tree_ne a b p hpb]
      apply he.lowlink p hp w hw hlt
      intro q hq hqw
      have hqb := hne q (hpo q hq)
      have := hown q (by rw [pathN_tree]; exact List.mem_cons_of_mem _ hq)
        (by rw [d_tree_ne a b q hqb, d_tree_ne a b w hwb]; exact hqw)
      rwa [d_tree_ne a b q hqb, d_tree_ne a b p hpb] at this
  · intro x hx hmax y hy
    have hxb : x ≠ b := by
      intro hc; subst hc
      rw [rix_tree_self g a x h hb] at hmax
      have := idx_lt_of_unvisited g a x h hb h0
      have := h.idx_even
      unfold UINT_ALL at hmax
      omega
    rw [rix_tree_ne a b x hxb] at hmax
    have hy' := he.done_closed x hx hmax y hy
    have hyb : y ≠ b := by
      intro hc; subst hc; rw [h0] at hy'; exact absurd hy' (by decide)
    rw [rix_tree_ne a b y hyb]; exact hy'

theorem tree_reach (g : graph_t) (a : astate) (b : Nat) (h : AShape g a) (hr : AReach g a)
    (hb : b < g.nodes) (h0 : a.rix b = 0) :
    AReach g (a_tree a b) := by
  have hbo := not_opn_of_unvisited g a b h hb h0
  have hne : ∀ v ∈ a.opn, v ≠ b := fun v hv hc => hbo (hc ▸ hv)
  have hpo : ∀ v ∈ a.pathN, v ∈ a.opn := fun v hv => List.mem_append_left _ hv
  have hco : ∀ v ∈ a.comp, v ∈ a.opn := fun v hv => List.mem_append_right _ hv
  refine ⟨?_, ?_⟩
  · intro w hw
    rw [comp_tree] at hw
    obtain ⟨x, hx1, hx2, hx3, hx4⟩ := hr.parent w hw
    have hwb := hne w (hco w hw)
    refine ⟨x, hx1, ?_, ?_, ?_⟩
    · rw [opn_tree]; exact List.mem_cons_of_mem _ hx2
    · rw [d_tree_ne a b x (hne x hx2), d_tree_ne a b w hwb]; exact hx3
    · intro p hp hpw
      rw [pathN_tree, List.mem_cons] at hp
      rw [d_tree_ne a b w hwb] at hpw
      rw [d_tree_ne a b x (hne x hx2)]
      rcases hp with rfl | hp
      · rw [d_tree_self] at hpw
        have := (h.marker w (hco w hw)).2.1
        omega
      · rw [d_tree_ne a b p (hne p (hpo p hp))] at hpw ⊢
        exact hx4 p hp hpw
  · intro w hw
    rw [opn_tree, List.mem_cons] at hw
    rcases hw with rfl | hw
    · refine ⟨w, by rw [opn_tree]; exact List.mem_cons_self _ _, ?_, Relation.ReflTransGen.refl⟩
      rw [d_tree_self, rix_tree_self g a w h hb]
      have := h.idx_even
      omega
    · obtain ⟨x, hx1, hx2, hx3⟩ := hr.low w hw
      refine ⟨x, by rw [opn_tree]; exact List.mem_cons_of_mem _ hx1, ?_, ?_⟩
      · rw [d_tree_ne a b x (hne x hx1), rix_tree_ne a b w (hne w hw)]; exact hx2
      · apply Relation.ReflTransGen.mono _ hx3
        intro y z ⟨e, ⟨s1, s2⟩, ⟨s3, s4⟩⟩
        refine ⟨e, ⟨?_, ?_⟩, ⟨?_, ?_⟩⟩
        · rw [opn_tree]; exact List.mem_cons_of_mem _ s1
        · rw [d_tree_ne a b x (hne x hx1), d_tree_ne a b y (hne y s1)]; exact s2
        · rw [opn_tree]; exact List.mem_cons_of_mem _ s3
        · rw [d_tree_ne a b x (hne x hx1), d_tree_ne a b z (hne z s3)]; exact s4

theorem tree_out (g : graph_t) (ac : Bool) (a : astate) (b : Nat) (h : AShape g a)
    (ho : AOut g ac a.rindex a.sccredges a.sccs) (hb : b < g.nodes) (h0 : a.rix b = 0) :
    AOut g ac (a_tree a b).rindex (a_tree a b).sccredges (a_tree a b).sccs := by
  apply out_frame g ac a.rindex _ _ _ ho
  intro v
  by_cases hvb : v = b
  · subst hvb
    have h1 := rix_tree_self g a v h hb
    have h2 := idx_lt_of_unvisited g a v h hb h0
    have h3 := h.idx_even
    unfold astate.rix at h1 h0
    rw [h1, h0]
    unfold UINT_ALL
    constructor <;> intro hc <;> omega
  · have := rix_tree_ne a b v hvb
    unfold astate.rix at this
    rw [this]

theorem tree_inv (g : graph_t) (ac : Bool) (a : astate) (b : Nat) (h : AInv g ac a)
    (hg : graph_wf g) (hb : b < g.nodes) (h0 : a.rix b = 0)
    (hbj : (nbrs g a.u)[a.j]? = some b) : AInv g ac (a_tree a b) :=
  ⟨tree_shape g a b hg h.shape hb h0, tree_edge g a b h.shape h.edge hb h0 hbj,
    tree_reach g a b h.shape h.reach hb h0, tree_out g ac a b h.shape h.out hb h0⟩

/-! ## Invariant preservation: moving to the next neighbour, lowering a marker -/

theorem getElem?_lt_length {α : Type} (l : List α) (k : Nat) (x : α) (h : l[k]? = some x) :
    k < l.length := by
  by_contra hc
  rw [List.getElem?_eq_none (by omega)] at h
  exact Option.noConfusion h

theorem advance_inv (g : graph_t) (ac : Bool) (a : astate) (b : Nat) (h : AInv g ac a)
    (hbj : (nbrs g a.u)[a.j]? = some b) (hdone : edge_done a a.u b) :
    AInv g ac (a_advance a) := by
  obtain ⟨hs, he, hr, ho⟩ := h
  refine ⟨⟨hs.1, hs.2, hs.3, hs.4, hs.5, hs.6, hs.7, hs.8, hs.9, hs.10, hs.11, hs.12, hs.13⟩,
    ⟨?_, ?_, he.finished, he.lowlink, he.done_closed⟩, ⟨hr.1, hr.2⟩, ho⟩
  · exact chain_head_irrel g a.u a.j (a.j + 1) a.anc he.chain
  · intro q hq
    have hq' : q = (a.u, a.j + 1) ∨ q ∈ a.anc := by
      simpa [a_advance, astate.pj] using hq
    rcases hq' with rfl | hq'
    · refine ⟨getElem?_lt_length _ _ _ hbj, ?_⟩
      intro k hk x hx
      simp only at hk hx
      rcases Nat.lt_or_ge k a.j with hk' | hk'
      · exact (he.processed (a.u, a.j) (List.mem_cons_self _ _)).2 k hk' x hx
      · have hkj : k = a.j := by omega
        subst hkj
        rw [hbj] at hx
        have hxb : b = x := Option.some.inj hx
        subst hxb
        exact hdone
    · exact he.processed q (List.mem_cons_of_mem _ hq')

theorem rix_lower_self (g : graph_t) (a : astate) (q y : Nat) (hsh : AShape g a)
    (hq : q < g.nodes) : (a_lower a q y).rix q = 2 * (a.rix y / 2) + 1 := by
  unfold a_lower astate.rix
  exact getD_set_eq _ _ _ _ (by rw [hsh.rindex_len]; exact hq)

theorem rix_lower_ne (a : astate) (q y v : Nat) (hv : v ≠ q) :
    (a_lower a q y).rix v = a.rix v := by
  unfold a_lower astate.rix
  exact getD_set_ne _ _ _ _ _ (Ne.symm hv)

theorem idx_le_two_nodes (g : graph_t) (a : astate) (hsh : AShape g a) :
    a.idx ≤ 2 * g.nodes := by
  have := hsh.idx_bound
  omega

theorem lower_inv (g : graph_t) (ac : Bool) (a : astate) (q y : Nat) (hg : graph_wf g)
    (h : AInv g ac a) (hq : q ∈ a.pathN) (hy : y ∈ a.opn) (hqy : Edge g q y)
    (hlt : a.rix y < a.rix q) : AInv g ac (a_lower a q y) := by
  obtain ⟨hs, he, hr, ho⟩ := h
  have hqo : q ∈ a.opn := List.mem_append_left _ hq
  have hqn : q < g.nodes := hs.lt_nodes q hqo
  have hself := rix_lower_self g a q y hs hqn
  have hne := rix_lower_ne a q y
  have hmq := hs.marker q hqo
  have hmy := hs.marker y hy
  have hidx := idx_le_two_nodes g a hs
  have hN := hg.1
  have hle : ∀ v, (a_lower a q y).rix v ≤ a.rix v := by
    intro v
    by_cases hv : v = q
    · subst hv; rw [hself]; omega
    · rw [hne v hv]
  have hmax : ∀ v, (a_lower a q y).rix v = UINT_ALL ↔ a.rix v = UINT_ALL := by
    intro v
    by_cases hv : v = q
    · subst hv; rw [hself]; unfold UINT_ALL; omega
    · rw [hne v hv]
  have hzero : ∀ v, (a_lower a q y).rix v = 0 ↔ a.rix v = 0 := by
    intro v
    by_cases hv : v = q
    · subst hv; rw [hself]; omega
    · rw [hne v hv]
  have hed : ∀ w x, edge_done a w x → edge_done (a_lower a q y) w x := by
    intro w x hd
    rcases hd with hd | ⟨h1, h2⟩
    · left; exact (hmax x).mpr hd
    · right; exact ⟨h1, Nat.le_trans (hle w) h2⟩
  have hcq : ∀ w ∈ a.comp, w ≠ q := by
    intro w hw hc
    subst hc
    have := hs.nodup
    unfold astate.opn at this
    exact (List.nodup_append.mp this).2.2 hq hw
  refine ⟨⟨?_, hs.bits_len, hs.nodup, hs.lt_nodes, ?_, ?_, hs.idx_even, ?_, hs.d_inj,
    hs.path_sorted, hs.comp_pre, ?_, hs.root_two⟩, ⟨he.chain, ?_, ?_, ?_, ?_⟩, ⟨hr.parent, ?_⟩,
    ?_⟩
  · simp [a_lower, hs.rindex_len]
  · intro v hv
    have h1 := hs.opn_iff v hv
    have h2 := hmax v
    have h3 := hzero v
    show v ∈ a.opn ↔ _
    rw [h1]
    constructor
    · intro ⟨c1, c2⟩; exact ⟨fun hc => c1 (h3.mp hc), fun hc => c2 (h2.mp hc)⟩
    · intro ⟨c1, c2⟩; exact ⟨fun hc => c1 (h3.mpr hc), fun hc => c2 (h2.mpr hc)⟩
  · intro v hv
    have hm := hs.marker v hv
    by_cases hvq : v = q
    · subst hvq
      rw [hself]
      refine ⟨hm.1, hm.2.1, hm.2.2.1, by omega, Or.inr ⟨by omega, ?_⟩⟩
      show 2 * (a.rix y / 2) + 1 < a.d v
      omega
    · rw [hne v hvq]; exact hm
  · have : ((List.range g.nodes).map (fun v => if (a_lower a q y).rix v = 0 then 1 else 0)).sum =
        ((List.range g.nodes).map (fun v => if a.rix v = 0 then 1 else 0)).sum := by
      apply sum_map_range_congr
      intro i _
      by_cases hi : a.rix i = 0
      · rw [if_pos hi, if_pos ((hzero i).mpr hi)]
      · rw [if_neg hi, if_neg (fun hc => hi ((hzero i).mp hc))]
    show a.idx + 2 * _ ≤ _
    rw [this]
    exact hs.idx_bound
  · intro w hw
    rw [hne w (hcq w hw)]
    exact hs.comp_odd w hw
  · intro p hp
    obtain ⟨p1, p2⟩ := he.processed p hp
    exact ⟨p1, fun k hk x hx => hed _ _ (p2 k hk x hx)⟩
  · intro w hw x hx
    exact hed _ _ (he.finished w hw x hx)
  · intro p hp w hw hpw hown
    have h1 := he.lowlink p hp w hw hpw hown
    have h2 := hle p
    rw [hne w (hcq w hw)]
    have : (a_lower a q y).rix p / 2 ≤ a.rix p / 2 := Nat.div_le_div_right h2
    omega
  · intro x hx hxm z hz
    exact (hmax z).mpr (he.done_closed x hx ((hmax x).mp hxm) z hz)
  · intro w hw
    by_cases hwq : w = q
    · subst hwq
      obtain ⟨x, hx1, hx2, hx3⟩ := hr.low y hy
      refine ⟨x, hx1, ?_, ?_⟩
      · rw [hself]
        show a.d x = 2 * ((2 * (a.rix y / 2) + 1) / 2)
        omega
      · refine Relation.ReflTransGen.head ⟨hqy, ⟨hqo, ?_⟩, ⟨hy, ?_⟩⟩ hx3
        · show a.d x ≤ a.d w
          omega
        · show a.d x ≤ a.d y
          omega
    · obtain ⟨x, hx1, hx2, hx3⟩ := hr.low w hw
      refine ⟨x, hx1, ?_, hx3⟩
      rw [hne w hwq]
      exact hx2
  · apply out_frame g ac a.rindex _ _ _ ho
    intro v
    exact hmax v

/-! ## Invariant preservation: finishing a node that is not a root -/

theorem mem_of_getElem?_some {α : Type} (l : List α) (k : Nat) (x : α) (h : l[k]? = some x) :
    x ∈ l := by
  have hk := getElem?_lt_length l k x h
  rw [List.getElem?_eq_getElem hk] at h
  exact (Option.some.inj h) ▸ List.getElem_mem hk

theorem retreat_inv (g : graph_t) (ac : Bool) (a : astate) (p jp : Nat) (rest : List (Nat × Nat))
    (h : AInv g ac a) (hanc : a.anc = (p, jp) :: rest) (hodd : a.rix a.u % 2 = 1)
    (hj : a.j = (nbrs g a.u).length) (hlow : a.rix p / 2 ≤ a.rix a.u / 2) :
    AInv g ac (a_retreat a p jp rest) := by
  obtain ⟨hs, he, hr, ho⟩ := h
  have hpath : a.pathN = a.u :: p :: rest.map Prod.fst := by
    simp [astate.pathN, hanc]
  have hpath' : (a_retreat a p jp rest).pathN = p :: rest.map Prod.fst := rfl
  have hcomp' : (a_retreat a p jp rest).comp = a.u :: a.comp := rfl
  have hopn : a.opn = a.u :: ((p :: rest.map Prod.fst) ++ a.comp) := by
    simp [astate.opn, hpath]
  have hopn' : (a_retreat a p jp rest).opn = (p :: rest.map Prod.fst) ++ a.u :: a.comp := rfl
  have hmem : ∀ v, v ∈ (a_retreat a p jp rest).opn ↔ v ∈ a.opn := by
    intro v
    rw [hopn, hopn']
    simp only [List.mem_append, List.mem_cons]
    tauto
  have hsub : ∀ v ∈ (a_retreat a p jp rest).pathN, v ∈ a.pathN := by
    intro v hv
    rw [hpath]; rw [hpath'] at hv
    exact List.mem_cons_of_mem _ hv
  have hsorted := hs.path_sorted
  rw [hpath, List.pairwise_cons] at hsorted
  obtain ⟨hbelow, hsorted'⟩ := hsorted
  have hpo : ∀ v ∈ a.pathN, v ∈ a.opn := fun v hv => List.mem_append_left _ hv
  have hco : ∀ v ∈ a.comp, v ∈ a.opn := fun v hv => List.mem_append_right _ hv
  have huo : a.u ∈ a.opn := hpo _ (List.mem_cons_self _ _)
  have hpp : p ∈ a.pathN := by rw [hpath]; simp
  have hpmax : ∀ q ∈ (a_retreat a p jp rest).pathN, a.d q ≤ a.d p := by
    intro q hq
    rw [hpath', List.mem_cons] at hq
    rcases hq with rfl | hq
    · exact Nat.le_refl _
    · have := (List.pairwise_cons.mp hsorted').1 q hq
      omega
  have hed : ∀ w x, edge_done a w x → edge_done (a_retreat a p jp rest) w x := by
    intro w x hd
    rcases hd with hd | ⟨h1, h2⟩
    · left; exact hd
    · right; exact ⟨(hmem x).mpr h1, h2⟩
  have hchain := he.chain
  have hpj : a.pj = (a.u, a.j) :: (p, jp) :: rest := by simp [astate.pj, hanc]
  rw [hpj, List.chain'_cons] at hchain
  refine ⟨⟨hs.rindex_len, hs.bits_len, ?_, ?_, ?_, ?_, hs.idx_even, hs.idx_bound, ?_, ?_, ?_, ?_,
    ?_⟩, ⟨?_, ?_, ?_, ?_, he.done_closed⟩, ⟨?_, ?_⟩, ho⟩
  · have := hs.nodup
    rw [hopn] at this
    rw [hopn']
    exact (List.perm_middle.nodup_iff).mpr this
  · intro v hv
    exact hs.lt_nodes v ((hmem v).mp hv)
  · intro v hv
    rw [hmem v]
    exact hs.opn_iff v hv
  · intro v hv
    exact hs.marker v ((hmem v).mp hv)
  · intro x hx y hy hxy
    exact hs.d_inj x ((hmem x).mp hx) y ((hmem y).mp hy) hxy
  · rw [hpath']; exact hsorted'
  · rw [hcomp', List.pairwise_cons]
    constructor
    · intro w' _ q hq _
      rw [hpath'] at hq
      exact hbelow q hq
    · apply List.Pairwise.imp _ hs.comp_pre
      intro w w' hww q hq
      exact hww q (hsub q hq)
  · intro w hw
    rw [hcomp', List.mem_cons] at hw
    rcases hw with rfl | hw
    · exact hodd
    · exact hs.comp_odd w hw
  · obtain ⟨v, hv, hd⟩ := hs.root_two
    refine ⟨v, ?_, hd⟩
    rw [hpath, List.mem_cons] at hv
    rcases hv with rfl | hv
    · have h1 := hbelow p (List.mem_cons_self _ _)
      have h2 := (hs.marker p (hpo p hpp)).1
      omega
    · rw [hpath']; exact hv
  · exact hchain.2
  · intro q hq
    have hq' : q ∈ a.pj := by
      rw [hpj]; exact List.mem_cons_of_mem _ hq
    obtain ⟨p1, p2⟩ := he.processed q hq'
    exact ⟨p1, fun k hk x hx => hed _ _ (p2 k hk x hx)⟩
  · intro w hw x hx
    rw [hcomp', List.mem_cons] at hw
    rcases hw with rfl | hw
    · obtain ⟨k, hk, rfl⟩ := List.getElem_of_mem hx
      apply hed
      apply (he.processed (a.u, a.j) (by rw [hpj]; exact List.mem_cons_self _ _)).2 k
        (by simp only; omega)
      exact List.getElem?_eq_getElem hk
    · exact hed _ _ (he.finished w hw x hx)
  · intro q hq w hw hqw hown
    have hqp : a.d p ≤ a.d w → q = p := by
      intro hpw
      have h1 := hown p (by rw [hpath']; exact List.mem_cons_self _ _) hpw
      have h2 := hpmax q hq
      exact hs.d_inj q (hpo q (hsub q hq)) p (hpo p hpp) (by
        show a.d q = a.d p
        have h1' : a.d p ≤ a.d q := h1
        omega)
    have hpu := hbelow p (List.mem_cons_self _ _)
    rw [hcomp', List.mem_cons] at hw
    rcases hw with rfl | hw
    · have := hqp (by omega)
      subst this
      exact hlow
    · by_cases huw : a.d a.u < a.d w
      · have := hqp (by omega)
        subst this
        have h1 := he.lowlink a.u (List.mem_cons_self _ _) w hw huw (by
          intro q' hq' _
          rw [hpath, List.mem_cons] at hq'
          rcases hq' with rfl | hq'
          · exact Nat.le_refl _
          · have := hbelow q' hq'
            omega)
        show a.rix q / 2 ≤ a.rix w / 2
        omega
      · have hne : a.d a.u ≠ a.d w := by
          intro hc
          have := hs.d_inj a.u huo w (hco w hw) hc
          have hnd := hs.nodup
          rw [hopn, List.nodup_cons] at hnd
          exact hnd.1 (this ▸ List.mem_append_right _ hw)
        apply he.lowlink q (hsub q hq) w hw hqw
        intro q' hq' hq'w
        rw [hpath, List.mem_cons] at hq'
        rcases hq' with rfl | hq'
        · omega
        · exact hown q' (by rw [hpath']; exact hq') hq'w
  · intro w hw
    rw [hcomp', List.mem_cons] at hw
    rcases hw with rfl | hw
    · refine ⟨p, ⟨hs.lt_nodes p (hpo p hpp), ?_⟩, (hmem p).mpr (hpo p hpp),
        hbelow p (List.mem_cons_self _ _), ?_⟩
      · have := hchain.1.2
        simp only at this
        exact mem_of_getElem?_some _ _ _ this
      · intro q hq _
        exact hpmax q hq
    · obtain ⟨x, hx1, hx2, hx3, hx4⟩ := hr.parent w hw
      exact ⟨x, hx1, (hmem x).mpr hx2, hx3, fun q hq hqw => hx4 q (hsub q hq) hqw⟩
  · intro w hw
    obtain ⟨x, hx1, hx2, hx3⟩ := hr.low w ((hmem w).mp hw)
    refine ⟨x, (hmem x).mpr hx1, hx2, ?_⟩
    apply Relation.ReflTransGen.mono _ hx3
    intro y z ⟨e, ⟨s1, s2⟩, ⟨s3, s4⟩⟩
    exact ⟨e, ⟨(hmem y).mpr s1, s2⟩, ⟨(hmem z).mpr s3, s4⟩⟩

/-! ## The component collected at a root -/

theorem mem_of_mem_takeWhile {α : Type} (p : α → Bool) (l : List α) (x : α)
    (h : x ∈ l.takeWhile p) : x ∈ l :=
  (List.takeWhile_sublist p).subset h

theorem root_marker (g : graph_t) (a : astate) (hs : AShape g a) (hroot : a.rix a.u % 2 = 0) :
    a.rix a.u = a.d a.u := by
  have := hs.marker a.u (List.mem_append_left _ (List.mem_cons_self _ _))
  omega

theorem path_d_le (g : graph_t) (a : astate) (hs : AShape g a) (q : Nat) (hq : q ∈ a.pathN) :
    a.d q ≤ a.d a.u := by
  have := hs.path_sorted
  unfold astate.pathN at this hq
  rw [List.pairwise_cons] at this
  rcases List.mem_cons.mp hq with rfl | hq
  · exact Nat.le_refl _
  · have := this.1 q hq
    omega

theorem path_d_lt (g : graph_t) (a : astate) (hs : AShape g a) (q : Nat)
    (hq : q ∈ a.anc.map Prod.fst) : a.d q < a.d a.u := by
  have := hs.path_sorted
  unfold astate.pathN at this
  rw [List.pairwise_cons] at this
  exact this.1 q hq

theorem comp_ne_u (g : graph_t) (a : astate) (hs : AShape g a) (w : Nat) (hw : w ∈ a.comp) :
    a.d w ≠ a.d a.u := by
  intro hc
  have h1 := hs.d_inj w (List.mem_append_right _ hw) a.u
    (List.mem_append_left _ (List.mem_cons_self _ _)) hc
  have hnd := hs.nodup
  unfold astate.opn astate.pathN at hnd
  rw [List.cons_append, List.nodup_cons] at hnd
  exact hnd.1 (h1 ▸ List.mem_append_right _ hw)

theorem root_cond (g : graph_t) (a : astate) (hs : AShape g a) (he : AEdge g a)
    (hroot : a.rix a.u % 2 = 0) (w : Nat) (hw : w ∈ a.comp) :
    a.rix a.u ≤ a.rix w ↔ a.d a.u < a.d w := by
  have hu := root_marker g a hs hroot
  have hm := hs.marker w (List.mem_append_right _ hw)
  have hne := comp_ne_u g a hs w hw
  constructor
  · intro h; omega
  · intro h
    have := he.lowlink a.u (List.mem_cons_self _ _) w hw h
      (fun q hq _ => path_d_le g a hs q hq)
    have hmu := hs.marker a.u (List.mem_append_left _ (List.mem_cons_self _ _))
    omega

theorem root_pre (g : graph_t) (a : astate) (hs : AShape g a) (he : AEdge g a)
    (hroot : a.rix a.u % 2 = 0) :
    a.comp.Pairwise (fun w w' => (fun w => decide (a.rix a.u ≤ a.rix w)) w' = true →
      (fun w => decide (a.rix a.u ≤ a.rix w)) w = true) := by
  apply List.Pairwise.imp_of_mem _ hs.comp_pre
  intro w w' hw hw' hww hc
  simp only [decide_eq_true_eq] at hc ⊢
  rw [root_cond g a hs he hroot w hw]
  rw [root_cond g a hs he hroot w' hw'] at hc
  exact hww a.u (List.mem_cons_self _ _) hc

theorem members_iff (g : graph_t) (a : astate) (hs : AShape g a) (he : AEdge g a)
    (hroot : a.rix a.u % 2 = 0) (x : Nat) :
    x ∈ a_members a ↔ x ∈ a.opn ∧ a.d a.u ≤ a.d x := by
  unfold a_members
  rw [takeWhile_eq_filter _ _ (root_pre g a hs he hroot)]
  simp only [List.mem_cons, List.mem_filter, decide_eq_true_eq]
  constructor
  · rintro (rfl | ⟨h1, h2⟩)
    · exact ⟨List.mem_append_left _ (List.mem_cons_self _ _), Nat.le_refl _⟩
    · have := (root_cond g a hs he hroot x h1).mp h2
      exact ⟨List.mem_append_right _ h1, by omega⟩
  · rintro ⟨h1, h2⟩
    unfold astate.opn astate.pathN at h1
    rw [List.mem_append, List.mem_cons] at h1
    rcases h1 with (h1 | h1) | h1
    · exact Or.inl h1
    · have := path_d_lt g a hs x h1
      omega
    · right
      refine ⟨h1, (root_cond g a hs he hroot x h1).mpr ?_⟩
      have := comp_ne_u g a hs x h1
      omega

theorem rest_iff (g : graph_t) (a : astate) (hs : AShape g a) (he : AEdge g a)
    (hroot : a.rix a.u % 2 = 0) (x : Nat) :
    x ∈ a.comp.dropWhile (fun w => decide (a.rix a.u ≤ a.rix w)) ↔
      x ∈ a.comp ∧ a.d x < a.d a.u := by
  rw [dropWhile_eq_filter _ _ (root_pre g a hs he hroot)]
  simp only [List.mem_filter, Bool.not_eq_true', decide_eq_false_iff_not]
  constructor
  · rintro ⟨h1, h2⟩
    have := root_cond g a hs he hroot x h1
    have := comp_ne_u g a hs x h1
    refine ⟨h1, ?_⟩
    by_contra hc
    exact h2 ((root_cond g a hs he hroot x h1).mpr (by omega))
  · rintro ⟨h1, h2⟩
    refine ⟨h1, fun hc => ?_⟩
    have := (root_cond g a hs he hroot x h1).mp hc
    omega

theorem members_sub_opn (g : graph_t) (a : astate) (hs : AShape g a) (he : AEdge g a)
    (hroot : a.rix a.u % 2 = 0) (x : Nat) (hx : x ∈ a_members a) : x ∈ a.opn :=
  ((members_iff g a hs he hroot x).mp hx).1

theorem members_nodup (g : graph_t) (a : astate) (hs : AShape g a) : (a_members a).Nodup := by
  have hnd := hs.nodup
  unfold astate.opn astate.pathN at hnd
  rw [List.cons_append, List.nodup_cons] at hnd
  unfold a_members
  rw [List.nodup_cons]
  constructor
  · intro hc
    exact hnd.1 (List.mem_append_right _ (mem_of_mem_takeWhile _ _ _ hc))
  · exact ((List.nodup_append.mp hnd.2).2.1).sublist (List.takeWhile_sublist _)

theorem members_rix_ge (a : astate) (x : Nat) (hx : x ∈ a_members a) :
    a.rix a.u ≤ a.rix x := by
  unfold a_members at hx
  rcases List.mem_cons.mp hx with rfl | hx
  · exact Nat.le_refl _
  · have := List.mem_takeWhile_imp hx
    simpa using this

theorem members_edge_done (g : graph_t) (a : astate) (he : AEdge g a)
    (hj : a.j = (nbrs g a.u).length) (x : Nat) (hx : x ∈ a_members a) (b : Nat)
    (hb : b ∈ nbrs g x) : edge_done a x b := by
  unfold a_members at hx
  rcases List.mem_cons.mp hx with rfl | hx
  · obtain ⟨k, hk, rfl⟩ := List.getElem_of_mem hb
    exact (he.processed (a.u, a.j) (List.mem_cons_self _ _)).2 k (by simp only; omega) _
      (List.getElem?_eq_getElem hk)
  · exact he.finished x (mem_of_mem_takeWhile _ _ _ hx) b hb

theorem members_closure (g : graph_t) (a : astate) (hs : AShape g a) (he : AEdge g a)
    (hroot : a.rix a.u % 2 = 0) (hj : a.j = (nbrs g a.u).length) (x : Nat)
    (hx : x ∈ a_members a) (b : Nat) (hb : b ∈ nbrs g x) :
    b ∈ a_members a ∨ a.rix b = UINT_ALL := by
  rcases members_edge_done g a he hj x hx b hb with h | ⟨h1, h2⟩
  · exact Or.inr h
  · left
    rw [members_iff g a hs he hroot]
    refine ⟨h1, ?_⟩
    have h3 := members_rix_ge a x hx
    have h4 := root_marker g a hs hroot
    have h5 := (hs.marker b h1).2.2.1
    have h6 := (hs.marker a.u (List.mem_append_left _ (List.mem_cons_self _ _))).2.2.1
    omega

theorem members_down (g : graph_t) (a : astate) (hs : AShape g a) (he : AEdge g a)
    (hr : AReach g a) (hroot : a.rix a.u % 2 = 0) (n : Nat) :
    ∀ y, y ∈ a_members a → a.d y ≤ n → ReachIn g (fun z => z ∈ a_members a) a.u y := by
  induction n with
  | zero =>
    intro y hy hd
    have := (hs.marker y (members_sub_opn g a hs he hroot y hy)).1
    omega
  | succ n ih =>
    intro y hy hd
    have hy' := hy
    unfold a_members at hy'
    rcases List.mem_cons.mp hy' with rfl | hy'
    · exact Relation.ReflTransGen.refl
    · have hyc := mem_of_mem_takeWhile _ _ _ hy'
      obtain ⟨x, hx1, hx2, hx3, hx4⟩ := hr.parent y hyc
      have hdy := ((members_iff g a hs he hroot y).mp hy).2
      have hdx := hx4 a.u (List.mem_cons_self _ _) hdy
      have hxm : x ∈ a_members a := (members_iff g a hs he hroot x).mpr ⟨hx2, hdx⟩
      exact Relation.ReflTransGen.tail (ih x hxm (by omega)) ⟨hx1, hxm, hy⟩

theorem members_up (g : graph_t) (a : astate) (hs : AShape g a) (he : AEdge g a)
    (hr : AReach g a) (hroot : a.rix a.u % 2 = 0) (n : Nat) :
    ∀ x, x ∈ a_members a → a.d x ≤ n → ReachIn g (fun z => z ∈ a_members a) x a.u := by
  induction n with
  | zero =>
    intro y hy hd
    have := (hs.marker y (members_sub_opn g a hs he hroot y hy)).1
    omega
  | succ n ih =>
    intro x hx hd
    have hxo := members_sub_opn g a hs he hroot x hx
    obtain ⟨z, hz1, hz2, hz3⟩ := hr.low x hxo
    have hge := members_rix_ge a x hx
    have hu := root_marker g a hs hroot
    have hue := (hs.marker a.u (List.mem_append_left _ (List.mem_cons_self _ _))).2.2.1
    have hzu : a.d a.u ≤ a.d z := by omega
    have hzm : z ∈ a_members a := (members_iff g a hs he hroot z).mpr ⟨hz1, hzu⟩
    have hxz : ReachIn g (fun z => z ∈ a_members a) x z := by
      apply Relation.ReflTransGen.mono _ hz3
      intro y y' ⟨e, ⟨s1, s2⟩, ⟨s3, s4⟩⟩
      exact ⟨e, (members_iff g a hs he hroot y).mpr ⟨s1, by omega⟩,
        (members_iff g a hs he hroot y').mpr ⟨s3, by omega⟩⟩
    have hx' := hx
    unfold a_members at hx'
    rcases List.mem_cons.mp hx' with rfl | hx'
    · exact Relation.ReflTransGen.refl
    · have hxc := mem_of_mem_takeWhile _ _ _ hx'
      have hodd := hs.comp_odd x hxc
      have hm := hs.marker x hxo
      exact Relation.ReflTransGen.trans hxz (ih z hzm (by omega))

theorem members_conn (g : graph_t) (a : astate) (hs : AShape g a) (he : AEdge g a)
    (hr : AReach g a) (hroot : a.rix a.u % 2 = 0) :
    ∀ x ∈ a_members a, ∀ y ∈ a_members a, ReachIn g (fun z => z ∈ a_members a) x y :=
  fun x hx y hy => Relation.ReflTransGen.trans
    (members_up g a hs he hr hroot (a.d x) x hx (Nat.le_refl _))
    (members_down g a hs he hr hroot (a.d y) y hy (Nat.le_refl _))

theorem reachIn_reach (g : graph_t) (S : Nat → Prop) (x y : Nat) (h : ReachIn g S x y) :
    Reach g x y := by
  apply Relation.ReflTransGen.mono _ h
  intro a b hab
  exact hab.1

theorem done_reach (g : graph_t) (rix : Nat → Nat)
    (hclosed : ∀ x, x < g.nodes → rix x = UINT_ALL → ∀ b ∈ nbrs g x, rix b = UINT_ALL)
    (x y : Nat) (h : Reach g x y) (hx : rix x = UINT_ALL) : rix y = UINT_ALL := by
  induction h with
  | refl => exact hx
  | tail _ hbc ih => exact hclosed _ hbc.1 ih _ hbc.2

theorem members_maxl (g : graph_t) (a : astate) (hs : AShape g a) (he : AEdge g a)
    (hroot : a.rix a.u % 2 = 0) (hj : a.j = (nbrs g a.u).length) :
    ∀ x ∈ a_members a, ∀ y, Reach g x y → Reach g y x → y ∈ a_members a := by
  intro x hx y hxy hyx
  have hA : y ∈ a_members a ∨ a.rix y = UINT_ALL := by
    clear hyx
    induction hxy with
    | refl => exact Or.inl hx
    | tail _ hbc ih =>
      rcases ih with ih | ih
      · exact members_closure g a hs he hroot hj _ ih _ hbc.2
      · exact Or.inr (he.done_closed _ hbc.1 ih _ hbc.2)
  rcases hA with hA | hA
  · exact hA
  · have h1 := done_reach g a.rix he.done_closed y x hyx hA
    have hxo := members_sub_opn g a hs he hroot x hx
    have := (hs.opn_iff x (hs.lt_nodes x hxo)).mp hxo
    exact absurd h1 this.2

/-! ## Invariant preservation: finishing a root and resuming its parent -/

theorem reachIn_avoid (g : graph_t) (S T : Nat → Prop)
    (hT : ∀ a b, Edge g a b → T a → S b → T b) (w x : Nat) (h : ReachIn g S w x)
    (hx : ¬ T x) : ¬ T w ∧ ReachIn g (fun z => S z ∧ ¬ T z) w x := by
  induction h using Relation.ReflTransGen.head_induction_on with
  | refl => exact ⟨hx, Relation.ReflTransGen.refl⟩
  | head hac _ ih =>
    obtain ⟨e, sa, sc⟩ := hac
    have hta : ¬ T _ := fun hc => ih.1 (hT _ _ e hc sc)
    exact ⟨hta, Relation.ReflTransGen.head ⟨e, ⟨sa, hta⟩, ⟨sc, ih.1⟩⟩ ih.2⟩

theorem rix_pop (g : graph_t) (a : astate) (bits : List Nat) (sccs : List (List Int))
    (hs : AShape g a) (he : AEdge g a) (hroot : a.rix a.u % 2 = 0) (v : Nat) :
    (a_pop a bits sccs).rix v = if v ∈ a_members a then UINT_ALL else a.rix v := by
  unfold a_pop astate.rix
  simp only
  rw [foldl_set_getD]
  intro x hx
  rw [hs.rindex_len]
  exact hs.lt_nodes x (members_sub_opn g a hs he hroot x hx)

theorem pop_resume_inv (g : graph_t) (ac : Bool) (a : astate) (p jp : Nat)
    (rest : List (Nat × Nat)) (bits : List Nat) (sccs : List (List Int))
    (h : AInv g ac a) (hroot : a.rix a.u % 2 = 0) (hj : a.j = (nbrs g a.u).length)
    (hanc : a.anc = (p, jp) :: rest) (hbl : bits.length = bitmap_end g.nodes)
    (hout : AOut g ac (a_pop a bits sccs).rindex bits sccs) :
    AInv g ac (a_resume (a_pop a bits sccs) p jp rest) := by
  obtain ⟨hs, he, hr, ho⟩ := h
  have hmi := members_iff g a hs he hroot
  have hri := rest_iff g a hs he hroot
  have hrix : ∀ v, (a_resume (a_pop a bits sccs) p jp rest).rix v =
      if v ∈ a_members a then UINT_ALL else a.rix v := rix_pop g a bits sccs hs he hroot
  have hpath : a.pathN = a.u :: p :: rest.map Prod.fst := by
    simp [astate.pathN, hanc]
  have hpath' : (a_resume (a_pop a bits sccs) p jp rest).pathN = p :: rest.map Prod.fst := rfl
  have hcomp' : (a_resume (a_pop a bits sccs) p jp rest).comp =
      a.comp.dropWhile (fun w => decide (a.rix a.u ≤ a.rix w)) := rfl
  have hopn' : (a_resume (a_pop a bits sccs) p jp rest).opn = (p :: rest.map Prod.fst) ++
      a.comp.dropWhile (fun w => decide (a.rix a.u ≤ a.rix w)) := rfl
  have hsub : ∀ v ∈ (a_resume (a_pop a bits sccs) p jp rest).pathN, v ∈ a.pathN := by
    intro v hv
    rw [hpath]; rw [hpath'] at hv
    exact List.mem_cons_of_mem _ hv
  have hpo : ∀ v ∈ a.pathN, v ∈ a.opn := fun v hv => List.mem_append_left _ hv
  have hco : ∀ v ∈ a.comp, v ∈ a.opn := fun v hv => List.mem_append_right _ hv
  have hlt' : ∀ v ∈ (a_resume (a_pop a bits sccs) p jp rest).pathN, a.d v < a.d a.u := by
    intro v hv
    rw [hpath'] at hv
    exact path_d_lt g a hs v (by rw [hanc]; exact hv)
  have hmem : ∀ v, v ∈ (a_resume (a_pop a bits sccs) p jp rest).opn ↔
      v ∈ a.opn ∧ a.d v < a.d a.u := by
    intro v
    rw [hopn', List.mem_append, hri]
    constructor
    · rintro (h1 | ⟨h1, h2⟩)
      · exact ⟨hpo v (hsub v h1), hlt' v h1⟩
      · exact ⟨hco v h1, h2⟩
    · rintro ⟨h1, h2⟩
      unfold astate.opn at h1
      rw [List.mem_append, hpath, List.mem_cons] at h1
      rcases h1 with (h1 | h1) | h1
      · subst h1; omega
      · exact Or.inl h1
      · exact Or.inr ⟨h1, h2⟩
  have hnm : ∀ v, v ∈ (a_resume (a_pop a bits sccs) p jp rest).opn → v ∉ a_members a := by
    intro v hv hc
    have h1 := ((hmi v).mp hc).2
    have h2 := ((hmem v).mp hv).2
    omega
  have hsame : ∀ v, v ∈ (a_resume (a_pop a bits sccs) p jp rest).opn →
      (a_resume (a_pop a bits sccs) p jp rest).rix v = a.rix v := by
    intro v hv
    rw [hrix, if_neg (hnm v hv)]
  have hpp : p ∈ a.pathN := by rw [hpath]; simp
  have hpo' : ∀ v ∈ (a_resume (a_pop a bits sccs) p jp rest).pathN,
      v ∈ (a_resume (a_pop a bits sccs) p jp rest).opn := fun v hv => List.mem_append_left _ hv
  have hco' : ∀ v ∈ (a_resume (a_pop a bits sccs) p jp rest).comp,
      v ∈ (a_resume (a_pop a bits sccs) p jp rest).opn := fun v hv => List.mem_append_right _ hv
  have hmaxkeep : ∀ v, a.rix v = UINT_ALL →
      (a_resume (a_pop a bits sccs) p jp rest).rix v = UINT_ALL := by
    intro v hv
    rw [hrix]
    split
    · rfl
    · exact hv
  have hed : ∀ w x, w ∈ (a_resume (a_pop a bits sccs) p jp rest).opn → edge_done a w x →
      edge_done (a_resume (a_pop a bits sccs) p jp rest) w x := by
    intro w x hw hd
    rcases hd with hd | ⟨h1, h2⟩
    · left; exact hmaxkeep x hd
    · by_cases hxm : x ∈ a_members a
      · left; rw [hrix, if_pos hxm]
      · right
        refine ⟨(hmem x).mpr ⟨h1, ?_⟩, ?_⟩
        · by_contra hc
          exact hxm ((hmi x).mpr ⟨h1, by omega⟩)
        · rw [hsame w hw]; exact h2
  have hchain := he.chain
  have hpj : a.pj = (a.u, a.j) :: (p, jp) :: rest := by simp [astate.pj, hanc]
  rw [hpj, List.chain'_cons] at hchain
  have hsorted := hs.path_sorted
  rw [hpath, List.pairwise_cons] at hsorted
  refine ⟨⟨?_, hbl, ?_, ?_, ?_, ?_, hs.idx_even, ?_, ?_, ?_, ?_, ?_, ?_⟩,
    ⟨?_, ?_, ?_, ?_, ?_⟩, ⟨?_, ?_⟩, hout⟩
  · show (List.foldl _ a.rindex (a_members a)).length = g.nodes
    rw [foldl_set_length]; exact hs.rindex_len
  · have hnd := hs.nodup
    unfold astate.opn at hnd
    rw [hpath, List.cons_append, List.nodup_cons] at hnd
    rw [hopn']
    exact hnd.2.sublist (List.Sublist.append (List.Sublist.refl _) (List.dropWhile_sublist _))
  · intro v hv
    exact hs.lt_nodes v ((hmem v).mp hv).1
  · intro v hv
    by_cases hvm : v ∈ a_members a
    · rw [hrix, if_pos hvm]
      constructor
      · intro hc; exact absurd hvm (hnm v hc)
      · intro hc; exact absurd rfl hc.2
    · rw [hrix, if_neg hvm, hmem, ← hs.opn_iff v hv]
      constructor
      · exact fun hc => hc.1
      · intro hc
        refine ⟨hc, ?_⟩
        by_contra hlt
        exact hvm ((hmi v).mpr ⟨hc, by omega⟩)
  · intro v hv
    rw [hsame v hv]
    exact hs.marker v ((hmem v).mp hv).1
  · have : ((List.range g.nodes).map
        (fun v => if (a_resume (a_pop a bits sccs) p jp rest).rix v = 0 then 1 else 0)).sum =
        ((List.range g.nodes).map (fun v => if a.rix v = 0 then 1 else 0)).sum := by
      apply sum_map_range_congr
      intro i hi
      rw [hrix]
      by_cases him : i ∈ a_members a
      · have hio := members_sub_opn g a hs he hroot i him
        have := ((hs.opn_iff i hi).mp hio).1
        rw [if_pos him, if_neg this, if_neg (by decide)]
      · rw [if_neg him]
    show a.idx + 2 * _ ≤ _
    rw [this]
    exact hs.idx_bound
  · intro x hx y hy hxy
    exact hs.d_inj x ((hmem x).mp hx).1 y ((hmem y).mp hy).1 hxy
  · rw [hpath']; exact hsorted.2
  · rw [hcomp']
    apply List.Pairwise.imp _ (hs.comp_pre.sublist (List.dropWhile_sublist _))
    intro w w' hww q hq
    exact hww q (hsub q hq)
  · intro w hw
    rw [hsame w (hco' w hw)]
    exact hs.comp_odd w ((hri w).mp hw).1
  · obtain ⟨v, hv, hd⟩ := hs.root_two
    refine ⟨v, ?_, hd⟩
    rw [hpath, List.mem_cons] at hv
    rcases hv with rfl | hv
    · have h1 := hsorted.1 p (List.mem_cons_self _ _)
      have h2 := (hs.marker p (hpo p hpp)).1
      omega
    · rw [hpath']; exact hv
  · exact hchain.2
  · intro q hq
    have hq' : q ∈ a.pj := by
      rw [hpj]; exact List.mem_cons_of_mem _ hq
    have hqo : q.1 ∈ (a_resume (a_pop a bits sccs) p jp rest).opn := by
      apply hpo'
      rw [hpath']
      exact List.mem_map_of_mem Prod.fst hq
    obtain ⟨p1, p2⟩ := he.processed q hq'
    exact ⟨p1, fun k hk x hx => hed _ _ hqo (p2 k hk x hx)⟩
  · intro w hw x hx
    exact hed _ _ (hco' w hw) (he.finished w ((hri w).mp hw).1 x hx)
  · intro q hq w hw hqw hown
    rw [hsame q (hpo' q hq), hsame w (hco' w hw)]
    have hwc := (hri w).mp hw
    apply he.lowlink q (hsub q hq) w hwc.1 hqw
    intro q' hq' hq'w
    rw [hpath, List.mem_cons] at hq'
    rcases hq' with rfl | hq'
    · omega
    · exact hown q' (by rw [hpath']; exact hq') hq'w
  · intro x hx hxm y hy
    rw [hrix] at hxm
    by_cases hxmem : x ∈ a_members a
    · rcases members_closure g a hs he hroot hj x hxmem y hy with h1 | h1
      · rw [hrix, if_pos h1]
      · exact hmaxkeep y h1
    · rw [if_neg hxmem] at hxm
      exact hmaxkeep y (he.done_closed x hx hxm y hy)
  · intro w hw
    have hwc := (hri w).mp hw
    obtain ⟨x, hx1, hx2, hx3, hx4⟩ := hr.parent w hwc.1
    exact ⟨x, hx1, (hmem x).mpr ⟨hx2, by omega⟩, hx3, fun q hq hqw => hx4 q (hsub q hq) hqw⟩
  · intro w hw
    have hwo := (hmem w).mp hw
    obtain ⟨x, hx1, hx2, hx3⟩ := hr.low w hwo.1
    have hmw := hs.marker w hwo.1
    have hxd : a.d x < a.d a.u := by omega
    refine ⟨x, (hmem x).mpr ⟨hx1, hxd⟩, ?_, ?_⟩
    · rw [hsame w hw]; exact hx2
    · have := (reachIn_avoid g (fun z => z ∈ a.opn ∧ a.d x ≤ a.d z) (fun z => z ∈ a_members a)
        (by
          intro y z e hy hz
          rcases members_closure g a hs he hroot hj y hy z e.2 with h1 | h1
          · exact h1
          · exact absurd h1 ((hs.opn_iff z (hs.lt_nodes z hz.1)).mp hz.1).2)
        w x hx3 (fun hc => by
          have := ((hmi x).mp hc).2
          omega)).2
      apply Relation.ReflTransGen.mono _ this
      intro y z ⟨e, ⟨⟨s1, s2⟩, s3⟩, ⟨⟨s4, s5⟩, s6⟩⟩
      refine ⟨e, ⟨(hmem y).mpr ⟨s1, ?_⟩, s2⟩, ⟨(hmem z).mpr ⟨s4, ?_⟩, s5⟩⟩
      · by_contra hc
        exact s3 ((hmi y).mpr ⟨s1, by omega⟩)
      · by_contra hc
        exact s6 ((hmi z).mpr ⟨s4, by omega⟩)

/-! ## The closure test and the reported clusters -/

theorem foldl_nested_setbit (g : graph_t) (m : List Nat) (bm : List Nat) :
    m.foldl (fun bm v => (nbrs g v).foldl bitmap_setbit bm) bm =
      (m.flatMap (nbrs g)).foldl bitmap_setbit bm := by
  induction m generalizing bm with
  | nil => rfl
  | cons x xs ih =>
    simp only [List.foldl_cons, List.flatMap_cons, List.foldl_append]
    exact ih _

theorem closed_test (g : graph_t) (hg : graph_wf g) (m : List Nat) (bits : List Nat)
    (hz : ∀ w ∈ bits, w = 0) (hl : bits.length = bitmap_end g.nodes)
    (hm : ∀ v ∈ m, v < g.nodes) :
    (bitmap_empty (m.foldl bitmap_clearbit
      (m.foldl (fun bm v => (nbrs g v).foldl bitmap_setbit bm) bits)) g.nodes = true ↔
      ∀ x ∈ m, ∀ b ∈ nbrs g x, b ∈ m) ∧
    (m.foldl bitmap_clearbit
      (m.foldl (fun bm v => (nbrs g v).foldl bitmap_setbit bm) bits)).length =
        bitmap_end g.nodes := by
  rw [foldl_nested_setbit]
  have hfl : ∀ b ∈ m.flatMap (nbrs g), b < g.nodes := by
    intro b hb
    rw [List.mem_flatMap] at hb
    obtain ⟨x, hx, hbx⟩ := hb
    exact nbrs_lt g hg x (hm x hx) b hbx
  have hl1 : ((m.flatMap (nbrs g)).foldl bitmap_setbit bits).length = bitmap_end g.nodes := by
    rw [length_foldl_setbit]; exact hl
  have hl2 : (m.foldl bitmap_clearbit ((m.flatMap (nbrs g)).foldl bitmap_setbit bits)).length =
      bitmap_end g.nodes := by
    rw [length_foldl_clearbit]; exact hl1
  have hok : bm_ok (m.foldl bitmap_clearbit ((m.flatMap (nbrs g)).foldl bitmap_setbit bits)) :=
    bm_ok_foldl_clearbit _ _ (bm_ok_foldl_setbit _ _ (bm_ok_of_zero _ hz))
  refine ⟨?_, hl2⟩
  rw [bitmap_empty_iff_zero _ _ hl2, bits_zero_iff _ hok]
  have hb0 : ∀ k, bm_bit bits k = false := (bits_zero_iff bits (bm_ok_of_zero _ hz)).mp hz
  constructor
  · intro h x hx b hb
    have := h b
    rw [bit_foldl_clearbit _ _ g.nodes hl1 hm, bit_foldl_setbit _ _ g.nodes hl hfl, hb0] at this
    have hbf : b ∈ m.flatMap (nbrs g) := List.mem_flatMap.mpr ⟨x, hx, hb⟩
    simp only [hbf, decide_True, Bool.or_false, Bool.and_true, Bool.not_eq_false',
      decide_eq_true_eq] at this
    exact this
  · intro h k
    rw [bit_foldl_clearbit _ _ g.nodes hl1 hm, bit_foldl_setbit _ _ g.nodes hl hfl, hb0]
    by_cases hk : k ∈ m
    · simp [hk]
    · have : k ∉ m.flatMap (nbrs g) := by
        intro hc
        rw [List.mem_flatMap] at hc
        obtain ⟨x, hx, hkx⟩ := hc
        exact hk (h x hx k hkx)
      simp [this]

theorem two_le_length (m : List Nat) (v x : Nat) (hv : v ∈ m) (hx : x ∈ m) (hne : x ≠ v) :
    2 ≤ m.length := by
  have hsub : [x, v] ⊆ m := by
    intro y hy
    simp only [List.mem_cons, List.mem_singleton, List.not_mem_nil, or_false] at hy
    rcases hy with rfl | rfl <;> assumption
  have h2 : [x, v].Nodup := by simp [hne]
  simpa using (List.subperm_of_subset h2 hsub).length_le

theorem want_crit (g : graph_t) (ac : Bool) (m : List Nat)
    (hconn : ∀ x ∈ m, ∀ y ∈ m, ReachIn g (fun z => z ∈ m) x y)
    (hmaxl : ∀ x ∈ m, ∀ y, Reach g x y → Reach g y x → y ∈ m)
    (hlt : ∀ v ∈ m, v < g.nodes)
    (v : Nat) (hv : v ∈ m) (hw : scc_want g ac v) : scc_crit g ac m := by
  unfold scc_want at hw
  unfold scc_crit
  cases ac with
  | true =>
    simp only [if_true] at hw ⊢
    obtain ⟨x, hne, h1, h2⟩ := hw
    exact two_le_length m v x hv (hmaxl v hv x h1 h2) hne
  | false =>
    simp only [Bool.false_eq_true, if_false] at hw ⊢
    intro x hx b hb
    have hvx := reachIn_reach g _ v x (hconn v hv x hx)
    have hxv := reachIn_reach g _ x v (hconn x hx v hv)
    have hbv := hw x hvx hxv b ⟨hlt x hx, hb⟩
    exact hmaxl v hv b (Relation.ReflTransGen.tail hvx ⟨hlt x hx, hb⟩) hbv

theorem out_extend (g : graph_t) (ac : Bool) (ri ri' bits bits' : List Nat)
    (sccs : List (List Int)) (m : List Nat) (h : AOut g ac ri bits sccs)
    (hri : ∀ v, ri'.getD v 0 = if v ∈ m then UINT_ALL else ri.getD v 0)
    (hopen : ∀ v ∈ m, ri.getD v 0 ≠ UINT_ALL)
    (hgood : good_scc g ac (m.map Int.ofNat ++ [-1]) m) (hz : ac = false → ∀ w ∈ bits', w = 0) :
    AOut g ac ri' bits' (sccs ++ [m.map Int.ofNat ++ [-1]]) := by
  have hkeep : ∀ v, ri.getD v 0 = UINT_ALL → ri'.getD v 0 = UINT_ALL := by
    intro v hv
    rw [hri]
    split
    · rfl
    · exact hv
  refine ⟨?_, ?_, ?_, hz⟩
  · intro c hc
    rw [List.mem_append, List.mem_singleton] at hc
    rcases hc with hc | rfl
    · obtain ⟨mc, h1, h2⟩ := h.good c hc
      exact ⟨mc, h1, fun v hv => hkeep v (h2 v hv)⟩
    · exact ⟨m, hgood, fun v hv => by rw [hri, if_pos hv]⟩
  · intro v hv hmax hw
    by_cases hvm : v ∈ m
    · exact ⟨_, List.mem_append_right _ (List.mem_singleton_self _), by
        rw [scc_members_enc]; exact hvm⟩
    · rw [hri, if_neg hvm] at hmax
      obtain ⟨c, hc, hvc⟩ := h.complete v hv hmax hw
      exact ⟨c, List.mem_append_left _ hc, hvc⟩
  · rw [List.pairwise_append]
    refine ⟨h.disjoint, List.pairwise_singleton _ _, ?_⟩
    intro c hc c' hc' v hvc
    rw [List.mem_singleton] at hc'
    subst hc'
    rw [scc_members_enc]
    obtain ⟨mc, h1, h2⟩ := h.good c hc
    rw [h1.enc, scc_members_enc] at hvc
    intro hvm
    exact hopen v hvm (h2 v hvc)

theorem out_skip (g : graph_t) (ac : Bool) (ri ri' bits bits' : List Nat)
    (sccs : List (List Int)) (m : List Nat) (h : AOut g ac ri bits sccs)
    (hri : ∀ v, ri'.getD v 0 = if v ∈ m then UINT_ALL else ri.getD v 0)
    (hnw : ∀ v ∈ m, ¬ scc_want g ac v) (hz : ac = false → ∀ w ∈ bits', w = 0) :
    AOut g ac ri' bits' sccs := by
  have hkeep : ∀ v, ri.getD v 0 = UINT_ALL → ri'.getD v 0 = UINT_ALL := by
    intro v hv
    rw [hri]
    split
    · rfl
    · exact hv
  refine ⟨?_, ?_, h.disjoint, hz⟩
  · intro c hc
    obtain ⟨mc, h1, h2⟩ := h.good c hc
    exact ⟨mc, h1, fun v hv => hkeep v (h2 v hv)⟩
  · intro v hv hmax hw
    by_cases hvm : v ∈ m
    · exact absurd hw (hnw v hvm)
    · rw [hri, if_neg hvm] at hmax
      exact h.complete v hv hmax hw

theorem afinish_root (g : graph_t) (ac : Bool) (a : astate) (hroot : a.rix a.u &&& 1 = 0) :
    afinish g ac a = a_pop a (afinish g ac a).sccredges (afinish g ac a).sccs := by
  unfold afinish a_pop a_members
  simp only [hroot, if_true]
  split_ifs <;> rfl

theorem afinish_nonroot (g : graph_t) (ac : Bool) (a : astate) (hodd : ¬ a.rix a.u &&& 1 = 0) :
    afinish g ac a = { a with comp := a.u :: a.comp } := by
  unfold afinish
  simp only [hodd, if_false]

theorem pop_out (g : graph_t) (hg : graph_wf g) (ac : Bool) (a : astate) (h : AInv g ac a)
    (hroot : a.rix a.u % 2 = 0) (hj : a.j = (nbrs g a.u).length) :
    AOut g ac (afinish g ac a).rindex (afinish g ac a).sccredges (afinish g ac a).sccs ∧
    (afinish g ac a).sccredges.length = bitmap_end g.nodes := by
  obtain ⟨hs, he, hr, ho⟩ := h
  have hroot' : a.rix a.u &&& 1 = 0 := by rw [Nat.and_one_is_mod]; exact hroot
  have hconn := members_conn g a hs he hr hroot
  have hmaxl := members_maxl g a hs he hroot hj
  have hmo := members_sub_opn g a hs he hroot
  have hmlt : ∀ v ∈ a_members a, v < g.nodes := fun v hv => hs.lt_nodes v (hmo v hv)
  have hopen : ∀ v ∈ a_members a, a.rindex.getD v 0 ≠ UINT_ALL :=
    fun v hv => ((hs.opn_iff v (hmlt v hv)).mp (hmo v hv)).2
  have hri : ∀ v, ((a_members a).foldl (fun ri v => ri.set v UINT_ALL) a.rindex).getD v 0 =
      if v ∈ a_members a then UINT_ALL else a.rindex.getD v 0 := by
    intro v
    exact foldl_set_getD _ _ v (fun x hx => by rw [hs.rindex_len]; exact hmlt x hx)
  have hgood : scc_crit g ac (a_members a) →
      good_scc g ac ((a_members a).map Int.ofNat ++ [-1]) (a_members a) := fun hc =>
    ⟨rfl, by unfold a_members; simp, members_nodup g a hs, hmlt, hconn, hmaxl, hc⟩
  have hnw : ¬ scc_crit g ac (a_members a) → ∀ v ∈ a_members a, ¬ scc_want g ac v :=
    fun hc v hv hw => hc (want_crit g ac _ hconn hmaxl hmlt v hv hw)
  unfold afinish
  simp only [hroot', if_true]
  cases ac with
  | false =>
    simp only [Bool.not_false, if_true]
    obtain ⟨ht, hlen⟩ := closed_test g hg (a_members a) a.sccredges (ho.bits_zero rfl)
      hs.bits_len hmlt
    unfold a_members at ht hlen hri hgood hnw hopen
    by_cases hemp : bitmap_empty (List.foldl bitmap_clearbit
        (List.foldl (fun bm v => List.foldl bitmap_setbit bm (nbrs g v)) a.sccredges
          (a.u :: List.takeWhile (fun w => decide (a.rix a.u ≤ a.rix w)) a.comp))
        (a.u :: List.takeWhile (fun w => decide (a.rix a.u ≤ a.rix w)) a.comp)) g.nodes = true
    · simp only [hemp, if_true]
      refine ⟨?_, hlen⟩
      apply out_extend g false a.rindex _ a.sccredges _ a.sccs _ ho hri hopen
      · exact hgood (by unfold scc_crit; simpa using ht.mp hemp)
      · intro _
        exact (bitmap_empty_iff_zero _ _ hlen).mp hemp
    · simp only [hemp, if_false, Bool.false_eq_true]
      refine ⟨?_, by rw [length_bitmap_clear]; exact hlen⟩
      apply out_skip g false a.rindex _ a.sccredges _ a.sccs _ ho hri
      · apply hnw
        unfold scc_crit
        simp only [Bool.false_eq_true, if_false]
        exact fun hc => hemp (ht.mpr hc)
      · intro _
        exact bitmap_clear_zero _ _ hlen
  | true =>
    simp only [Bool.not_true, Bool.false_eq_true, if_false]
    have hlen : ((a_members a).foldl (fun bm v => (nbrs g v).foldl bitmap_setbit bm)
        a.sccredges).length = bitmap_end g.nodes := by
      rw [foldl_nested_setbit, length_foldl_setbit]; exact hs.bits_len
    unfold a_members at hlen hri hgood hnw hopen
    split
    · rename_i hgt
      refine ⟨?_, hlen⟩
      apply out_extend g true a.rindex _ a.sccredges _ a.sccs _ ho hri hopen
      · apply hgood
        unfold scc_crit
        simp only [if_true]
        exact hgt
      · intro hc; exact absurd hc (by decide)
    · rename_i hgt
      refine ⟨?_, hlen⟩
      apply out_skip g true a.rindex _ a.sccredges _ a.sccs _ ho hri
      · apply hnw
        unfold scc_crit
        simp only [if_true]
        exact hgt
      · intro hc; exact absurd hc (by decide)

/-! ## One iteration of the `while(1)` loop -/

theorem cur_le_deg (g : graph_t) (a : astate) (he : AEdge g a) :
    a.j ≤ (nbrs g a.u).length :=
  (he.processed (a.u, a.j) (List.mem_cons_self _ _)).1

theorem cur_lt_nodes (g : graph_t) (a : astate) (hs : AShape g a) : a.u < g.nodes :=
  hs.lt_nodes a.u (List.mem_append_left _ (List.mem_cons_self _ _))

theorem root_of_single (g : graph_t) (a : astate) (hs : AShape g a) (hanc : a.anc = []) :
    a.d a.u = 2 ∧ a.rix a.u = 2 := by
  obtain ⟨v, hv, hd⟩ := hs.root_two
  unfold astate.pathN at hv
  rw [hanc] at hv
  simp only [List.map_nil, List.mem_singleton] at hv
  rw [hv] at hd
  have := hs.marker a.u (List.mem_append_left _ (List.mem_cons_self _ _))
  omega

theorem astep_cases (g : graph_t) (hg : graph_wf g) (ac : Bool) (a : astate)
    (h : AInv g ac a) : StepCase g ac a := by
  obtain ⟨hs, he, hr, ho⟩ := h
  have hu := cur_lt_nodes g a hs
  have hjl := cur_le_deg g a he
  by_cases hv : 0 ≤ g.idx.getD (graph_edges_from g a.u + a.j) (-1)
  · have hlt := read_nonneg g hg a.u a.j hu hjl hv
    obtain ⟨b, hb1, hb2⟩ := read_lt g a.u a.j hlt
    have hbn : b < g.nodes := nbrs_lt g hg a.u hu b (mem_of_getElem?_some _ _ _ hb1)
    have hbt : (g.idx.getD (graph_edges_from g a.u + a.j) (-1)).toNat = b := by
      rw [hb2]; rfl
    by_cases h0 : a.rix b = 0
    · apply StepCase.tree b hb1 hbn h0
      have hI := idx_lt_of_unvisited g a b hs hbn h0
      have hN := hg.1
      have hmod : (a.idx + 2) % 2 ^ 32 = a.idx + 2 := Nat.mod_eq_of_lt (by omega)
      unfold astep
      simp only [hv, if_true, hbt, h0, hmod]
      rfl
    · by_cases hlt2 : a.rix b < a.rix a.u
      · apply StepCase.back b hb1 hbn h0 hlt2
        unfold astep
        simp only [hv, if_true, hbt, h0, if_false, hlt2, lor_one]
        rfl
      · apply StepCase.skip b hb1 hbn h0 hlt2
        unfold astep
        simp only [hv, if_true, hbt, h0, if_false, hlt2]
        rfl
  · have hj := read_neg g a.u a.j hjl hv
    by_cases hroot : a.rix a.u % 2 = 0
    · have hroot' : a.rix a.u &&& 1 = 0 := by rw [Nat.and_one_is_mod]; exact hroot
      have hfin := afinish_root g ac a hroot'
      cases hanc : a.anc with
      | nil =>
        apply StepCase.brk hj hroot hanc
        unfold astep
        simp only [hv, if_false, hanc]
      | cons q rest =>
        obtain ⟨p, jp⟩ := q
        apply StepCase.pop p jp rest hj hroot hanc
        have hum : (afinish g ac a).rix a.u = UINT_ALL := by
          rw [hfin, rix_pop g a _ _ hs he hroot, if_pos]
          unfold a_members
          exact List.mem_cons_self _ _
        have hpm : (afinish g ac a).rix p ≤ UINT_ALL := by
          rw [hfin, rix_pop g a _ _ hs he hroot]
          split
          · exact Nat.le_refl _
          · have hpo : p ∈ a.opn := by
              apply List.mem_append_left
              unfold astate.pathN
              rw [hanc]
              simp
            have h1 := hs.marker p hpo
            have h2 := idx_le_two_nodes g a hs
            have h3 := hg.1
            unfold UINT_ALL
            omega
        have hnlt : ¬ (afinish g ac a).rix a.u < (afinish g ac a).rix p := by omega
        unfold astep
        simp only [hv, if_false, hanc, hnlt]
        rw [hfin]
        rfl
    · have hodd : a.rix a.u % 2 = 1 := by omega
      have hroot' : ¬ a.rix a.u &&& 1 = 0 := by rw [Nat.and_one_is_mod]; exact hroot
      have hfin := afinish_nonroot g ac a hroot'
      cases hanc : a.anc with
      | nil =>
        have := root_of_single g a hs hanc
        omega
      | cons q rest =>
        obtain ⟨p, jp⟩ := q
        by_cases hlt2 : a.rix a.u < a.rix p
        · apply StepCase.ret_low p jp rest hj hodd hanc hlt2
          have hlt3 : a.rindex.getD a.u 0 < a.rindex.getD p 0 := hlt2
          unfold astep
          simp only [hv, if_false, hanc, hfin, astate.rix, hlt3, if_true, lor_one]
          rfl
        · apply StepCase.ret p jp rest hj hodd hanc hlt2
          have hlt3 : ¬ a.rindex.getD a.u 0 < a.rindex.getD p 0 := hlt2
          unfold astep
          simp only [hv, if_false, hanc, hfin, astate.rix, hlt3]
          rfl

theorem usum_congr (g : graph_t) (a a' : astate) (h : ∀ v, a'.rix v = 0 ↔ a.rix v = 0) :
    ((List.range g.nodes).map
      (fun v => if a'.rix v = 0 then (nbrs g v).length + 1 else 0)).sum =
    ((List.range g.nodes).map
      (fun v => if a.rix v = 0 then (nbrs g v).length + 1 else 0)).sum := by
  apply sum_map_range_congr
  intro i _
  by_cases hi : a.rix i = 0
  · rw [if_pos hi, if_pos ((h i).mpr hi)]
  · rw [if_neg hi, if_neg (fun hc => hi ((h i).mp hc))]

theorem zero_lower (g : graph_t) (a : astate) (q y : Nat) (hs : AShape g a) (hq : q ∈ a.opn)
    (v : Nat) : (a_lower a q y).rix v = 0 ↔ a.rix v = 0 := by
  by_cases hv : v = q
  · subst hv
    rw [rix_lower_self g a v y hs (hs.lt_nodes v hq)]
    have := (hs.marker v hq).2.2.2.1
    omega
  · rw [rix_lower_ne a q y v hv]

theorem zero_pop (g : graph_t) (a : astate) (bits : List Nat) (sccs : List (List Int))
    (hs : AShape g a) (he : AEdge g a) (hroot : a.rix a.u % 2 = 0) (v : Nat) :
    (a_pop a bits sccs).rix v = 0 ↔ a.rix v = 0 := by
  rw [rix_pop g a bits sccs hs he hroot]
  split
  · rename_i hm
    have := (hs.marker v (members_sub_opn g a hs he hroot v hm)).2.2.2.1
    unfold UINT_ALL
    omega
  · exact Iff.rfl

theorem astep_inv (g : graph_t) (hg : graph_wf g) (ac : Bool) (a : astate) (h : AInv g ac a)
    (hf : (astep g ac a).2 = false) : AInv g ac (astep g ac a).1 := by
  have hs := h.shape
  have he := h.edge
  have huo : a.u ∈ a.opn := List.mem_append_left _ (List.mem_cons_self _ _)
  have hun := cur_lt_nodes g a hs
  have hmu := hs.marker a.u huo
  have hidx := idx_le_two_nodes g a hs
  have hN := hg.1
  cases astep_cases g hg ac a h with
  | tree b hbj hb h0 heq =>
    rw [heq]
    exact tree_inv g ac a b h hg hb h0 hbj
  | back b hbj hb h0 hlt heq =>
    rw [heq]
    have hbo : b ∈ a.opn := (hs.opn_iff b hb).mpr ⟨h0, by unfold UINT_ALL; omega⟩
    have hmb := hs.marker b hbo
    have h1 := lower_inv g ac a a.u b hg h (List.mem_cons_self _ _) hbo
      ⟨hun, mem_of_getElem?_some _ _ _ hbj⟩ hlt
    apply advance_inv g ac _ b h1 hbj
    right
    refine ⟨hbo, ?_⟩
    show (a_lower a a.u b).rix a.u ≤ a.d b + 1
    rw [rix_lower_self g a a.u b hs hun]
    omega
  | skip b hbj hb h0 hlt heq =>
    rw [heq]
    apply advance_inv g ac a b h hbj
    by_cases hmax : a.rix b = UINT_ALL
    · exact Or.inl hmax
    · right
      have hbo : b ∈ a.opn := (hs.opn_iff b hb).mpr ⟨h0, hmax⟩
      have hmb := hs.marker b hbo
      exact ⟨hbo, by omega⟩
  | ret_low p jp rest hj hodd hanc hlt heq =>
    rw [heq]
    have hpp : p ∈ a.pathN := by unfold astate.pathN; rw [hanc]; simp
    have hchain := he.chain
    have hpj : a.pj = (a.u, a.j) :: (p, jp) :: rest := by simp [astate.pj, hanc]
    rw [hpj, List.chain'_cons] at hchain
    have hpn : p < g.nodes := hs.lt_nodes p (List.mem_append_left _ hpp)
    have hpu : p ≠ a.u := by
      intro hc
      rw [hc] at hlt
      omega
    have h1 := lower_inv g ac a p a.u hg h hpp huo
      ⟨hpn, mem_of_getElem?_some _ _ _ hchain.1.2⟩ hlt
    apply retreat_inv g ac _ p jp rest h1 hanc
    · show (a_lower a p a.u).rix a.u % 2 = 1
      rw [rix_lower_ne a p a.u a.u (Ne.symm hpu)]
      exact hodd
    · exact hj
    · show (a_lower a p a.u).rix p / 2 ≤ (a_lower a p a.u).rix a.u / 2
      rw [rix_lower_ne a p a.u a.u (Ne.symm hpu), rix_lower_self g a p a.u hs hpn]
      omega
  | ret p jp rest hj hodd hanc hlt heq =>
    rw [heq]
    apply retreat_inv g ac a p jp rest h hanc hodd hj
    have : a.rix p ≤ a.rix a.u := by omega
    exact Nat.div_le_div_right this
  | pop p jp rest hj hroot hanc heq =>
    rw [heq]
    have hroot' : a.rix a.u &&& 1 = 0 := by rw [Nat.and_one_is_mod]; exact hroot
    obtain ⟨o1, o2⟩ := pop_out g hg ac a h hroot hj
    apply pop_resume_inv g ac a p jp rest _ _ h hroot hj hanc o2
    have hfin := afinish_root g ac a hroot'
    have : (a_pop a (afinish g ac a).sccredges (afinish g ac a).sccs).rindex =
        (afinish g ac a).rindex := by
      conv => rhs; rw [hfin]
    rw [this]
    exact o1
  | brk hj hroot hanc heq =>
    rw [heq] at hf
    simp at hf

theorem astep_post (g : graph_t) (hg : graph_wf g) (ac : Bool) (a : astate) (h : AInv g ac a)
    (hf : (astep g ac a).2 = true) : APost g ac (astep g ac a).1 := by
  have hs := h.shape
  have he := h.edge
  cases astep_cases g hg ac a h with
  | tree b hbj hb h0 heq => rw [heq] at hf; simp at hf
  | back b hbj hb h0 hlt heq => rw [heq] at hf; simp at hf
  | skip b hbj hb h0 hlt heq => rw [heq] at hf; simp at hf
  | ret_low p jp rest hj hodd hanc hlt heq => rw [heq] at hf; simp at hf
  | ret p jp rest hj hodd hanc hlt heq => rw [heq] at hf; simp at hf
  | pop p jp rest hj hroot hanc heq => rw [heq] at hf; simp at hf
  | brk hj hroot hanc heq =>
    rw [heq]
    have hroot' : a.rix a.u &&& 1 = 0 := by rw [Nat.and_one_is_mod]; exact hroot
    obtain ⟨o1, o2⟩ := pop_out g hg ac a h hroot hj
    have hfin := afinish_root g ac a hroot'
    have hrix : ∀ v, (afinish g ac a).rix v = if v ∈ a_members a then UINT_ALL else a.rix v := by
      intro v
      rw [hfin]
      exact rix_pop g a _ _ hs he hroot v
    have hd2 := root_of_single g a hs hanc
    have hmi := members_iff g a hs he hroot
    have hall : ∀ v ∈ a.opn, v ∈ a_members a := by
      intro v hv
      rw [hmi]
      have := (hs.marker v hv).1
      exact ⟨hv, by omega⟩
    refine ⟨?_, ?_, o2, ?_, ?_, o1⟩
    · rw [hfin]
      show a.comp.dropWhile _ = []
      rw [List.eq_nil_iff_forall_not_mem]
      intro x hx
      have := (rest_iff g a hs he hroot x).mp hx
      have := (hs.marker x (List.mem_append_right _ this.1)).1
      omega
    · rw [hfin]
      show (List.foldl _ a.rindex (a_members a)).length = g.nodes
      rw [foldl_set_length]; exact hs.rindex_len
    · intro v hv
      rw [hrix]
      by_cases hvm : v ∈ a_members a
      · right; rw [if_pos hvm]
      · rw [if_neg hvm]
        have hvo : v ∉ a.opn := fun hc => hvm (hall v hc)
        have := hs.opn_iff v hv
        by_cases h0 : a.rix v = 0
        · exact Or.inl h0
        · right
          by_contra hc
          exact hvo (this.mpr ⟨h0, hc⟩)
    · intro x hx hxm y hy
      rw [hrix] at hxm ⊢
      by_cases hxmem : x ∈ a_members a
      · rcases members_closure g a hs he hroot hj x hxmem y hy with h1 | h1
        · rw [if_pos h1]
        · split
          · rfl
          · exact h1
      · rw [if_neg hxmem] at hxm
        have := he.done_closed x hx hxm y hy
        split
        · rfl
        · exact this

theorem astep_nonzero (g : graph_t) (hg : graph_wf g) (ac : Bool) (a : astate)
    (h : AInv g ac a) (v : Nat) (hv : a.rix v ≠ 0) : (astep g ac a).1.rix v ≠ 0 := by
  have hs := h.shape
  have he := h.edge
  have huo : a.u ∈ a.opn := List.mem_append_left _ (List.mem_cons_self _ _)
  cases astep_cases g hg ac a h with
  | tree b hbj hb h0 heq =>
    rw [heq]
    have hvb : v ≠ b := fun hc => hv (hc ▸ h0)
    show (a_tree a b).rix v ≠ 0
    rw [rix_tree_ne a b v hvb]; exact hv
  | back b hbj hb h0 hlt heq =>
    rw [heq]
    exact fun hc => hv ((zero_lower g a a.u b hs huo v).mp hc)
  | skip b hbj hb h0 hlt heq => rw [heq]; exact hv
  | ret_low p jp rest hj hodd hanc hlt heq =>
    rw [heq]
    have hpp : p ∈ a.opn := by
      apply List.mem_append_left; unfold astate.pathN; rw [hanc]; simp
    exact fun hc => hv ((zero_lower g a p a.u hs hpp v).mp hc)
  | ret p jp rest hj hodd hanc hlt heq => rw [heq]; exact hv
  | pop p jp rest hj hroot hanc heq =>
    rw [heq]
    exact fun hc => hv ((zero_pop g a (afinish g ac a).sccredges (afinish g ac a).sccs
      hs he hroot v).mp hc)
  | brk hj hroot hanc heq =>
    rw [heq]
    have hroot' : a.rix a.u &&& 1 = 0 := by rw [Nat.and_one_is_mod]; exact hroot
    rw [afinish_root g ac a hroot']
    exact fun hc => hv ((zero_pop g a _ _ hs he hroot v).mp hc)

theorem pj_sum_cons (g : graph_t) (u j : Nat) (anc : List (Nat × Nat)) :
    (((u, j) :: anc).map (fun q => (nbrs g q.1).length + 1 - q.2)).sum =
      ((nbrs g u).length + 1 - j) +
        (anc.map (fun q => (nbrs g q.1).length + 1 - q.2)).sum := rfl

theorem astep_measure (g : graph_t) (hg : graph_wf g) (ac : Bool) (a : astate)
    (h : AInv g ac a) (hf : (astep g ac a).2 = false) :
    ameasure g (astep g ac a).1 < ameasure g a := by
  have hs := h.shape
  have he := h.edge
  have huo : a.u ∈ a.opn := List.mem_append_left _ (List.mem_cons_self _ _)
  have hjl := cur_le_deg g a he
  have hcur : (a.pj.map (fun q => (nbrs g q.1).length + 1 - q.2)).sum =
      ((nbrs g a.u).length + 1 - a.j) +
        (a.anc.map (fun q => (nbrs g q.1).length + 1 - q.2)).sum := pj_sum_cons g _ _ _
  unfold ameasure
  rw [hcur]
  cases astep_cases g hg ac a h with
  | tree b hbj hb h0 heq =>
    rw [heq]
    dsimp only
    have hlt := getElem?_lt_length _ _ _ hbj
    have h1 := sum_map_range_update
      (fun v => if a.rix v = 0 then (nbrs g v).length + 1 else 0)
      (fun v => if (a_tree a b).rix v = 0 then (nbrs g v).length + 1 else 0) g.nodes b hb (by
        intro i _ hne
        simp only [rix_tree_ne a b i hne])
    simp only [h0, if_true, rix_tree_self g a b hs hb] at h1
    simp only [Nat.add_eq_zero, OfNat.ofNat_ne_zero, and_false, if_false] at h1
    have h2 : ((a_tree a b).pj.map (fun q => (nbrs g q.1).length + 1 - q.2)).sum =
        ((nbrs g b).length + 1 - 0) + (((nbrs g a.u).length + 1 - (a.j + 1)) +
          (a.anc.map (fun q => (nbrs g q.1).length + 1 - q.2)).sum) := rfl
    rw [h2]
    omega
  | back b hbj hb h0 hlt heq =>
    rw [heq]
    have hlt := getElem?_lt_length _ _ _ hbj
    have h1 := usum_congr g a (a_advance (a_lower a a.u b)) (zero_lower g a a.u b hs huo)
    rw [h1]
    have h2 : ((a_advance (a_lower a a.u b)).pj.map
        (fun q => (nbrs g q.1).length + 1 - q.2)).sum =
        (((nbrs g a.u).length + 1 - (a.j + 1)) +
          (a.anc.map (fun q => (nbrs g q.1).length + 1 - q.2)).sum) := rfl
    rw [h2]
    omega
  | skip b hbj hb h0 hlt heq =>
    rw [heq]
    have hlt := getElem?_lt_length _ _ _ hbj
    have h1 := usum_congr g a (a_advance a) (fun _ => Iff.rfl)
    rw [h1]
    have h2 : ((a_advance a).pj.map (fun q => (nbrs g q.1).length + 1 - q.2)).sum =
        (((nbrs g a.u).length + 1 - (a.j + 1)) +
          (a.anc.map (fun q => (nbrs g q.1).length + 1 - q.2)).sum) := rfl
    rw [h2]
    omega
  | ret_low p jp rest hj hodd hanc hlt heq =>
    rw [heq]
    have hpp : p ∈ a.opn := by
      apply List.mem_append_left; unfold astate.pathN; rw [hanc]; simp
    have h1 := usum_congr g a (a_retreat (a_lower a p a.u) p jp rest)
      (zero_lower g a p a.u hs hpp)
    rw [h1]
    have h2 : ((a_retreat (a_lower a p a.u) p jp rest).pj.map
        (fun q => (nbrs g q.1).length + 1 - q.2)).sum =
        (((p, jp) :: rest).map (fun q => (nbrs g q.1).length + 1 - q.2)).sum := rfl
    rw [h2, hanc]
    omega
  | ret p jp rest hj hodd hanc hlt heq =>
    rw [heq]
    have h1 := usum_congr g a (a_retreat a p jp rest) (fun _ => Iff.rfl)
    rw [h1]
    have h2 : ((a_retreat a p jp rest).pj.map
        (fun q => (nbrs g q.1).length + 1 - q.2)).sum =
        (((p, jp) :: rest).map (fun q => (nbrs g q.1).length + 1 - q.2)).sum := rfl
    rw [h2, hanc]
    omega
  | pop p jp rest hj hroot hanc heq =>
    rw [heq]
    have h1 := usum_congr g a (a_resume (a_pop a (afinish g ac a).sccredges
      (afinish g ac a).sccs) p jp rest) (zero_pop g a (afinish g ac a).sccredges
      (afinish g ac a).sccs hs he hroot)
    rw [h1]
    have h2 : ((a_resume (a_pop a (afinish g ac a).sccredges
        (afinish g ac a).sccs) p jp rest).pj.map
        (fun q => (nbrs g q.1).length + 1 - q.2)).sum =
        (((p, jp) :: rest).map (fun q => (nbrs g q.1).length + 1 - q.2)).sum := rfl
    rw [h2, hanc]
    omega
  | brk hj hroot hanc heq =>
    rw [heq] at hf
    simp at hf

/-! ## The loops of `tarjan` -/

theorem ameasure_pos (g : graph_t) (a : astate) (he : AEdge g a) : 1 ≤ ameasure g a := by
  have hjl := cur_le_deg g a he
  unfold ameasure
  rw [show a.pj = (a.u, a.j) :: a.anc from rfl, pj_sum_cons]
  omega

theorem while_spec (g : graph_t) (hg : graph_wf g) (ac : Bool) (fuel : Nat) :
    ∀ (s : tarjan_state) (a : astate), Sim g s a → AInv g ac a → ameasure g a ≤ fuel →
      ∃ s' a', tarjan_while g ac fuel s = some s' ∧ SimEnd g s' a' ∧ APost g ac a' ∧
        ∀ v, a.rix v ≠ 0 → a'.rix v ≠ 0 := by
  induction fuel with
  | zero =>
    intro s a _ hinv hm
    have := ameasure_pos g a hinv.edge
    omega
  | succ fuel ih =>
    intro s a hsim hinv hm
    obtain ⟨h1, h2, h3⟩ := step_sim g hg ac s a hsim hinv.shape
    unfold tarjan_while
    cases hb : (astep g ac a).2 with
    | true =>
      rw [hb] at h1
      have hsplit : tarjan_step g ac s = ((tarjan_step g ac s).1, true) := by
        rw [← h1]
      rw [hsplit]
      exact ⟨_, _, rfl, h3 hb, astep_post g hg ac a hinv hb, astep_nonzero g hg ac a hinv⟩
    | false =>
      rw [hb] at h1
      have hsplit : tarjan_step g ac s = ((tarjan_step g ac s).1, false) := by
        rw [← h1]
      rw [hsplit]
      have hlt := astep_measure g hg ac a hinv hb
      obtain ⟨s', a', e1, e2, e3, e4⟩ := ih _ _ (h2 hb) (astep_inv g hg ac a hinv hb) (by omega)
      exact ⟨s', a', e1, e2, e3, fun v hv => e4 v (astep_nonzero g hg ac a hinv v hv)⟩

theorem sum_map_range_le (f : Nat → Nat) (n B : Nat) (h : ∀ i, i < n → f i ≤ B) :
    ((List.range n).map f).sum ≤ n * B := by
  induction n with
  | zero => simp
  | succ n ih =>
    rw [List.range_succ, List.map_append, List.sum_append]
    simp only [List.map_cons, List.map_nil, List.sum_cons, List.sum_nil, Nat.add_zero]
    have h1 := ih (fun i hi => h i (by omega))
    have h2 := h n (by omega)
    rw [Nat.succ_mul]
    omega

/-- The list view of the state at the start of the `while(1)` loop for root `i`. -/
theorem root_start (g : graph_t) (hg : graph_wf g) (ac : Bool) (i : Nat) (s : tarjan_state)
    (hb : BInv g ac i s) (hi : i < g.nodes) (h0 : s.rindex.getD i 0 = 0) :
    ∃ a, Sim g { s with u := i, j := 0, idx := 2, rindex := s.rindex.set i 2 } a ∧
      AInv g ac a ∧ ameasure g a ≤ tarjan_fuel g ∧
      ∀ v, s.rindex.getD v 0 ≠ 0 → a.rix v ≠ 0 := by
  generalize ha : a_start s i = a
  subst ha
  have hself : (a_start s i).rix i = 2 := getD_set_eq _ _ _ _ (by rw [hb.rindex_len]; exact hi)
  have hne : ∀ v, v ≠ i → (a_start s i).rix v = s.rindex.getD v 0 :=
    fun v hv => getD_set_ne _ _ _ _ _ (Ne.symm hv)
  have hopn : (a_start s i).opn = [i] := rfl
  have hmax : ∀ v, (a_start s i).rix v = UINT_ALL ↔ s.rindex.getD v 0 = UINT_ALL := by
    intro v
    by_cases hv : v = i
    · subst hv; rw [hself, h0]; unfold UINT_ALL; omega
    · rw [hne v hv]
  have hcount := sum_map_range_update (fun v => if s.rindex.getD v 0 = 0 then 1 else 0)
    (fun v => if (a_start s i).rix v = 0 then 1 else 0) g.nodes i hi (by
      intro k _ hk
      simp only [hne k hk])
  simp only [h0, if_true, hself] at hcount
  have hcount2 := sum_map_range_le (fun v => if s.rindex.getD v 0 = 0 then 1 else 0) g.nodes 1
    (by intro k _; simp only; split <;> omega)
  have hmeas := sum_map_range_update
    (fun v => if s.rindex.getD v 0 = 0 then (nbrs g v).length + 1 else 0)
    (fun v => if (a_start s i).rix v = 0 then (nbrs g v).length + 1 else 0) g.nodes i hi (by
      intro k _ hk
      simp only [hne k hk])
  simp only [h0, if_true, hself] at hmeas
  have hmeas2 := sum_map_range_le
    (fun v => if s.rindex.getD v 0 = 0 then (nbrs g v).length + 1 else 0) g.nodes
    (g.idx.length + 1) (by
      intro k hk
      have := (hg.2.2 k hk).2.1
      rw [← nbrs_length] at this
      simp only
      split <;> omega)
  refine ⟨a_start s i, ?_, ⟨?_, ?_, ?_, ?_⟩, ?_, ?_⟩
  · refine ⟨rfl, rfl, ?_, ?_, rfl, rfl, rfl, rfl, hb.stack_len, hb.estack_len, ?_, ?_⟩
    · show [] = _
      rw [hb.top_zero]; rfl
    · show [] = List.drop s.r s.stack
      rw [List.drop_of_length_le (by rw [hb.stack_len, hb.r_full])]
    · show s.top ≤ g.nodes
      rw [hb.top_zero]; omega
    · show s.r ≤ g.nodes
      rw [hb.r_full]
  · refine ⟨?_, hb.bits_len, ?_, ?_, ?_, ?_, (by decide : 2 % 2 = 0), ?_, ?_, ?_, ?_, ?_, ?_⟩
    · show (s.rindex.set i 2).length = g.nodes
      rw [List.length_set]; exact hb.rindex_len
    · rw [hopn]; exact List.nodup_singleton _
    · intro v hv
      rw [hopn, List.mem_singleton] at hv
      rw [hv]; exact hi
    · intro v hv
      rw [hopn, List.mem_singleton]
      by_cases hvi : v = i
      · subst hvi
        rw [hself]
        unfold UINT_ALL
        simp
      · rw [hne v hvi]
        have := hb.visited v hv
        constructor
        · intro hc; exact absurd hc hvi
        · intro hc
          rcases this with h | h
          · exact absurd h hc.1
          · exact absurd h hc.2
    · intro v hv
      rw [hopn, List.mem_singleton] at hv
      subst hv
      rw [hself]
      exact ⟨Nat.le_refl _, Nat.le_refl _, (by decide : 2 % 2 = 0), Nat.le_refl _, Or.inl rfl⟩
    · show 2 + 2 * _ ≤ 2 * g.nodes
      simp only [OfNat.ofNat_ne_zero, if_false] at hcount
      omega
    · intro x hx y hy _
      rw [hopn, List.mem_singleton] at hx hy
      rw [hx, hy]
    · exact List.pairwise_singleton _ _
    · exact List.Pairwise.nil
    · intro w hw
      exact absurd hw (List.not_mem_nil _)
    · exact ⟨i, List.mem_cons_self _ _, rfl⟩
  · refine ⟨List.chain'_singleton _, ?_, ?_, ?_, ?_⟩
    · intro q hq
      have : q = (i, 0) := by simpa [astate.pj, a_start] using hq
      subst this
      exact ⟨Nat.zero_le _, fun k hk => absurd hk (Nat.not_lt_zero _)⟩
    · intro w hw
      exact absurd hw (List.not_mem_nil _)
    · intro p _ w hw
      exact absurd hw (List.not_mem_nil _)
    · intro x hx hxm y hy
      exact (hmax y).mpr (hb.done_closed x hx ((hmax x).mp hxm) y hy)
  · refine ⟨?_, ?_⟩
    · intro w hw
      exact absurd hw (List.not_mem_nil _)
    · intro w hw
      rw [hopn, List.mem_singleton] at hw
      subst hw
      exact ⟨w, List.mem_cons_self _ _, by rw [hself]; rfl, Relation.ReflTransGen.refl⟩
  · exact out_frame g ac s.rindex _ _ _ hb.out hmax
  · unfold ameasure tarjan_fuel
    rw [show (a_start s i).pj = (i, 0) :: [] from rfl, pj_sum_cons]
    simp only [OfNat.ofNat_ne_zero, if_false] at hmeas
    simp only [List.map_nil, List.sum_nil]
    omega
  · intro v hv
    by_cases hvi : v = i
    · subst hvi; rw [hself]; omega
    · rw [hne v hvi]; exact hv

theorem root_spec (g : graph_t) (hg : graph_wf g) (ac : Bool) (i : Nat) (s : tarjan_state)
    (hb : BInv g ac i s) (hi : i < g.nodes) :
    ∃ s', tarjan_root g ac (tarjan_fuel g) s i = some s' ∧ BInv g ac (i + 1) s' := by
  unfold tarjan_root
  by_cases h0 : s.rindex.getD i 0 = 0
  · simp only [h0, ne_eq, not_true_eq_false, if_false]
    obtain ⟨a, hsim, hinv, hm, hnz⟩ := root_start g hg ac i s hb hi h0
    obtain ⟨s', a', e1, e2, e3, e4⟩ := while_spec g hg ac _ _ a hsim hinv hm
    have hrix : ∀ v, s'.rindex.getD v 0 = a'.rix v := by
      intro v
      unfold astate.rix
      rw [e2.rindex]
    refine ⟨s', e1, ⟨e2.stack_len, e2.estack_len, ?_, ?_, e2.top_zero, ?_, ?_, ?_, ?_, ?_⟩⟩
    · rw [← e2.rindex]; exact e3.rindex_len
    · rw [← e2.sccredges]; exact e3.bits_len
    · have h1 := e3.comp_nil
      rw [e2.comp] at h1
      have h2 : (s'.stack.drop s'.r).length = 0 := by rw [h1]; rfl
      rw [List.length_drop, e2.stack_len] at h2
      have := e2.r_le
      omega
    · intro v hv
      rw [hrix]
      exact e3.visited v hv
    · intro v hv hvn
      rw [hrix]
      have hnz' : a.rix v ≠ 0 := by
        by_cases hvi : v = i
        · subst hvi
          have := (hinv.shape.marker v (List.mem_append_left _ (by
            have : a.u = v := hsim.u
            unfold astate.pathN
            rw [this]
            exact List.mem_cons_self _ _))).2.2.2.1
          omega
        · apply hnz
          have := hb.below v (by omega) hvn
          rw [this]
          decide
      rcases e3.visited v hvn with h | h
      · exact absurd h (e4 v hnz')
      · exact h
    · intro x hx hxm y hy
      rw [hrix] at hxm ⊢
      exact e3.done_closed x hx hxm y hy
    · rw [← e2.rindex, ← e2.sccredges, ← e2.sccs]
      exact e3.out
  · simp only [h0, ne_eq, not_false_eq_true, if_true]
    refine ⟨s, rfl, ⟨hb.stack_len, hb.estack_len, hb.rindex_len, hb.bits_len, hb.top_zero,
      hb.r_full, hb.visited, ?_, hb.done_closed, hb.out⟩⟩
    intro v hv hvn
    by_cases hvi : v = i
    · subst hvi
      rcases hb.visited v hvn with h | h
      · exact absurd h h0
      · exact h
    · exact hb.below v (by omega) hvn

theorem for_spec (g : graph_t) (hg : graph_wf g) (ac : Bool) (n : Nat) :
    ∀ (i : Nat) (s : tarjan_state), BInv g ac i s → i + n = g.nodes →
      ∃ s', tarjan_for g ac (tarjan_fuel g) n i s = some s' ∧ BInv g ac g.nodes s' := by
  induction n with
  | zero =>
    intro i s hb hin
    have : i = g.nodes := by omega
    subst this
    exact ⟨s, rfl, hb⟩
  | succ n ih =>
    intro i s hb hin
    obtain ⟨s1, h1, h2⟩ := root_spec g hg ac i s hb (by omega)
    obtain ⟨s2, h3, h4⟩ := ih (i + 1) s1 h2 (by omega)
    refine ⟨s2, ?_, h4⟩
    unfold tarjan_for
    rw [h1]
    exact h3

theorem init_inv (g : graph_t) (ac : Bool) : BInv g ac 0 (tarjan_init g) := by
  have hz : ∀ v, (tarjan_init g).rindex.getD v 0 = 0 := by
    intro v
    unfold tarjan_init
    simp only [List.getD_eq_getElem?_getD]
    rcases Nat.lt_or_ge v g.nodes with h | h
    · rw [List.getElem?_eq_getElem (by simpa using h)]
      simp
    · rw [List.getElem?_eq_none (by simpa using h)]
      rfl
  refine ⟨by simp [tarjan_init], by simp [tarjan_init], by simp [tarjan_init],
    by simp [tarjan_init, bitmap_new], rfl, rfl, fun v _ => Or.inl (hz v), ?_, ?_, ⟨?_, ?_, ?_, ?_⟩⟩
  · intro v hv
    exact absurd hv (Nat.not_lt_zero _)
  · intro x _ hx
    rw [hz] at hx
    exact absurd hx (by decide)
  · intro c hc
    exact absurd hc (List.not_mem_nil _)
  · intro v _ hx
    rw [hz] at hx
    exact absurd hx (by decide)
  · exact List.Pairwise.nil
  · intro _
    exact bitmap_new_zero _

/-- Total correctness of `tarjan` on a well-formed graph: it returns, every reported cluster is a
whole strongly connected component meeting the mode's criterion, every node whose component must be
reported is in a cluster, and the clusters are pairwise disjoint. -/
theorem tarjan_spec (g : graph_t) (hg : graph_wf g) (ac : Bool) :
    ∃ res, tarjan g ac = some res ∧
      (∀ c ∈ res, ∃ m, good_scc g ac c m) ∧
      (∀ v, v < g.nodes → scc_want g ac v → ∃ c ∈ res, v ∈ scc_members c) ∧
      res.Pairwise (fun c c' => ∀ v, v ∈ scc_members c → v ∉ scc_members c') := by
  obtain ⟨s', h1, h2⟩ := for_spec g hg ac g.nodes 0 (tarjan_init g) (init_inv g ac) (by omega)
  refine ⟨s'.sccs, ?_, ?_, ?_, h2.out.disjoint⟩
  · unfold tarjan
    rw [h1]
    rfl
  · intro c hc
    obtain ⟨m, hm, _⟩ := h2.out.good c hc
    exact ⟨m, hm⟩
  · intro v hv hw
    exact h2.out.complete v hv (h2.below v hv hv) hw

/-! ## Claims about `tarjan` -/

theorem countP_one_of_disjoint (res : List (List Int)) (v : Nat)
    (hd : res.Pairwise (fun c c' => ∀ v, v ∈ scc_members c → v ∉ scc_members c'))
    (hex : ∃ c ∈ res, v ∈ scc_members c) :
    res.countP (fun c => decide (v ∈ scc_members c)) = 1 := by
  induction res with
  | nil =>
    obtain ⟨c, hc, _⟩ := hex
    exact absurd hc (List.not_mem_nil _)
  | cons x xs ih =>
    rw [List.pairwise_cons] at hd
    by_cases hx : v ∈ scc_members x
    · rw [List.countP_cons_of_pos _ _ (by simpa using hx)]
      have : xs.countP (fun c => decide (v ∈ scc_members c)) = 0 := by
        rw [List.countP_eq_zero]
        intro c hc
        simpa using hd.1 c hc v hx
      omega
    · rw [List.countP_cons_of_neg _ _ (by simpa using hx)]
      apply ih hd.2
      obtain ⟨c, hc, hvc⟩ := hex
      rcases List.mem_cons.mp hc with rfl | hc
      · exact absurd hvc hx
      · exact ⟨c, hc, hvc⟩

theorem good_scc_mutual (g : graph_t) (ac : Bool) (c : List Int) (m : List Nat)
    (h : good_scc g ac c m) (a : Nat) (ha : a ∈ m) (b : Nat) :
    b ∈ m ↔ (Reach g a b ∧ Reach g b a) := by
  constructor
  · intro hb
    exact ⟨reachIn_reach g _ a b (h.conn a ha b hb), reachIn_reach g _ b a (h.conn b hb a ha)⟩
  · intro ⟨h1, h2⟩
    exact h.maxl a ha b h1 h2

theorem good_scc_members (g : graph_t) (ac : Bool) (c : List Int) (m : List Nat)
    (h : good_scc g ac c m) : scc_members c = m := by
  rw [h.enc, scc_members_enc]

theorem reach_of_no_edges (g : graph_t) (v x : Nat) (h0 : nbrs g v = []) (h : Reach g v x) :
    x = v := by
  induction h using Relation.ReflTransGen.head_induction_on with
  | refl => rfl
  | head hac _ _ =>
    have := hac.2
    rw [h0] at this
    exact absurd this (List.not_mem_nil _)

theorem lt_nodes_of_on_cycle (g : graph_t) (v : Nat) (h : on_cycle g v) : v < g.nodes := by
  obtain ⟨x, hne, h1, _⟩ := h
  rcases Relation.ReflTransGen.cases_head h1 with h2 | ⟨c, hc, _⟩
  · exact absurd h2.symm hne
  · exact hc.1

/-- C1: on a well-formed graph `tarjan` in closed-leaf mode returns, and every returned cluster is
closed: each neighbour of each member is again a member of the same cluster. -/
theorem tarjan_closed_clusters (g : graph_t) (hg : graph_wf g) :
    ∃ res, tarjan g false = some res ∧
      ∀ c ∈ res, ∀ m ∈ scc_members c, ∀ w ∈ nbrs g m, w ∈ scc_members c := by
  obtain ⟨res, h1, h2, _, _⟩ := tarjan_spec g hg false
  refine ⟨res, h1, ?_⟩
  intro c hc m hm w hw
  obtain ⟨l, hl⟩ := h2 c hc
  rw [good_scc_members g false c l hl] at hm ⊢
  have := hl.crit
  unfold scc_crit at this
  simp only [Bool.false_eq_true, if_false] at this
  exact this m hm w hw

theorem tarjan_closed_clusters_witness :
    graph_wf example_graph ∧ ∃ res, tarjan example_graph false = some res ∧
      ∀ c ∈ res, ∀ m ∈ scc_members c, ∀ w ∈ nbrs example_graph m, w ∈ scc_members c :=
  ⟨by decide, tarjan_closed_clusters example_graph (by decide)⟩

/-- C2: on a well-formed graph `tarjan` in closed-leaf mode returns exactly the closed strongly
connected components: every returned cluster is non-empty, duplicate-free, closed, consists of
exactly the nodes mutually reachable with any of its members, holds only nodes of the graph whose
component is closed, and is the list of its members followed by `-1`; every node whose component
is closed lies in exactly one returned cluster; a node without neighbours is returned as a
singleton. -/
theorem tarjan_closed_exact (g : graph_t) (hg : graph_wf g) :
    ∃ res, tarjan g false = some res ∧
      (∀ c ∈ res, scc_members c ≠ [] ∧ (scc_members c).Nodup ∧
        (∀ a ∈ scc_members c, ∀ b, b ∈ scc_members c ↔ (Reach g a b ∧ Reach g b a)) ∧
        (∀ a ∈ scc_members c, ∀ b, Edge g a b → b ∈ scc_members c) ∧
        (∀ a ∈ scc_members c, a < g.nodes ∧ scc_closed g a) ∧
        c = (scc_members c).map Int.ofNat ++ [-1]) ∧
      (∀ v, v < g.nodes → scc_closed g v →
        res.countP (fun c => decide (v ∈ scc_members c)) = 1) ∧
      (∀ v, v < g.nodes → nbrs g v = [] → ∃ c ∈ res, scc_members c = [v]) := by
  obtain ⟨res, h1, h2, h3, h4⟩ := tarjan_spec g hg false
  have hwant : ∀ v, scc_want g false v ↔ scc_closed g v := by
    intro v
    unfold scc_want
    simp
  refine ⟨res, h1, ?_, ?_, ?_⟩
  · intro c hc
    obtain ⟨l, hl⟩ := h2 c hc
    rw [good_scc_members g false c l hl]
    have hcrit : ∀ x ∈ l, ∀ b ∈ nbrs g x, b ∈ l := by
      have := hl.crit
      unfold scc_crit at this
      simpa only [Bool.false_eq_true, if_false] using this
    refine ⟨hl.ne, hl.nodup, fun a ha b => good_scc_mutual g false c l hl a ha b,
      fun a ha b hab => hcrit a ha b hab.2, ?_, hl.enc⟩
    intro a ha
    refine ⟨hl.lt_nodes a ha, ?_⟩
    intro x hax hxa b hxb
    have hx : x ∈ l := (good_scc_mutual g false c l hl a ha x).mpr ⟨hax, hxa⟩
    exact ((good_scc_mutual g false c l hl a ha b).mp (hcrit x hx b hxb.2)).2
  · intro v hv hcl
    exact countP_one_of_disjoint res v h4 (h3 v hv ((hwant v).mpr hcl))
  · intro v hv h0
    have hcl : scc_closed g v := by
      intro x hvx _ b hxb
      have := reach_of_no_edges g v x h0 hvx
      subst this
      have := hxb.2
      rw [h0] at this
      exact absurd this (List.not_mem_nil _)
    obtain ⟨c, hc, hvc⟩ := h3 v hv ((hwant v).mpr hcl)
    refine ⟨c, hc, ?_⟩
    obtain ⟨l, hl⟩ := h2 c hc
    rw [good_scc_members g false c l hl] at hvc ⊢
    have hall : ∀ b ∈ l, b = v := by
      intro b hb
      exact reach_of_no_edges g v b h0 ((good_scc_mutual g false c l hl v hvc b).mp hb).1
    have hnd := hl.nodup
    cases l with
    | nil => exact absurd hvc (List.not_mem_nil _)
    | cons x xs =>
      have hx := hall x (List.mem_cons_self _ _)
      subst hx
      cases xs with
      | nil => rfl
      | cons y ys =>
        have hy := hall y (List.mem_cons_of_mem _ (List.mem_cons_self _ _))
        subst hy
        rw [List.nodup_cons] at hnd
        exact absurd (List.mem_cons_self _ _) hnd.1

theorem tarjan_closed_exact_witness :
    graph_wf example_graph ∧ ∃ res, tarjan example_graph false = some res ∧
      (∀ c ∈ res, scc_members c ≠ [] ∧ (scc_members c).Nodup ∧
        (∀ a ∈ scc_members c, ∀ b, b ∈ scc_members c ↔
          (Reach example_graph a b ∧ Reach example_graph b a)) ∧
        (∀ a ∈ scc_members c, ∀ b, Edge example_graph a b → b ∈ scc_members c) ∧
        (∀ a ∈ scc_members c, a < example_graph.nodes ∧ scc_closed example_graph a) ∧
        c = (scc_members c).map Int.ofNat ++ [-1]) ∧
      (∀ v, v < example_graph.nodes → scc_closed example_graph v →
        res.countP (fun c => decide (v ∈ scc_members c)) = 1) ∧
      (∀ v, v < example_graph.nodes → nbrs example_graph v = [] →
        ∃ c ∈ res, scc_members c = [v]) :=
  ⟨by decide, tarjan_closed_exact example_graph (by decide)⟩

theorem exists_ne_of_nodup (m : List Nat) (a : Nat) (h : 2 ≤ m.length) (hnd : m.Nodup) :
    ∃ x ∈ m, x ≠ a := by
  cases m with
  | nil => simp at h
  | cons x xs =>
    cases xs with
    | nil => simp at h
    | cons y ys =>
      by_cases hx : x = a
      · refine ⟨y, List.mem_cons_of_mem _ (List.mem_cons_self _ _), ?_⟩
        intro hy
        rw [List.nodup_cons] at hnd
        exact hnd.1 (by rw [hx, ← hy]; exact List.mem_cons_self _ _)
      · exact ⟨x, List.mem_cons_self _ _, hx⟩

/-- C4: on a well-formed graph `tarjan` in cycle mode returns, every returned cluster has at least
two members, and any two members are joined by a directed path that stays inside the cluster.
The members are pairwise distinct nodes of the graph, so each of them lies on a directed cycle
through another node, and the cluster is the list of its members followed by `-1`. -/
theorem tarjan_cycles_connected (g : graph_t) (hg : graph_wf g) :
    ∃ res, tarjan g true = some res ∧
      ∀ c ∈ res, 2 ≤ (scc_members c).length ∧
        (∀ a ∈ scc_members c, ∀ b ∈ scc_members c,
          ReachIn g (fun z => z ∈ scc_members c) a b) ∧
        (scc_members c).Nodup ∧
        (∀ a ∈ scc_members c, a < g.nodes ∧ on_cycle g a) ∧
        c = (scc_members c).map Int.ofNat ++ [-1] := by
  obtain ⟨res, h1, h2, _, _⟩ := tarjan_spec g hg true
  refine ⟨res, h1, ?_⟩
  intro c hc
  obtain ⟨l, hl⟩ := h2 c hc
  rw [good_scc_members g true c l hl]
  have hlen : 2 ≤ l.length := by
    have := hl.crit
    unfold scc_crit at this
    simpa using this
  refine ⟨hlen, hl.conn, hl.nodup, ?_, hl.enc⟩
  intro a ha
  refine ⟨hl.lt_nodes a ha, ?_⟩
  obtain ⟨x, hx, hxa⟩ := exists_ne_of_nodup l a hlen hl.nodup
  exact ⟨x, hxa, reachIn_reach g _ a x (hl.conn a ha x hx),
    reachIn_reach g _ x a (hl.conn x hx a ha)⟩

theorem tarjan_cycles_connected_witness :
    graph_wf example_graph ∧ ∃ res, tarjan example_graph true = some res ∧
      ∀ c ∈ res, 2 ≤ (scc_members c).length ∧
        (∀ a ∈ scc_members c, ∀ b ∈ scc_members c,
          ReachIn example_graph (fun z => z ∈ scc_members c) a b) ∧
        (scc_members c).Nodup ∧
        (∀ a ∈ scc_members c, a < example_graph.nodes ∧ on_cycle example_graph a) ∧
        c = (scc_members c).map Int.ofNat ++ [-1] :=
  ⟨by decide, tarjan_cycles_connected example_graph (by decide)⟩

/-- C5: on a well-formed graph `tarjan` in cycle mode returns, and every node on a directed cycle
through at least two distinct nodes lies in exactly one returned cluster; that cluster consists of
exactly the nodes mutually reachable with it, whether or not edges leave the component. -/
theorem tarjan_cycles_complete (g : graph_t) (hg : graph_wf g) :
    ∃ res, tarjan g true = some res ∧
      ∀ v, on_cycle g v →
        res.countP (fun c => decide (v ∈ scc_members c)) = 1 ∧
        ∀ c ∈ res, v ∈ scc_members c →
          ∀ b, b ∈ scc_members c ↔ (Reach g v b ∧ Reach g b v) := by
  obtain ⟨res, h1, h2, h3, h4⟩ := tarjan_spec g hg true
  refine ⟨res, h1, ?_⟩
  intro v hv
  have hvn := lt_nodes_of_on_cycle g v hv
  have hw : scc_want g true v := by
    unfold scc_want
    simpa using hv
  refine ⟨countP_one_of_disjoint res v h4 (h3 v hvn hw), ?_⟩
  intro c hc hvc b
  obtain ⟨l, hl⟩ := h2 c hc
  rw [good_scc_members g true c l hl] at hvc ⊢
  exact good_scc_mutual g true c l hl v hvc b

theorem tarjan_cycles_complete_witness :
    graph_wf example_graph ∧ ∃ res, tarjan example_graph true = some res ∧
      ∀ v, on_cycle example_graph v →
        res.countP (fun c => decide (v ∈ scc_members c)) = 1 ∧
        ∀ c ∈ res, v ∈ scc_members c →
          ∀ b, b ∈ scc_members c ↔ (Reach example_graph v b ∧ Reach example_graph b v) :=
  ⟨by decide, tarjan_cycles_complete example_graph (by decide)⟩

/-! ## The edge resolver -/

theorem index_from_mem (l : List Nat) (i p : Nat) (h : p ∈ l) :
    ∃ k, k < l.length ∧ pkgs_index_from i l p = ((i + k : Nat) : Int) ∧ l[k]? = some p := by
  induction l generalizing i with
  | nil => exact absurd h (List.not_mem_nil _)
  | cons x xs ih =>
    unfold pkgs_index_from
    by_cases hx : x = p
    · subst hx
      exact ⟨0, by simp, by simp, by simp⟩
    · simp only [hx, if_false]
      have hp : p ∈ xs := by
        rcases List.mem_cons.mp h with h1 | h1
        · exact absurd h1.symm hx
        · exact h1
      obtain ⟨k, hk1, hk2, hk3⟩ := ih (i + 1) hp
      refine ⟨k + 1, by simp; omega, ?_, by simpa using hk3⟩
      rw [hk2]
      congr 1
      omega

theorem index_from_nodup (l : List Nat) (i k p : Nat) (hnd : l.Nodup) (h : l[k]? = some p) :
    pkgs_index_from i l p = ((i + k : Nat) : Int) := by
  induction l generalizing i k with
  | nil => simp at h
  | cons x xs ih =>
    rw [List.nodup_cons] at hnd
    unfold pkgs_index_from
    cases k with
    | zero =>
      simp only [List.getElem?_cons_zero, Option.some.injEq] at h
      simp [h]
    | succ k =>
      simp only [List.getElem?_cons_succ] at h
      have hp : p ∈ xs := mem_of_getElem?_some _ _ _ h
      have hx : x ≠ p := fun hc => hnd.1 (hc ▸ hp)
      simp only [hx, if_false]
      rw [ih (i + 1) k hnd.2 h]
      congr 1
      omega

theorem index_of_mem (pkgs : List Nat) (p : Nat) (h : p ∈ pkgs) :
    ∃ k, k < pkgs.length ∧ pkgs_index_of pkgs p = (k : Int) ∧ pkgs[k]? = some p := by
  obtain ⟨k, h1, h2, h3⟩ := index_from_mem pkgs 0 p h
  exact ⟨k, h1, by unfold pkgs_index_of; rw [h2]; simp, h3⟩

theorem index_of_nodup (pkgs : List Nat) (k p : Nat) (hnd : pkgs.Nodup)
    (h : pkgs[k]? = some p) : pkgs_index_of pkgs p = (k : Int) := by
  unfold pkgs_index_of
  rw [index_from_nodup pkgs 0 k p hnd h]
  simp

theorem find_none_iff (st : pkg_store) (l : List Nat) (dep : Nat) :
    alpm_find_satisfier st l dep = none ↔ ∀ w ∈ l, st.satisfies w dep ≠ true := by
  unfold alpm_find_satisfier
  rw [List.find?_eq_none]

theorem find_some (st : pkg_store) (l : List Nat) (dep p : Nat)
    (h : alpm_find_satisfier st l dep = some p) : p ∈ l ∧ st.satisfies p dep = true := by
  unfold alpm_find_satisfier at h
  exact ⟨List.mem_of_find?_eq_some h, by simpa using List.find?_some h⟩

/-- The candidate list stays a rearrangement of the installed packages, and the edges added for
dependent `v` are exactly the forced ones. -/
theorem append_edges_spec (st : pkg_store) (pkgs : List Nat) (hnd : pkgs.Nodup) (v : Nat)
    (deps : List Nat) :
    ∀ (edges : List edge_t) (copy : List Nat), copy.Perm pkgs →
      (append_edges st edges v deps pkgs copy).2.Perm pkgs ∧
      ∀ e, e ∈ (append_edges st edges v deps pkgs copy).1 ↔
        (e ∈ edges ∨ forced_edge st pkgs v deps e) := by
  induction deps with
  | nil =>
    intro edges copy hp
    unfold append_edges
    refine ⟨hp, fun e => ?_⟩
    constructor
    · exact Or.inl
    · rintro (h | ⟨_, dep, hd, _⟩)
      · exact h
      · exact absurd hd (List.not_mem_nil _)
  | cons dep rest ih =>
    intro edges copy hp
    have hforced : ∀ e, forced_edge st pkgs v (dep :: rest) e ↔
        (forced_edge st pkgs v [dep] e ∨ forced_edge st pkgs v rest e) := by
      intro e
      unfold forced_edge
      constructor
      · rintro ⟨h1, d, hd, p, h2⟩
        rcases List.mem_cons.mp hd with rfl | hd
        · exact Or.inl ⟨h1, d, List.mem_singleton_self _, p, h2⟩
        · exact Or.inr ⟨h1, d, hd, p, h2⟩
      · rintro (⟨h1, d, hd, p, h2⟩ | ⟨h1, d, hd, p, h2⟩)
        · rw [List.mem_singleton] at hd
          exact ⟨h1, d, by rw [hd]; exact List.mem_cons_self _ _, p, h2⟩
        · exact ⟨h1, d, List.mem_cons_of_mem _ hd, p, h2⟩
    have hnd' : copy.Nodup := hp.nodup_iff.mpr hnd
    unfold append_edges
    cases hf : alpm_find_satisfier st copy dep with
    | none =>
      simp only
      obtain ⟨i1, i2⟩ := ih edges copy hp
      refine ⟨i1, fun e => ?_⟩
      rw [i2, hforced]
      have hno : ¬ forced_edge st pkgs v [dep] e := by
        rintro ⟨_, d, hd, p, ⟨hp1, hp2, _⟩, _⟩
        rw [List.mem_singleton] at hd
        subst hd
        exact (find_none_iff st copy d).mp hf p (hp.mem_iff.mpr hp1) hp2
      tauto
    | some fst =>
      simp only
      obtain ⟨hfm, hfs⟩ := find_some st copy dep fst hf
      have hp1 : (fst :: copy.erase fst).Perm pkgs :=
        (List.perm_cons_erase hfm).symm.trans hp
      cases hs : alpm_find_satisfier st (copy.erase fst) dep with
      | some snd =>
        simp only
        obtain ⟨i1, i2⟩ := ih edges _ hp1
        refine ⟨i1, fun e => ?_⟩
        rw [i2, hforced]
        have hno : ¬ forced_edge st pkgs v [dep] e := by
          rintro ⟨_, d, hd, p, ⟨_, hp2, hp3⟩, _⟩
          rw [List.mem_singleton] at hd
          subst hd
          obtain ⟨hsm, hss⟩ := find_some st _ d snd hs
          have h1 := hp3 fst (hp.mem_iff.mp hfm) hfs
          have h2 := hp3 snd (hp.mem_iff.mp (List.mem_of_mem_erase hsm)) hss
          have := (List.Nodup.mem_erase_iff hnd').mp hsm
          exact this.1 (h2.trans h1.symm)
        tauto
      | none =>
        simp only
        have huniq : unique_sat st pkgs dep fst := by
          refine ⟨hp.mem_iff.mp hfm, hfs, ?_⟩
          intro w hw hws
          by_contra hne
          have : w ∈ copy.erase fst :=
            (List.Nodup.mem_erase_iff hnd').mpr ⟨hne, hp.mem_iff.mpr hw⟩
          exact (find_none_iff st _ dep).mp hs w this hws
        have honly : ∀ e, forced_edge st pkgs v [dep] e ↔
            (e.v = (v : Int) ∧ e.u = pkgs_index_of pkgs fst ∧ e.u ≠ (v : Int)) := by
          intro e
          constructor
          · rintro ⟨h1, d, hd, p, hu, h2, h3⟩
            rw [List.mem_singleton] at hd
            subst hd
            have : p = fst := (hu.2.2 fst huniq.1 huniq.2.1).symm
            subst this
            exact ⟨h1, h2, h3⟩
          · rintro ⟨h1, h2, h3⟩
            exact ⟨h1, dep, List.mem_singleton_self _, fst, huniq, h2, h3⟩
        by_cases huv : pkgs_index_of pkgs fst = (v : Int)
        · simp only [huv, if_true]
          obtain ⟨i1, i2⟩ := ih edges _ hp1
          refine ⟨i1, fun e => ?_⟩
          rw [i2, hforced, honly, huv]
          tauto
        · simp only [huv, if_false]
          obtain ⟨i1, i2⟩ := ih (append_edge edges (pkgs_index_of pkgs fst) v) _ hp1
          refine ⟨i1, fun e => ?_⟩
          rw [i2, hforced, honly]
          unfold append_edge
          rw [List.mem_append, List.mem_singleton]
          have hmk : e = { u := pkgs_index_of pkgs fst, v := (v : Int) } ↔
              (e.v = (v : Int) ∧ e.u = pkgs_index_of pkgs fst) := by
            constructor
            · intro h; subst h; exact ⟨rfl, rfl⟩
            · intro ⟨h1, h2⟩
              cases e
              simp only at h1 h2
              subst h1 h2
              rfl
          rw [hmk]
          constructor
          · rintro ((h | ⟨h1, h2⟩) | h)
            · exact Or.inl h
            · exact Or.inr (Or.inl ⟨h1, h2, by rw [h2]; exact huv⟩)
            · exact Or.inr (Or.inr h)
          · rintro (h | ⟨h1, h2, _⟩ | h)
            · exact Or.inl (Or.inl h)
            · exact Or.inl (Or.inr ⟨h1, h2⟩)
            · exact Or.inr h

theorem forced_edge_append (st : pkg_store) (pkgs : List Nat) (v : Nat) (l1 l2 : List Nat)
    (e : edge_t) :
    forced_edge st pkgs v (l1 ++ l2) e ↔
      (forced_edge st pkgs v l1 e ∨ forced_edge st pkgs v l2 e) := by
  unfold forced_edge
  constructor
  · rintro ⟨h1, d, hd, p, h2⟩
    rcases List.mem_append.mp hd with hd | hd
    · exact Or.inl ⟨h1, d, hd, p, h2⟩
    · exact Or.inr ⟨h1, d, hd, p, h2⟩
  · rintro (⟨h1, d, hd, p, h2⟩ | ⟨h1, d, hd, p, h2⟩)
    · exact ⟨h1, d, List.mem_append_left _ hd, p, h2⟩
    · exact ⟨h1, d, List.mem_append_right _ hd, p, h2⟩

theorem forced_edge_nil (st : pkg_store) (pkgs : List Nat) (v : Nat) (e : edge_t) :
    ¬ forced_edge st pkgs v [] e := by
  rintro ⟨_, d, hd, _⟩
  exact absurd hd (List.not_mem_nil _)

/-- One round of the first loop of the builder: the edges added for package number `i`. -/
theorem build_round_spec (st : pkg_store) (opt : Bool) (pkgs : List Nat) (hnd : pkgs.Nodup)
    (i pkg : Nat) (edges : List edge_t) (copy : List Nat) (hp : copy.Perm pkgs) :
    (if opt then append_edges st (append_edges st edges i (st.depends pkg) pkgs copy).1 i
        (st.optdepends pkg) pkgs (append_edges st edges i (st.depends pkg) pkgs copy).2
      else append_edges st edges i (st.depends pkg) pkgs copy).2.Perm pkgs ∧
    ∀ e, e ∈ (if opt then
        append_edges st (append_edges st edges i (st.depends pkg) pkgs copy).1 i
          (st.optdepends pkg) pkgs (append_edges st edges i (st.depends pkg) pkgs copy).2
        else append_edges st edges i (st.depends pkg) pkgs copy).1 ↔
      (e ∈ edges ∨ forced_edge st pkgs i (considered st opt pkg) e) := by
  obtain ⟨a1, a2⟩ := append_edges_spec st pkgs hnd i (st.depends pkg) edges copy hp
  unfold considered
  cases opt with
  | false =>
    simp only [Bool.false_eq_true, if_false, List.append_nil]
    exact ⟨a1, a2⟩
  | true =>
    simp only [if_true]
    obtain ⟨b1, b2⟩ := append_edges_spec st pkgs hnd i (st.optdepends pkg) _ _ a1
    refine ⟨b1, fun e => ?_⟩
    rw [b2, a2, forced_edge_append]
    tauto

theorem build_edges_spec (st : pkg_store) (opt : Bool) (pkgs : List Nat) (hnd : pkgs.Nodup)
    (it : List Nat) :
    ∀ (i : Nat) (edges : List edge_t) (copy : List Nat), copy.Perm pkgs →
      ∀ e, e ∈ (build_edges st opt pkgs it i edges copy).1 ↔
        (e ∈ edges ∨ ∃ k q, it[k]? = some q ∧
          forced_edge st pkgs (i + k) (considered st opt q) e) := by
  induction it with
  | nil =>
    intro i edges copy _ e
    unfold build_edges
    constructor
    · exact Or.inl
    · rintro (h | ⟨k, q, hk, _⟩)
      · exact h
      · simp at hk
  | cons pkg rest ih =>
    intro i edges copy hp e
    unfold build_edges
    obtain ⟨r1, r2⟩ := build_round_spec st opt pkgs hnd i pkg edges copy hp
    simp only
    rw [ih (i + 1) _ _ r1 e, r2]
    constructor
    · rintro ((h | h) | ⟨k, q, hk, hf⟩)
      · exact Or.inl h
      · exact Or.inr ⟨0, pkg, by simp, by simpa using h⟩
      · refine Or.inr ⟨k + 1, q, by simpa using hk, ?_⟩
        have : i + (k + 1) = i + 1 + k := by omega
        rw [this]; exact hf
    · rintro (h | ⟨k, q, hk, hf⟩)
      · exact Or.inl (Or.inl h)
      · cases k with
        | zero =>
          simp only [List.getElem?_cons_zero, Option.some.injEq] at hk
          subst hk
          exact Or.inl (Or.inr (by simpa using hf))
        | succ k =>
          simp only [List.getElem?_cons_succ] at hk
          refine Or.inr ⟨k, q, hk, ?_⟩
          have : i + (k + 1) = i + 1 + k := by omega
          rw [← this]; exact hf

theorem append_edges_ok (st : pkg_store) (pkgs : List Nat) (v : Nat) (hv : v < pkgs.length)
    (deps : List Nat) :
    ∀ (edges : List edge_t) (copy : List Nat), copy.Perm pkgs →
      (∀ e ∈ edges, edge_ok pkgs.length e) →
      (append_edges st edges v deps pkgs copy).2.Perm pkgs ∧
      ∀ e ∈ (append_edges st edges v deps pkgs copy).1, edge_ok pkgs.length e := by
  induction deps with
  | nil =>
    intro edges copy hp he
    unfold append_edges
    exact ⟨hp, he⟩
  | cons dep rest ih =>
    intro edges copy hp he
    unfold append_edges
    cases hf : alpm_find_satisfier st copy dep with
    | none => exact ih edges copy hp he
    | some fst =>
      simp only
      obtain ⟨hfm, _⟩ := find_some st copy dep fst hf
      have hp1 : (fst :: copy.erase fst).Perm pkgs :=
        (List.perm_cons_erase hfm).symm.trans hp
      cases hs : alpm_find_satisfier st (copy.erase fst) dep with
      | some snd => exact ih edges _ hp1 he
      | none =>
        simp only
        by_cases huv : pkgs_index_of pkgs fst = (v : Int)
        · simp only [huv, if_true]
          exact ih edges _ hp1 he
        · simp only [huv, if_false]
          apply ih _ _ hp1
          intro e hin
          unfold append_edge at hin
          rcases List.mem_append.mp hin with h | h
          · exact he e h
          · rw [List.mem_singleton] at h
            subst h
            obtain ⟨k, hk1, hk2, _⟩ := index_of_mem pkgs fst (hp.mem_iff.mp hfm)
            unfold edge_ok
            simp only
            rw [hk2] at huv ⊢
            refine ⟨by omega, by omega, by omega, by omega, huv⟩

theorem build_edges_ok (st : pkg_store) (opt : Bool) (pkgs : List Nat) (it : List Nat) :
    ∀ (i : Nat) (edges : List edge_t) (copy : List Nat), copy.Perm pkgs →
      i + it.length = pkgs.length → (∀ e ∈ edges, edge_ok pkgs.length e) →
      ∀ e ∈ (build_edges st opt pkgs it i edges copy).1, edge_ok pkgs.length e := by
  induction it with
  | nil =>
    intro i edges copy _ _ he
    unfold build_edges
    exact he
  | cons pkg rest ih =>
    intro i edges copy hp hlen he
    simp only [List.length_cons] at hlen
    unfold build_edges
    obtain ⟨a1, a2⟩ := append_edges_ok st pkgs i (by omega) (st.depends pkg) edges copy hp he
    simp only
    cases opt with
    | false =>
      simp only [Bool.false_eq_true, if_false]
      exact ih (i + 1) _ _ a1 (by omega) a2
    | true =>
      simp only [if_true]
      obtain ⟨b1, b2⟩ := append_edges_ok st pkgs i (by omega) (st.optdepends pkg) _ _ a1 a2
      exact ih (i + 1) _ _ b1 (by omega) b2

/-! ## Sorting and removing duplicate edges -/

theorem edge_compare_le (a b : edge_t) :
    edge_compare a b ≤ 0 ↔ (a.u < b.u ∨ (a.u = b.u ∧ a.v ≤ b.v)) := by
  unfold edge_compare
  simp only
  split <;> omega

theorem edge_compare_lt (a b : edge_t) :
    edge_compare a b < 0 ↔ (a.u < b.u ∨ (a.u = b.u ∧ a.v < b.v)) := by
  unfold edge_compare
  simp only
  split <;> omega

theorem edge_compare_eq (a b : edge_t) : edge_compare a b = 0 ↔ a = b := by
  unfold edge_compare
  simp only
  constructor
  · intro h
    cases a; cases b
    simp only at h
    simp only [edge_t.mk.injEq]
    split at h <;> omega
  · intro h
    subst h
    simp

theorem msort_sorted (edges : List edge_t) (n : Nat) :
    (alpm_list_msort edges n edge_compare).Pairwise (fun a b => edge_compare a b ≤ 0) := by
  unfold alpm_list_msort
  haveI : IsTotal edge_t (fun a b => edge_compare a b ≤ 0) := ⟨fun a b => by
    simp only [edge_compare_le]; omega⟩
  haveI : IsTrans edge_t (fun a b => edge_compare a b ≤ 0) := ⟨fun a b c => by
    simp only [edge_compare_le]; omega⟩
  exact List.sorted_insertionSort (fun a b => edge_compare a b ≤ 0) edges

theorem msort_mem {α : Type} (l : List α) (n : Nat) (fn : α → α → Int) (e : α) :
    e ∈ alpm_list_msort l n fn ↔ e ∈ l := by
  unfold alpm_list_msort
  exact (List.perm_insertionSort _ l).mem_iff

theorem dedup_from_spec (l : List edge_t) :
    ∀ x, (∀ y ∈ l, edge_compare x y ≤ 0) → l.Pairwise (fun a b => edge_compare a b ≤ 0) →
      (dedup_from x l).Pairwise (fun a b => edge_compare a b < 0) ∧
      (∀ e, e ∈ dedup_from x l ↔ (e = x ∨ e ∈ l)) ∧
      ∀ e ∈ dedup_from x l, edge_compare x e ≤ 0 := by
  induction l with
  | nil =>
    intro x _ _
    unfold dedup_from
    refine ⟨List.pairwise_singleton _ _, by simp, ?_⟩
    intro e he
    rw [List.mem_singleton] at he
    subst he
    rw [edge_compare_le]; omega
  | cons y rest ih =>
    intro x hx hs
    rw [List.pairwise_cons] at hs
    unfold dedup_from
    by_cases hxy : edge_compare x y = 0
    · simp only [hxy, if_true]
      have hxy' := (edge_compare_eq x y).mp hxy
      obtain ⟨i1, i2, i3⟩ := ih x (fun z hz => hx z (List.mem_cons_of_mem _ hz)) hs.2
      refine ⟨i1, fun e => ?_, i3⟩
      rw [i2, List.mem_cons, ← hxy']
      tauto
    · simp only [hxy, if_false]
      obtain ⟨i1, i2, i3⟩ := ih y hs.1 hs.2
      have hlt : edge_compare x y < 0 := by
        have := hx y (List.mem_cons_self _ _)
        omega
      refine ⟨?_, fun e => ?_, ?_⟩
      · rw [List.pairwise_cons]
        refine ⟨fun e he => ?_, i1⟩
        have h1 := i3 e he
        rw [edge_compare_lt] at hlt ⊢
        rw [edge_compare_le] at h1
        omega
      · rw [List.mem_cons, i2, List.mem_cons]
      · intro e he
        rcases List.mem_cons.mp he with rfl | he
        · rw [edge_compare_le]; omega
        · have h1 := i3 e he
          rw [edge_compare_lt] at hlt
          rw [edge_compare_le] at h1 ⊢
          omega

theorem dedup_edges_spec (l : List edge_t)
    (hs : l.Pairwise (fun a b => edge_compare a b ≤ 0)) :
    (dedup_edges l).Pairwise (fun a b => edge_compare a b < 0) ∧
      ∀ e, e ∈ dedup_edges l ↔ e ∈ l := by
  cases l with
  | nil => exact ⟨List.Pairwise.nil, fun _ => Iff.rfl⟩
  | cons x rest =>
    rw [List.pairwise_cons] at hs
    unfold dedup_edges
    obtain ⟨i1, i2, _⟩ := dedup_from_spec rest x hs.1 hs.2
    exact ⟨i1, fun e => by rw [i2, List.mem_cons]⟩

/-! ## The layout loop -/

theorem set_append_length {α : Type} (A : List α) (z x : α) (Z : List α) :
    (A ++ z :: Z).set A.length x = A ++ x :: Z := by
  induction A with
  | nil => rfl
  | cons a as ih => simp [ih]

theorem layout_row_spec (i : Nat) (it : List edge_t) :
    ∀ (A Z : List Int) (j : Nat), A.length = j → (row_of i it).length ≤ Z.length →
      layout_row i it (A ++ Z) j =
        (rest_of i it, A ++ (row_of i it).map (fun e => e.v) ++ Z.drop (row_of i it).length,
          j + (row_of i it).length) := by
  induction it with
  | nil =>
    intro A Z j _ _
    simp [layout_row, row_of, rest_of]
  | cons e rest ih =>
    intro A Z j hA hZ
    unfold layout_row
    by_cases he : e.u = (i : Int)
    · have hrow : row_of i (e :: rest) = e :: row_of i rest := by
        unfold row_of
        rw [List.takeWhile_cons_of_pos (by simpa using he)]
      have hrest : rest_of i (e :: rest) = rest_of i rest := by
        unfold rest_of
        rw [List.dropWhile_cons_of_pos (by simpa using he)]
      rw [hrow] at hZ ⊢
      rw [hrest]
      simp only [he, ne_eq, not_true_eq_false, if_false]
      cases Z with
      | nil => simp at hZ
      | cons z Z' =>
        simp only [List.length_cons] at hZ
        rw [← hA, set_append_length]
        have : A ++ e.v :: Z' = (A ++ [e.v]) ++ Z' := by simp
        rw [this, ih (A ++ [e.v]) Z' (A.length + 1) (by simp) (by omega)]
        simp only [List.map_cons, List.length_cons, List.drop_succ_cons, List.append_assoc,
          List.singleton_append, Prod.mk.injEq, true_and]
        omega
    · have hrow : row_of i (e :: rest) = [] := by
        unfold row_of
        rw [List.takeWhile_cons_of_neg (by simpa using he)]
      have hrest : rest_of i (e :: rest) = e :: rest := by
        unfold rest_of
        rw [List.dropWhile_cons_of_neg (by simpa using he)]
      rw [hrow, hrest]
      simp [he]

theorem row_rest_length (i : Nat) (it : List edge_t) :
    (row_of i it).length + (rest_of i it).length = it.length := by
  unfold row_of rest_of
  rw [← List.length_append, List.takeWhile_append_dropWhile]

theorem spec_body_length_le (n : Nat) : ∀ (i : Nat) (it : List edge_t),
    (spec_body n i it).length ≤ n + it.length := by
  induction n with
  | zero => intro i it; simp [spec_body]
  | succ n ih =>
    intro i it
    unfold spec_body
    have h1 := ih (i + 1) (rest_of i it)
    have h2 := row_rest_length i it
    simp only [List.length_append, List.length_map, List.length_cons]
    omega

theorem spec_ptrs_length (n : Nat) : ∀ (i : Nat) (it : List edge_t) (j : Nat),
    (spec_ptrs n i it j).length = n := by
  induction n with
  | zero => intro i it j; rfl
  | succ n ih =>
    intro i it j
    unfold spec_ptrs
    simp [ih]

theorem spec_ptrs_succ (n i : Nat) (it : List edge_t) (j : Nat) :
    spec_ptrs (n + 1) i it j =
      (j : Int) :: spec_ptrs n (i + 1) (rest_of i it) (j + (row_of i it).length + 1) := rfl

theorem spec_body_succ (n i : Nat) (it : List edge_t) :
    spec_body (n + 1) i it =
      (row_of i it).map (fun e => e.v) ++ (-1 : Int) :: spec_body n (i + 1) (rest_of i it) :=
  rfl

theorem layout_rows_spec (n : Nat) :
    ∀ (i : Nat) (it : List edge_t) (P Zp B Zb : List Int) (j : Nat),
      P.length = i → Zp.length = n → j = i + n + B.length →
      (spec_body n i it).length ≤ Zb.length →
      (layout_rows n i it (P ++ Zp ++ B ++ Zb) j).2.1 =
        P ++ spec_ptrs n i it j ++ B ++ spec_body n i it ++
          Zb.drop (spec_body n i it).length := by
  induction n with
  | zero =>
    intro i it P Zp B Zb j _ hZp _ _
    have : Zp = [] := List.length_eq_zero.mp hZp
    subst this
    simp [layout_rows, spec_ptrs, spec_body]
  | succ n ih =>
    intro i it P Zp B Zb j hP hZp hj hZb
    cases Zp with
    | nil => simp at hZp
    | cons z Zp' =>
      simp only [List.length_cons, Nat.add_right_cancel_iff] at hZp
      rw [spec_body_succ] at hZb
      simp only [List.length_append, List.length_map, List.length_cons] at hZb
      unfold layout_rows
      have h1 : (P ++ z :: Zp' ++ B ++ Zb).set i (j : Int) =
          (P ++ (j : Int) :: Zp' ++ B) ++ Zb := by
        have : P ++ z :: Zp' ++ B ++ Zb = P ++ z :: (Zp' ++ B ++ Zb) := by simp
        rw [this, ← hP, set_append_length]
        simp
      simp only [h1]
      rw [layout_row_spec i it _ Zb j (by simp; omega) (by omega)]
      simp only
      have hne : (row_of i it).length < Zb.length := by omega
      have h2 : Zb.drop (row_of i it).length =
          Zb[(row_of i it).length] :: Zb.drop ((row_of i it).length + 1) :=
        List.drop_eq_getElem_cons hne
      have h3 : ((P ++ (j : Int) :: Zp' ++ B ++ (row_of i it).map (fun e => e.v)) ++
          Zb.drop (row_of i it).length).set (j + (row_of i it).length) (-1) =
          (P ++ (j : Int) :: Zp' ++ B ++ (row_of i it).map (fun e => e.v)) ++
            (-1 : Int) :: Zb.drop ((row_of i it).length + 1) := by
        rw [h2]
        have hl : (P ++ (j : Int) :: Zp' ++ B ++ (row_of i it).map (fun e => e.v)).length =
            j + (row_of i it).length := by
          simp; omega
        rw [← hl, set_append_length]
      rw [h3]
      have h4 : (P ++ (j : Int) :: Zp' ++ B ++ (row_of i it).map (fun e => e.v)) ++
            (-1 : Int) :: Zb.drop ((row_of i it).length + 1) =
          (P ++ [(j : Int)]) ++ Zp' ++ (B ++ (row_of i it).map (fun e => e.v) ++ [-1]) ++
            Zb.drop ((row_of i it).length + 1) := by
        simp
      rw [h4, ih (i + 1) (rest_of i it) (P ++ [(j : Int)]) Zp'
        (B ++ (row_of i it).map (fun e => e.v) ++ [-1]) (Zb.drop ((row_of i it).length + 1))
        (j + (row_of i it).length + 1) (by simp; omega) hZp (by simp; omega)
        (by rw [List.length_drop]; omega)]
      rw [spec_ptrs_succ, spec_body_succ]
      have hdrop : (Zb.drop ((row_of i it).length + 1)).drop
          (spec_body n (i + 1) (rest_of i it)).length =
          Zb.drop ((row_of i it).map (fun e => e.v) ++
            (-1 : Int) :: spec_body n (i + 1) (rest_of i it)).length := by
        rw [List.drop_drop]
        congr 1
        simp only [List.length_append, List.length_map, List.length_cons]
        omega
      rw [hdrop]
      simp only [List.append_assoc, List.singleton_append, List.cons_append, List.nil_append]

theorem read_spec (n : Nat) :
    ∀ (i : Nat) (it : List edge_t) (j : Nat) (P B T : List Int) (k : Nat), k < n →
      P.length = i → j = i + n + B.length →
      ∃ (off : Nat) (tail : List Int),
        (P ++ spec_ptrs n i it j ++ B ++ spec_body n i it ++ T)[i + k]? = some (off : Int) ∧
        (P ++ spec_ptrs n i it j ++ B ++ spec_body n i it ++ T).drop off =
          (rowk n i it k).map (fun e => e.v) ++ (-1 : Int) :: tail := by
  induction n with
  | zero => intro i it j P B T k hk; omega
  | succ n ih =>
    intro i it j P B T k hk hP hj
    cases k with
    | zero =>
      refine ⟨j, spec_body n (i + 1) (rest_of i it) ++ T, ?_, ?_⟩
      · rw [spec_ptrs_succ]
        simp only [Nat.add_zero, List.append_assoc, List.cons_append]
        rw [← hP, List.getElem?_append_right (Nat.le_refl _)]
        simp
      · have hl : (P ++ spec_ptrs (n + 1) i it j ++ B).length = j := by
          simp only [List.length_append, spec_ptrs_length]
          omega
        have : P ++ spec_ptrs (n + 1) i it j ++ B ++ spec_body (n + 1) i it ++ T =
            (P ++ spec_ptrs (n + 1) i it j ++ B) ++ (spec_body (n + 1) i it ++ T) := by simp
        rw [this]
        conv => lhs; arg 1; rw [← hl]
        rw [List.drop_left, spec_body_succ]
        unfold rowk
        simp
    | succ k =>
      obtain ⟨off, tail, h1, h2⟩ := ih (i + 1) (rest_of i it) (j + (row_of i it).length + 1)
        (P ++ [(j : Int)]) (B ++ (row_of i it).map (fun e => e.v) ++ [-1]) T k (by omega)
        (by simp; omega) (by simp; omega)
      have heq : P ++ spec_ptrs (n + 1) i it j ++ B ++ spec_body (n + 1) i it ++ T =
          P ++ [(j : Int)] ++ spec_ptrs n (i + 1) (rest_of i it) (j + (row_of i it).length + 1) ++
            (B ++ (row_of i it).map (fun e => e.v) ++ [-1]) ++
            spec_body n (i + 1) (rest_of i it) ++ T := by
        rw [spec_ptrs_succ, spec_body_succ]
        simp
      refine ⟨off, tail, ?_, ?_⟩
      · rw [heq]
        have : i + (k + 1) = i + 1 + k := by omega
        rw [this]
        exact h1
      · rw [heq, h2]
        rfl

theorem takeWhile_nonneg_append (row : List Int) (tail : List Int) (h : ∀ w ∈ row, 0 ≤ w) :
    (row ++ (-1 : Int) :: tail).takeWhile (fun w => decide (0 ≤ w)) = row := by
  induction row with
  | nil => simp
  | cons x xs ih =>
    have hx := h x (List.mem_cons_self _ _)
    simp only [List.cons_append]
    rw [List.takeWhile_cons_of_pos (by simpa using hx),
      ih (fun w hw => h w (List.mem_cons_of_mem _ hw))]

theorem rowk_eq_filter (n : Nat) :
    ∀ (i : Nat) (it : List edge_t) (k : Nat), k < n →
      it.Pairwise (fun a b => a.u ≤ b.u) → (∀ e ∈ it, (i : Int) ≤ e.u) →
      rowk n i it k = it.filter (fun e => decide (e.u = ((i + k : Nat) : Int))) := by
  induction n with
  | zero => intro i it k hk; omega
  | succ n ih =>
    intro i it k hk hs hge
    have hpre : it.Pairwise (fun w w' =>
        (fun e : edge_t => decide (e.u = (i : Int))) w' = true →
        (fun e : edge_t => decide (e.u = (i : Int))) w = true) := by
      apply List.Pairwise.imp_of_mem _ hs
      intro a b ha _ hab hb
      simp only [decide_eq_true_eq] at hb ⊢
      have := hge a ha
      omega
    cases k with
    | zero =>
      unfold rowk row_of
      rw [takeWhile_eq_filter _ _ hpre]
      simp
    | succ k =>
      unfold rowk
      have hrest : rest_of i it = it.filter (fun e => !decide (e.u = (i : Int))) := by
        unfold rest_of
        exact dropWhile_eq_filter _ _ hpre
      rw [ih (i + 1) (rest_of i it) k (by omega)
        (hs.sublist (by unfold rest_of; exact List.dropWhile_sublist _))
        (by
          intro e he
          rw [hrest, List.mem_filter] at he
          have h1 := hge e he.1
          have h2 : e.u ≠ (i : Int) := by simpa using he.2
          omega)]
      rw [hrest, List.filter_filter]
      apply List.filter_congr
      intro e _
      have : (i + 1 + k : Nat) = i + (k + 1) := by omega
      rw [this]
      by_cases h : e.u = ((i + (k + 1) : Nat) : Int)
      · have hne : e.u ≠ (i : Int) := by omega
        simp only [h, hne, decide_True, decide_False, Bool.not_false, Bool.and_self]
        simp
        omega
      · simp [h]
        omega

/-! ## The graph built by `graph_build_rdepends` -/

theorem build_uniq_ok (st : pkg_store) (pkgs : List Nat) (opt : Bool) :
    ∀ e ∈ build_uniq st pkgs opt, edge_ok pkgs.length e := by
  intro e he
  unfold build_uniq at he
  rw [(dedup_edges_spec _ (msort_sorted _ _)).2, msort_mem] at he
  exact build_edges_ok st opt pkgs pkgs 0 [] pkgs (List.Perm.refl _) (by omega)
    (fun e h => absurd h (List.not_mem_nil _)) e he

theorem build_uniq_sorted (st : pkg_store) (pkgs : List Nat) (opt : Bool) :
    (build_uniq st pkgs opt).Pairwise (fun a b => edge_compare a b < 0) := by
  unfold build_uniq
  exact (dedup_edges_spec _ (msort_sorted _ _)).1

theorem build_uniq_mem (st : pkg_store) (pkgs : List Nat) (opt : Bool) (hnd : pkgs.Nodup)
    (e : edge_t) :
    e ∈ build_uniq st pkgs opt ↔
      ∃ k q, pkgs[k]? = some q ∧ forced_edge st pkgs k (considered st opt q) e := by
  unfold build_uniq
  rw [(dedup_edges_spec _ (msort_sorted _ _)).2, msort_mem,
    build_edges_spec st opt pkgs hnd pkgs 0 [] pkgs (List.Perm.refl _)]
  simp

theorem build_nodes (st : pkg_store) (pkgs : List Nat) (opt : Bool) :
    (graph_build_rdepends st pkgs opt).nodes = pkgs.length := rfl

theorem build_idx (st : pkg_store) (pkgs : List Nat) (opt : Bool) :
    (graph_build_rdepends st pkgs opt).idx =
      spec_ptrs pkgs.length 0 (build_uniq st pkgs opt) pkgs.length ++
      spec_body pkgs.length 0 (build_uniq st pkgs opt) ++
      (List.replicate (pkgs.length + (build_uniq st pkgs opt).length) (0 : Int)).drop
        (spec_body pkgs.length 0 (build_uniq st pkgs opt)).length := by
  have h := layout_rows_spec pkgs.length 0 (build_uniq st pkgs opt) []
    (List.replicate pkgs.length 0) []
    (List.replicate (pkgs.length + (build_uniq st pkgs opt).length) 0) pkgs.length rfl
    (by simp) (by simp) (by
      rw [List.length_replicate]
      exact spec_body_length_le _ _ _)
  have hrep : List.replicate (2 * pkgs.length + (build_uniq st pkgs opt).length) (0 : Int) =
      [] ++ List.replicate pkgs.length 0 ++ [] ++
        List.replicate (pkgs.length + (build_uniq st pkgs opt).length) 0 := by
    simp only [List.nil_append, List.append_nil]
    rw [← List.replicate_add]
    congr 1
    omega
  show (layout_rows pkgs.length 0 (build_uniq st pkgs opt)
    (List.replicate (2 * pkgs.length + (build_uniq st pkgs opt).length) 0) pkgs.length).2.1 = _
  rw [hrep, h]
  simp

/-- The neighbour list of node `u` of the built graph, and the sentinel that ends it. -/
theorem build_neighbors (st : pkg_store) (pkgs : List Nat) (opt : Bool) (u : Nat)
    (hu : u < pkgs.length) :
    neighbors (graph_build_rdepends st pkgs opt) u =
      ((build_uniq st pkgs opt).filter (fun e => decide (e.u = (u : Int)))).map (fun e => e.v) ∧
    0 ≤ (graph_build_rdepends st pkgs opt).idx.getD u 0 ∧
    (graph_build_rdepends st pkgs opt).idx[graph_edges_from (graph_build_rdepends st pkgs opt) u
      + (neighbors (graph_build_rdepends st pkgs opt) u).length]? = some (-1) := by
  have hidx := build_idx st pkgs opt
  obtain ⟨off, tail, h1, h2⟩ := read_spec pkgs.length 0 (build_uniq st pkgs opt) pkgs.length
    [] [] ((List.replicate (pkgs.length + (build_uniq st pkgs opt).length) (0 : Int)).drop
        (spec_body pkgs.length 0 (build_uniq st pkgs opt)).length) u hu rfl (by simp)
  simp only [List.nil_append, List.append_nil, Nat.zero_add] at h1 h2
  rw [← hidx] at h1 h2
  have hsorted : (build_uniq st pkgs opt).Pairwise (fun a b => a.u ≤ b.u) := by
    apply List.Pairwise.imp _ (build_uniq_sorted st pkgs opt)
    intro a b hab
    rw [edge_compare_lt] at hab
    omega
  have hrow := rowk_eq_filter pkgs.length 0 (build_uniq st pkgs opt) u hu hsorted (by
    intro e he
    have := (build_uniq_ok st pkgs opt e he).1
    simpa using this)
  simp only [Nat.zero_add] at hrow
  rw [hrow] at h2
  have hoff : graph_edges_from (graph_build_rdepends st pkgs opt) u = off := by
    unfold graph_edges_from
    rw [List.getD_eq_getElem?_getD, h1]
    simp
  have hnonneg : ∀ w ∈ ((build_uniq st pkgs opt).filter
      (fun e => decide (e.u = (u : Int)))).map (fun e => e.v), 0 ≤ w := by
    intro w hw
    rw [List.mem_map] at hw
    obtain ⟨e, he, rfl⟩ := hw
    exact (build_uniq_ok st pkgs opt e (List.mem_of_mem_filter he)).2.2.1
  have hnb : neighbors (graph_build_rdepends st pkgs opt) u =
      ((build_uniq st pkgs opt).filter (fun e => decide (e.u = (u : Int)))).map
        (fun e => e.v) := by
    unfold neighbors
    rw [hoff, h2]
    exact takeWhile_nonneg_append _ _ hnonneg
  refine ⟨hnb, ?_, ?_⟩
  · rw [List.getD_eq_getElem?_getD, h1]
    simp
  · rw [hoff, hnb, ← List.getElem?_drop, h2]
    rw [List.getElem?_append_right (Nat.le_refl _)]
    simp

theorem filter_row_sorted (es : List edge_t) (u : Int)
    (hs : es.Pairwise (fun a b => edge_compare a b < 0)) :
    ((es.filter (fun e => decide (e.u = u))).map (fun e => e.v)).Pairwise (fun a b => a < b) := by
  rw [List.pairwise_map]
  apply List.Pairwise.imp_of_mem _ (hs.sublist (List.filter_sublist _))
  intro a b ha hb hab
  have h1 : a.u = u := by simpa using (List.mem_filter.mp ha).2
  have h2 : b.u = u := by simpa using (List.mem_filter.mp hb).2
  rw [edge_compare_lt] at hab
  omega

theorem build_edge_iff (st : pkg_store) (pkgs : List Nat) (opt : Bool) (u v : Nat) :
    Edge (graph_build_rdepends st pkgs opt) u v ↔
      (u < pkgs.length ∧ ({ u := (u : Int), v := (v : Int) } : edge_t) ∈ build_uniq st pkgs opt)
    := by
  unfold Edge nbrs
  rw [build_nodes]
  constructor
  · rintro ⟨hu, hv⟩
    refine ⟨hu, ?_⟩
    rw [(build_neighbors st pkgs opt u hu).1, List.map_map, List.mem_map] at hv
    obtain ⟨e, he, hev⟩ := hv
    rw [List.mem_filter] at he
    have h1 : e.u = (u : Int) := by simpa using he.2
    have h2 := (build_uniq_ok st pkgs opt e he.1).2.2.1
    simp only [Function.comp_apply] at hev
    have h3 : e.v = (v : Int) := by omega
    have : e = { u := (u : Int), v := (v : Int) } := by
      cases e
      simp only at h1 h3
      subst h1 h3
      rfl
    rw [← this]
    exact he.1
  · rintro ⟨hu, he⟩
    refine ⟨hu, ?_⟩
    rw [(build_neighbors st pkgs opt u hu).1, List.map_map, List.mem_map]
    exact ⟨_, List.mem_filter.mpr ⟨he, by simp⟩, by simp⟩

/-! ## Claims about the graph builder and the report -/

/-- C3: for a duplicate-free installed package list and either flag setting, the built graph has
the edge `(u, v)` exactly when `u ≠ v` and some considered constraint of package number `v` has
package number `u` as its only installed satisfier; constraints without a satisfier or with
several satisfiers give no edge. -/
theorem build_edges_exact (st : pkg_store) (pkgs : List Nat) (opt : Bool) (hnd : pkgs.Nodup)
    (u v : Nat) :
    Edge (graph_build_rdepends st pkgs opt) u v ↔
      ∃ p q, pkgs[u]? = some p ∧ pkgs[v]? = some q ∧ u ≠ v ∧
        ∃ dep ∈ considered st opt q, unique_sat st pkgs dep p := by
  rw [build_edge_iff, build_uniq_mem st pkgs opt hnd]
  constructor
  · rintro ⟨hu, k, q, hk, hv, dep, hd, p, hus, hi, hne⟩
    simp only at hv hi hne
    have hkv : k = v := by omega
    subst hkv
    obtain ⟨k', _, hk2, hk3⟩ := index_of_mem pkgs p hus.1
    rw [hk2] at hi
    have : k' = u := by omega
    subst this
    exact ⟨p, q, hk3, hk, by omega, dep, hd, hus⟩
  · rintro ⟨p, q, hp, hq, hne, dep, hd, hus⟩
    refine ⟨getElem?_lt_length _ _ _ hp, v, q, hq, rfl, dep, hd, p, hus, ?_, ?_⟩
    · simp only
      rw [index_of_nodup pkgs u p hnd hp]
    · simp only
      omega

theorem build_edges_exact_witness :
    [10, 20].Nodup ∧
    (Edge (graph_build_rdepends example_store [10, 20] false) 1 0 ↔
      ∃ p q, [10, 20][1]? = some p ∧ [10, 20][0]? = some q ∧ 1 ≠ 0 ∧
        ∃ dep ∈ considered example_store false q, unique_sat example_store [10, 20] dep p) :=
  ⟨by decide, build_edges_exact example_store [10, 20] false (by decide) 1 0⟩

/-- C6: in every built graph the neighbour sequence of every node `u`, read up to its sentinel,
is strictly ascending, has all entries in `[0, nodes)`, never contains `u`, and is followed by
the sentinel `-1` inside the array. -/
theorem build_rows_ascending (st : pkg_store) (pkgs : List Nat) (opt : Bool) (u : Nat)
    (hu : u < (graph_build_rdepends st pkgs opt).nodes) :
    (neighbors (graph_build_rdepends st pkgs opt) u).Pairwise (fun a b => a < b) ∧
    (∀ w ∈ neighbors (graph_build_rdepends st pkgs opt) u,
      0 ≤ w ∧ w < ((graph_build_rdepends st pkgs opt).nodes : Int) ∧ w ≠ (u : Int)) ∧
    (graph_build_rdepends st pkgs opt).idx[graph_edges_from (graph_build_rdepends st pkgs opt) u
      + (neighbors (graph_build_rdepends st pkgs opt) u).length]? = some (-1) := by
  rw [build_nodes] at hu
  obtain ⟨h1, _, h3⟩ := build_neighbors st pkgs opt u hu
  refine ⟨?_, ?_, h3⟩
  · rw [h1]
    exact filter_row_sorted _ _ (build_uniq_sorted st pkgs opt)
  · intro w hw
    rw [h1, List.mem_map] at hw
    obtain ⟨e, he, rfl⟩ := hw
    rw [List.mem_filter] at he
    have hok := build_uniq_ok st pkgs opt e he.1
    have heu : e.u = (u : Int) := by simpa using he.2
    unfold edge_ok at hok
    rw [build_nodes]
    refine ⟨hok.2.2.1, hok.2.2.2.1, ?_⟩
    intro hc
    exact hok.2.2.2.2 (by rw [heu, hc])

theorem build_rows_ascending_witness :
    1 < (graph_build_rdepends example_store [10, 20] false).nodes ∧
    ((neighbors (graph_build_rdepends example_store [10, 20] false) 1).Pairwise
        (fun a b => a < b) ∧
      (∀ w ∈ neighbors (graph_build_rdepends example_store [10, 20] false) 1,
        0 ≤ w ∧ w < ((graph_build_rdepends example_store [10, 20] false).nodes : Int) ∧
          w ≠ ((1 : Nat) : Int)) ∧
      (graph_build_rdepends example_store [10, 20] false).idx[
        graph_edges_from (graph_build_rdepends example_store [10, 20] false) 1
        + (neighbors (graph_build_rdepends example_store [10, 20] false) 1).length]? =
          some (-1)) :=
  ⟨by decide, build_rows_ascending example_store [10, 20] false 1 (by decide)⟩

theorem sort_first_le (x y : List Int) : sort_by_first x y ≤ 0 ↔ x.getD 0 0 ≤ y.getD 0 0 := by
  unfold sort_by_first
  omega

theorem good_scc_first (g : graph_t) (ac : Bool) (c : List Int) (m : List Nat)
    (h : good_scc g ac c m) : ∃ x, x ∈ scc_members c ∧ c.getD 0 0 = (x : Int) := by
  have hm := good_scc_members g ac c m h
  have hne := h.ne
  have henc := h.enc
  cases m with
  | nil => exact absurd rfl hne
  | cons x xs =>
    refine ⟨x, by rw [hm]; exact List.mem_cons_self _ _, ?_⟩
    rw [henc]
    rfl

/-- C7, the order as stated: in the four-node example the report lists the cluster `[2]` before
the cluster `[3, 1]`, although the smallest member of the first is not below the smallest member
of the second. -/
theorem report_by_min_counterexample :
    graph_wf example_graph ∧
    report_order example_graph false = some [[2, -1], [3, 1, -1]] ∧
    ¬ scc_min [2, -1] < scc_min [3, 1, -1] := by
  refine ⟨by decide, by decide, by decide⟩

/-- C7, amended: on a well-formed graph and in either mode the reported cluster list is ordered
by strictly ascending first entry: when cluster `X` precedes cluster `Y`, the first member of `X`
is below the first member of `Y`. -/
theorem report_sorted_by_first (g : graph_t) (hg : graph_wf g) (ac : Bool) :
    ∃ rep, report_order g ac = some rep ∧
      rep.Pairwise (fun X Y => X.getD 0 0 < Y.getD 0 0) := by
  obtain ⟨res, h1, h2, _, h4⟩ := tarjan_spec g hg ac
  refine ⟨alpm_list_msort res res.length sort_by_first, ?_, ?_⟩
  · unfold report_order
    rw [h1]
    rfl
  · have hperm : (alpm_list_msort res res.length sort_by_first).Perm res := by
      unfold alpm_list_msort
      exact List.perm_insertionSort _ res
    have hsorted : (alpm_list_msort res res.length sort_by_first).Pairwise
        (fun X Y => sort_by_first X Y ≤ 0) := by
      unfold alpm_list_msort
      haveI : IsTotal (List Int) (fun a b => sort_by_first a b ≤ 0) := ⟨fun a b => by
        simp only [sort_first_le]; omega⟩
      haveI : IsTrans (List Int) (fun a b => sort_by_first a b ≤ 0) := ⟨fun a b c => by
        simp only [sort_first_le]; omega⟩
      exact List.sorted_insertionSort (fun a b => sort_by_first a b ≤ 0) res
    have hdisj : (alpm_list_msort res res.length sort_by_first).Pairwise
        (fun c c' => ∀ v, v ∈ scc_members c → v ∉ scc_members c') := by
      refine (List.Perm.pairwise_iff ?_ hperm).mpr h4
      intro c c' hcc v hv hv'
      exact hcc v hv' hv
    apply List.Pairwise.imp_of_mem _ (hsorted.and hdisj)
    intro X Y hX hY hXY
    obtain ⟨hle, hd⟩ := hXY
    rw [sort_first_le] at hle
    obtain ⟨mX, hmX⟩ := h2 X (hperm.mem_iff.mp hX)
    obtain ⟨mY, hmY⟩ := h2 Y (hperm.mem_iff.mp hY)
    obtain ⟨x, hx1, hx2⟩ := good_scc_first g ac X mX hmX
    obtain ⟨y, hy1, hy2⟩ := good_scc_first g ac Y mY hmY
    have hne : x ≠ y := by
      intro hc
      subst hc
      exact hd x hx1 hy1
    rw [hx2, hy2] at hle ⊢
    omega

theorem report_sorted_by_first_witness :
    graph_wf example_graph ∧ ∃ rep, report_order example_graph false = some rep ∧
      rep.Pairwise (fun X Y => X.getD 0 0 < Y.getD 0 0) :=
  ⟨by decide, report_sorted_by_first example_graph (by decide) false⟩

/-- The graph of a mutual dependency between package numbers `0` and `1`. -/
theorem pair_graph_edges (u v : Nat) :
    Edge { nodes := 2, edges := 2, idx := [2, 4, 1, -1, 0, -1] } u v ↔
      ((u = 0 ∧ v = 1) ∨ (u = 1 ∧ v = 0)) := by
  have h0 : nbrs { nodes := 2, edges := 2, idx := [2, 4, 1, -1, 0, -1] } 0 = [1] := by decide
  have h1 : nbrs { nodes := 2, edges := 2, idx := [2, 4, 1, -1, 0, -1] } 1 = [0] := by decide
  unfold Edge
  constructor
  · rintro ⟨hu, hv⟩
    simp only at hu
    have : u = 0 ∨ u = 1 := by omega
    rcases this with rfl | rfl
    · rw [h0] at hv; simp at hv; exact Or.inl ⟨rfl, hv⟩
    · rw [h1] at hv; simp at hv; exact Or.inr ⟨rfl, hv⟩
  · rintro (⟨rfl, rfl⟩ | ⟨rfl, rfl⟩)
    · exact ⟨by decide, by rw [h0]; simp⟩
    · exact ⟨by decide, by rw [h1]; simp⟩

/-- C8: scenario 2. For two distinct packages `A` and `B`, in either list order, where the only
constraint of `A` is satisfied by `B` alone and the only constraint of `B` by `A` alone, the built
graph has exactly the two edges between package numbers `0` and `1`, and `tarjan` returns in both
modes exactly one cluster, with members `0` and `1`. -/
theorem scenario_mutual_pair (st : pkg_store) (A B dA dB : Nat) (opt : Bool) (pkgs : List Nat)
    (hAB : A ≠ B) (hdA : st.depends A = [dA]) (hdB : st.depends B = [dB])
    (hoA : st.optdepends A = []) (hoB : st.optdepends B = [])
    (h1 : st.satisfies B dA = true) (h2 : st.satisfies A dA = false)
    (h3 : st.satisfies A dB = true) (h4 : st.satisfies B dB = false)
    (hp : pkgs = [A, B] ∨ pkgs = [B, A]) :
    (∀ u v, Edge (graph_build_rdepends st pkgs opt) u v ↔
      ((u = 0 ∧ v = 1) ∨ (u = 1 ∧ v = 0))) ∧
    tarjan (graph_build_rdepends st pkgs opt) false = some [[0, 1, -1]] ∧
    tarjan (graph_build_rdepends st pkgs opt) true = some [[0, 1, -1]] := by
  have hBA : B ≠ A := Ne.symm hAB
  have hg : graph_build_rdepends st pkgs opt =
      { nodes := 2, edges := 2, idx := [2, 4, 1, -1, 0, -1] } := by
    rcases hp with rfl | rfl <;> cases opt <;>
    simp [graph_build_rdepends, build_edges, append_edges, alpm_find_satisfier, hdA, hdB, hoA,
      hoB, h1, h2, h3, h4, List.find?, List.erase_cons, hAB, hBA, pkgs_index_of,
      pkgs_index_from, append_edge, alpm_list_msort, List.insertionSort, List.orderedInsert,
      edge_compare, dedup_edges, dedup_from, graph_alloc, layout_rows, layout_row,
      List.replicate]
  rw [hg]
  exact ⟨pair_graph_edges, by decide, by decide⟩

theorem scenario_mutual_pair_witness :
    (10 : Nat) ≠ 20 ∧
    ((∀ u v, Edge (graph_build_rdepends example_store [20, 10] false) u v ↔
      ((u = 0 ∧ v = 1) ∨ (u = 1 ∧ v = 0))) ∧
    tarjan (graph_build_rdepends example_store [20, 10] false) false = some [[0, 1, -1]] ∧
    tarjan (graph_build_rdepends example_store [20, 10] false) true = some [[0, 1, -1]]) :=
  ⟨by decide, scenario_mutual_pair example_store 10 20 100 200 false [20, 10] (by decide) rfl rfl
    rfl rfl rfl rfl rfl rfl (Or.inr rfl)⟩

/-- C9: scenario 1. For two distinct packages `A` and `B`, in either list order, where the only
constraint of `A` is satisfied by `B` alone and `B` has no constraints, the built graph has the
single edge from the number of `B` to the number of `A`, and `tarjan` in closed-leaf mode returns
exactly one cluster, the singleton of the number of `A`. -/
theorem scenario_leaf (st : pkg_store) (A B dA : Nat) (opt : Bool)
    (hAB : A ≠ B) (hdA : st.depends A = [dA]) (hdB : st.depends B = [])
    (hoA : st.optdepends A = []) (hoB : st.optdepends B = [])
    (h1 : st.satisfies B dA = true) (h2 : st.satisfies A dA = false) :
    ((∀ u v, Edge (graph_build_rdepends st [A, B] opt) u v ↔ (u = 1 ∧ v = 0)) ∧
      tarjan (graph_build_rdepends st [A, B] opt) false = some [[0, -1]]) ∧
    ((∀ u v, Edge (graph_build_rdepends st [B, A] opt) u v ↔ (u = 0 ∧ v = 1)) ∧
      tarjan (graph_build_rdepends st [B, A] opt) false = some [[1, -1]]) := by
  have hBA : B ≠ A := Ne.symm hAB
  have hg1 : graph_build_rdepends st [A, B] opt =
      { nodes := 2, edges := 1, idx := [2, 3, -1, 0, -1] } := by
    cases opt <;>
    simp [graph_build_rdepends, build_edges, append_edges, alpm_find_satisfier, hdA, hdB, hoA,
      hoB, h1, h2, List.find?, List.erase_cons, hAB, hBA, pkgs_index_of,
      pkgs_index_from, append_edge, alpm_list_msort, List.insertionSort, List.orderedInsert,
      edge_compare, dedup_edges, dedup_from, graph_alloc, layout_rows, layout_row,
      List.replicate]
  have hg2 : graph_build_rdepends st [B, A] opt =
      { nodes := 2, edges := 1, idx := [2, 4, 1, -1, -1] } := by
    cases opt <;>
    simp [graph_build_rdepends, build_edges, append_edges, alpm_find_satisfier, hdA, hdB, hoA,
      hoB, h1, h2, List.find?, List.erase_cons, hAB, hBA, pkgs_index_of,
      pkgs_index_from, append_edge, alpm_list_msort, List.insertionSort, List.orderedInsert,
      edge_compare, dedup_edges, dedup_from, graph_alloc, layout_rows, layout_row,
      List.replicate]
  have n10 : nbrs { nodes := 2, edges := 1, idx := [2, 3, -1, 0, -1] } 0 = [] := by decide
  have n11 : nbrs { nodes := 2, edges := 1, idx := [2, 3, -1, 0, -1] } 1 = [0] := by decide
  have n20 : nbrs { nodes := 2, edges := 1, idx := [2, 4, 1, -1, -1] } 0 = [1] := by decide
  have n21 : nbrs { nodes := 2, edges := 1, idx := [2, 4, 1, -1, -1] } 1 = [] := by decide
  rw [hg1, hg2]
  refine ⟨⟨?_, by decide⟩, ⟨?_, by decide⟩⟩
  · intro u v
    unfold Edge
    constructor
    · rintro ⟨hu, hv⟩
      simp only at hu
      have : u = 0 ∨ u = 1 := by omega
      rcases this with rfl | rfl
      · rw [n10] at hv; simp at hv
      · rw [n11] at hv; simp at hv; exact ⟨rfl, hv⟩
    · rintro ⟨rfl, rfl⟩
      exact ⟨by decide, by rw [n11]; simp⟩
  · intro u v
    unfold Edge
    constructor
    · rintro ⟨hu, hv⟩
      simp only at hu
      have : u = 0 ∨ u = 1 := by omega
      rcases this with rfl | rfl
      · rw [n20] at hv; simp at hv; exact ⟨rfl, hv⟩
      · rw [n21] at hv; simp at hv
    · rintro ⟨rfl, rfl⟩
      exact ⟨by decide, by rw [n20]; simp⟩

theorem scenario_leaf_witness :
    (10 : Nat) ≠ 20 ∧
    (((∀ u v, Edge (graph_build_rdepends example_store_leaf [10, 20] false) u v ↔
        (u = 1 ∧ v = 0)) ∧
      tarjan (graph_build_rdepends example_store_leaf [10, 20] false) false =
        some [[0, -1]]) ∧
    ((∀ u v, Edge (graph_build_rdepends example_store_leaf [20, 10] false) u v ↔
        (u = 0 ∧ v = 1)) ∧
      tarjan (graph_build_rdepends example_store_leaf [20, 10] false) false =
        some [[1, -1]])) :=
  ⟨by decide, scenario_leaf example_store_leaf 10 20 100 false (by decide) rfl rfl rfl rfl rfl
    rfl⟩

/-- C10, the exit status as stated: with an empty installed package list, a successful
initialisation and a successful release, `main` exits with `EXIT_FAILURE`, not with success. -/
theorem empty_set_exit_counterexample :
    (main_run example_store example_config true [] true).1 = EXIT_FAILURE ∧
    (main_run example_store example_config true [] true).1 ≠ EXIT_SUCCESS := by
  refine ⟨by decide, by decide⟩

/-- C10, amended: for the empty package list the graph builder yields a graph with 0 nodes and
0 edges and `tarjan` returns no cluster in both modes; `main` itself treats the empty list as a
failure to obtain the packages: it writes nothing to standard output and exits with
`EXIT_FAILURE`, whatever the configuration. -/
theorem empty_set_run (st : pkg_store) (config : config_t) (handle_ok release_ok : Bool) :
    graph_build_rdepends st [] config.optdepends = { nodes := 0, edges := 0, idx := [] } ∧
    tarjan (graph_build_rdepends st [] config.optdepends) false = some [] ∧
    tarjan (graph_build_rdepends st [] config.optdepends) true = some [] ∧
    main_run st config handle_ok [] release_ok = (EXIT_FAILURE, "") := by
  have hg : graph_build_rdepends st [] config.optdepends =
      { nodes := 0, edges := 0, idx := [] } := rfl
  rw [hg]
  refine ⟨rfl, by decide, by decide, ?_⟩
  cases handle_ok <;> rfl

/-! ## Optional constraints (`optdepends`) -/

theorem append_edges_congr (st st' : pkg_store) (hsat : st.satisfies = st'.satisfies) (v : Nat)
    (pkgs : List Nat) (deps : List Nat) :
    ∀ (edges : List edge_t) (copy : List Nat),
      append_edges st edges v deps pkgs copy = append_edges st' edges v deps pkgs copy := by
  induction deps with
  | nil => intro edges copy; rfl
  | cons dep rest ih =>
    intro edges copy
    have hf : ∀ l, alpm_find_satisfier st l dep = alpm_find_satisfier st' l dep := by
      intro l; unfold alpm_find_satisfier; rw [hsat]
    unfold append_edges
    rw [hf copy]
    cases h1 : alpm_find_satisfier st' copy dep with
    | none => exact ih edges copy
    | some fst =>
      simp only [hf]
      cases h2 : alpm_find_satisfier st' (copy.erase fst) dep with
      | none =>
        simp only []
        split_ifs
        · exact ih _ _
        · exact ih _ _
      | some snd => exact ih _ _

theorem append_edges_cons (st : pkg_store) (v : Nat) (pkgs : List Nat) (dep : Nat)
    (rest : List Nat) (edges : List edge_t) (copy : List Nat) :
    append_edges st edges v (dep :: rest) pkgs copy =
      append_edges st (append_edges st edges v [dep] pkgs copy).1 v rest pkgs
        (append_edges st edges v [dep] pkgs copy).2 := by
  simp only [append_edges]
  cases h1 : alpm_find_satisfier st copy dep with
  | none => rfl
  | some fst =>
    simp only []
    cases h2 : alpm_find_satisfier st (copy.erase fst) dep with
    | none =>
      simp only []
      split_ifs <;> rfl
    | some snd => rfl

theorem append_edges_append (st : pkg_store) (v : Nat) (pkgs : List Nat) (d1 d2 : List Nat) :
    ∀ (edges : List edge_t) (copy : List Nat),
      append_edges st edges v (d1 ++ d2) pkgs copy =
        append_edges st (append_edges st edges v d1 pkgs copy).1 v d2 pkgs
          (append_edges st edges v d1 pkgs copy).2 := by
  induction d1 with
  | nil => intro edges copy; rfl
  | cons dep rest ih =>
    intro edges copy
    rw [List.cons_append, append_edges_cons st v pkgs dep (rest ++ d2),
      append_edges_cons st v pkgs dep rest, ih]

theorem build_edges_congr (st st' : pkg_store) (hsat : st.satisfies = st'.satisfies)
    (hdep : st.depends = st'.depends) (pkgs : List Nat) (it : List Nat) :
    ∀ (i : Nat) (edges : List edge_t) (copy : List Nat),
      build_edges st false pkgs it i edges copy = build_edges st' false pkgs it i edges copy := by
  induction it with
  | nil => intro i edges copy; rfl
  | cons pkg rest ih =>
    intro i edges copy
    unfold build_edges
    simp only [Bool.false_eq_true, if_false]
    rw [hdep, append_edges_congr st st' hsat, ih]

theorem build_edges_merge (st : pkg_store) (pkgs : List Nat) (it : List Nat) :
    ∀ (i : Nat) (edges : List edge_t) (copy : List Nat),
      build_edges st true pkgs it i edges copy =
        build_edges (merge_optdepends st) false pkgs it i edges copy := by
  induction it with
  | nil => intro i edges copy; rfl
  | cons pkg rest ih =>
    intro i edges copy
    unfold build_edges
    simp only [Bool.false_eq_true, if_false, if_true]
    have h1 : (merge_optdepends st).depends pkg = st.depends pkg ++ st.optdepends pkg := rfl
    rw [h1, append_edges_append,
      ← append_edges_congr st (merge_optdepends st) rfl,
      ← append_edges_congr st (merge_optdepends st) rfl, ih]

/-- Claim C11. With `optdepends` disabled the graph does not depend on the optional constraints:
two stores with the same mandatory constraints and the same satisfaction relation give the same
graph. With `optdepends` enabled the graph is the one built with `optdepends` disabled from the
store in which each package's optional constraints are appended to its mandatory ones. -/
theorem optdepends_modes (st st' : pkg_store) (pkgs : List Nat)
    (hsat : st.satisfies = st'.satisfies) (hdep : st.depends = st'.depends) :
    graph_build_rdepends st pkgs false = graph_build_rdepends st' pkgs false ∧
    graph_build_rdepends st pkgs true = graph_build_rdepends (merge_optdepends st) pkgs false := by
  constructor
  · unfold graph_build_rdepends
    dsimp only
    rw [build_edges_congr st st' hsat hdep]
  · unfold graph_build_rdepends
    dsimp only
    rw [build_edges_merge]

/-- Witness for `optdepends_modes`: `example_store` and a store with other optional
constraints. -/
theorem optdepends_modes_witness :
    example_store.satisfies = example_store_opt.satisfies ∧
    example_store.depends = example_store_opt.depends ∧
    (graph_build_rdepends example_store [10, 20] false =
        graph_build_rdepends example_store_opt [10, 20] false ∧
      graph_build_rdepends example_store [10, 20] true =
        graph_build_rdepends (merge_optdepends example_store) [10, 20] false) :=
  ⟨rfl, rfl, optdepends_modes example_store example_store_opt [10, 20] rfl rfl⟩

/-! ## The printed report -/

theorem join_cons (a : String) (l : List String) : String.join (a :: l) = a ++ String.join l := by
  apply String.ext
  simp [String.data_join, String.data_append]

theorem join_append (l1 l2 : List String) :
    String.join (l1 ++ l2) = String.join l1 ++ String.join l2 := by
  apply String.ext
  simp [String.data_join, String.data_append]

theorem join_nil : String.join [] = "" := rfl

theorem scc_members_cons_nonneg (i : Int) (rest : List Int) (h : 0 ≤ i) :
    scc_members (i :: rest) = i.toNat :: scc_members rest := by
  unfold scc_members
  rw [List.takeWhile_cons_of_pos (by simpa using h)]
  rfl

theorem scc_members_cons_neg (i : Int) (rest : List Int) (h : ¬ 0 ≤ i) :
    scc_members (i :: rest) = [] := by
  unfold scc_members
  rw [List.takeWhile_cons_of_neg (by simpa using h)]
  rfl

theorem print_scc_cons (st : pkg_store) (pkgs : List Nat) (mark : Char) (i : Int)
    (rest : List Int) (h : 0 ≤ i) :
    print_scc st pkgs (i :: rest) mark =
      report_line st pkgs mark i.toNat ++ print_scc st pkgs rest ' ' := by
  simp only [print_scc, if_pos h, report_line]

theorem print_scc_neg (st : pkg_store) (pkgs : List Nat) (mark : Char) (i : Int)
    (rest : List Int) (h : ¬ 0 ≤ i) : print_scc st pkgs (i :: rest) mark = "" := by
  simp only [print_scc, if_neg h]

theorem print_scc_later (st : pkg_store) (pkgs : List Nat) (scc : List Int) :
    print_scc st pkgs scc ' ' =
      String.join ((scc_members scc).map (report_line st pkgs ' ')) := by
  induction scc with
  | nil => rfl
  | cons i rest ih =>
    by_cases h : 0 ≤ i
    · rw [print_scc_cons st pkgs ' ' i rest h, scc_members_cons_nonneg i rest h, List.map_cons,
        join_cons, ih]
    · rw [print_scc_neg st pkgs ' ' i rest h, scc_members_cons_neg i rest h]
      rfl

theorem print_scc_first (st : pkg_store) (pkgs : List Nat) (scc : List Int) :
    print_scc st pkgs scc '-' = String.join (cluster_lines st pkgs (scc_members scc)) := by
  cases scc with
  | nil => rfl
  | cons i rest =>
    by_cases h : 0 ≤ i
    · rw [print_scc_cons st pkgs '-' i rest h, scc_members_cons_nonneg i rest h, cluster_lines,
        join_cons, print_scc_later]
    · rw [print_scc_neg st pkgs '-' i rest h, scc_members_cons_neg i rest h]
      rfl

theorem print_sccs_spec (st : pkg_store) (pkgs : List Nat) (sccs : List (List Int)) :
    print_sccs st pkgs sccs = String.join (report_lines st pkgs sccs) := by
  induction sccs with
  | nil => rfl
  | cons scc rest ih =>
    simp only [print_sccs, report_lines, List.flatMap_cons]
    rw [join_append, print_scc_first, ih]
    rfl

theorem cluster_lines_length (st : pkg_store) (pkgs : List Nat) (m : List Nat) :
    (cluster_lines st pkgs m).length = m.length := by
  cases m with
  | nil => rfl
  | cons i rest => simp [cluster_lines]

/-- Claim C12. For every cluster list the printing loop of `main` writes exactly the lines of
`report_lines`, one after the other and nothing else: one line per cluster member, in cluster
order and member order, each made of the marker, the name and the version, the marker being `-`
for the first member of a cluster and a space for the later ones. This is the text `main`
writes for the sorted cluster list. -/
theorem report_format (st : pkg_store) (pkgs : List Nat) (sccs : List (List Int)) :
    print_sccs st pkgs sccs = String.join (report_lines st pkgs sccs) ∧
    (report_lines st pkgs sccs).length = (sccs.map (fun scc => (scc_members scc).length)).sum ∧
    ∀ (config : config_t) (release_ok : Bool), pkgs ≠ [] →
      report_order (graph_build_rdepends st pkgs config.optdepends) config.allcycles =
        some sccs →
      (main_run st config true pkgs release_ok).2 = String.join (report_lines st pkgs sccs) := by
  refine ⟨print_sccs_spec st pkgs sccs, ?_, ?_⟩
  · induction sccs with
    | nil => rfl
    | cons scc rest ih =>
      simp only [report_lines, List.flatMap_cons, List.length_append, List.map_cons,
        List.sum_cons, cluster_lines_length]
      rw [← ih]
      rfl
  · intro config release_ok hp hr
    have he : pkgs.isEmpty = false := by
      cases pkgs with
      | nil => exact absurd rfl hp
      | cons p rest => rfl
    unfold main_run
    simp only [Bool.not_true, Bool.false_eq_true, if_false, he, hr]
    exact print_sccs_spec st pkgs sccs

/-- Witness for `report_format`: the report for the two-package store with a mutual
dependency. -/
theorem report_format_witness :
    ([10, 20] : List Nat) ≠ [] ∧
    report_order (graph_build_rdepends example_store [10, 20] example_config.optdepends)
      example_config.allcycles = some [[0, 1, -1]] ∧
    (main_run example_store example_config true [10, 20] true).2 =
      String.join (report_lines example_store [10, 20] [[0, 1, -1]]) ∧
    String.join (report_lines example_store [10, 20] [[0, 1, -1]]) = "- a 1\n  b 1\n" :=
  ⟨by decide, by decide,
    (report_format example_store [10, 20] [[0, 1, -1]]).2.2 example_config true (by decide)
      (by decide), by decide⟩

/-! ## The help option -/

theorem parseargs_help (myname : String) (arg : String) (rest : List (Char × String))
    (operands : List String) (before : List (Char × String)) :
    ∀ (config : config_t), (∀ o ∈ before, o.1 ≠ '?') →
      (parseargs config myname (before ++ ('h', arg) :: rest) operands).1 = 1 ∧
      (parseargs config myname (before ++ ('h', arg) :: rest) operands).2.2 =
        usage_text myname := by
  induction before with
  | nil =>
    intro config _
    simp [parseargs, usage]
  | cons o before ih =>
    intro config h
    obtain ⟨opt, optarg⟩ := o
    have ho := h (opt, optarg) (List.mem_cons_self _ _)
    have hrest : ∀ o ∈ before, o.1 ≠ '?' :=
      fun o ho => h o (List.mem_cons_of_mem _ ho)
    rw [List.cons_append]
    simp only [parseargs]
    have ho1 : (opt = '?') = False := eq_false ho
    simp only [ho1, if_false]
    split_ifs
    · exact ih _ hrest
    · exact ⟨rfl, rfl⟩
    · exact ih _ hrest
    · exact ih _ hrest
    · exact ih _ hrest
    · exact ih _ hrest

/-- Claim C13, counterexample. With the single option `-h` the program prints the usage text and
the exit status is `0`, not `1`. -/
theorem help_exit_counterexample :
    main example_store "pacleaves" [('h', "")] [] true [10, 20] true =
      (0, usage_text "pacleaves") ∧
    (main example_store "pacleaves" [('h', "")] [] true [10, 20] true).1 ≠ 1 := by
  constructor
  · rfl
  · decide

/-- Claim C13, amended. When the command line contains `--help` or `-h` and no invalid option
before it, `usage` returns `1` to `parseargs`, the program prints the usage text and nothing
else, and the exit status is `EXIT_SUCCESS`. -/
theorem help_exit_success (st : pkg_store) (myname : String)
    (before rest : List (Char × String)) (arg : String) (operands : List String)
    (handle_ok release_ok : Bool) (pkgs : List Nat)
    (hb : ∀ o ∈ before, o.1 ≠ '?') :
    (usage myname).1 = 1 ∧
    main st myname (before ++ ('h', arg) :: rest) operands handle_ok pkgs release_ok =
      (EXIT_SUCCESS, usage_text myname) := by
  refine ⟨rfl, ?_⟩
  have h := parseargs_help myname arg rest operands before
    { root := "/", dbpath := "/var/lib/pacman", allcycles := false, optdepends := false } hb
  unfold main
  simp only [h.1, h.2]
  simp

/-- Witness for `help_exit_success`: the command line `-c --help -o`. -/
theorem help_exit_success_witness :
    (∀ o ∈ [('c', "")], o.1 ≠ '?') ∧
    ((usage "pacleaves").1 = 1 ∧
    main example_store "pacleaves" ([('c', "")] ++ ('h', "") :: [('o', "")]) [] true [10, 20]
      true = (EXIT_SUCCESS, usage_text "pacleaves")) :=
  ⟨by decide, help_exit_success example_store "pacleaves" [('c', "")] [('o', "")] "" [] true true
    [10, 20] (by decide)⟩

/-! ## The layout loop fills the allocated array exactly -/

theorem layout_row_end (i : Nat) (it : List edge_t) :
    ∀ (idx : List Int) (j : Nat),
      (layout_row i it idx j).1 = rest_of i it ∧
      (layout_row i it idx j).2.2 = j + (row_of i it).length := by
  induction it with
  | nil => intro idx j; simp [layout_row, row_of, rest_of]
  | cons e rest ih =>
    intro idx j
    unfold layout_row
    by_cases he : e.u = (i : Int)
    · have hrow : row_of i (e :: rest) = e :: row_of i rest := by
        unfold row_of
        rw [List.takeWhile_cons_of_pos (by simpa using he)]
      have hrest : rest_of i (e :: rest) = rest_of i rest := by
        unfold rest_of
        rw [List.dropWhile_cons_of_pos (by simpa using he)]
      rw [hrow, hrest]
      simp only [he, ne_eq, not_true_eq_false, if_false]
      have := ih (idx.set j e.v) (j + 1)
      refine ⟨this.1, ?_⟩
      rw [this.2, List.length_cons]
      omega
    · have hrow : row_of i (e :: rest) = [] := by
        unfold row_of
        rw [List.takeWhile_cons_of_neg (by simpa using he)]
      have hrest : rest_of i (e :: rest) = e :: rest := by
        unfold rest_of
        rw [List.dropWhile_cons_of_neg (by simpa using he)]
      rw [hrow, hrest]
      simp [he]

theorem rest_of_bounds (i n : Nat) (it : List edge_t)
    (hs : it.Pairwise (fun a b => a.u ≤ b.u))
    (hb : ∀ e ∈ it, (i : Int) ≤ e.u ∧ e.u < ((i + (n + 1) : Nat) : Int)) :
    (rest_of i it).Pairwise (fun a b => a.u ≤ b.u) ∧
    ∀ e ∈ rest_of i it, ((i + 1 : Nat) : Int) ≤ e.u ∧ e.u < ((i + 1 + n : Nat) : Int) := by
  have hpre : it.Pairwise (fun w w' =>
      (fun e : edge_t => decide (e.u = (i : Int))) w' = true →
      (fun e : edge_t => decide (e.u = (i : Int))) w = true) := by
    apply List.Pairwise.imp_of_mem _ hs
    intro a b ha _ hab hb'
    simp only [decide_eq_true_eq] at hb' ⊢
    have := (hb a ha).1
    omega
  have hrest : rest_of i it = it.filter (fun e => !decide (e.u = (i : Int))) := by
    unfold rest_of
    exact dropWhile_eq_filter _ _ hpre
  refine ⟨hs.sublist (by unfold rest_of; exact List.dropWhile_sublist _), ?_⟩
  intro e he
  rw [hrest, List.mem_filter] at he
  have h1 := hb e he.1
  have h2 : e.u ≠ (i : Int) := by simpa using he.2
  constructor
  · omega
  · have := h1.2
    push_cast at this ⊢
    omega

theorem layout_rows_end (n : Nat) :
    ∀ (i : Nat) (it : List edge_t) (idx : List Int) (j : Nat),
      it.Pairwise (fun a b => a.u ≤ b.u) →
      (∀ e ∈ it, (i : Int) ≤ e.u ∧ e.u < ((i + n : Nat) : Int)) →
      (layout_rows n i it idx j).1 = [] ∧
      (layout_rows n i it idx j).2.2 = j + n + it.length := by
  induction n with
  | zero =>
    intro i it idx j _ hb
    have hnil : it = [] := by
      cases it with
      | nil => rfl
      | cons e rest =>
        have := hb e (List.mem_cons_self _ _)
        simp only [Nat.add_zero] at this
        omega
    subst hnil
    simp [layout_rows]
  | succ n ih =>
    intro i it idx j hs hb
    unfold layout_rows
    have hrow := layout_row_end i it (idx.set i (j : Int)) j
    have hr := rest_of_bounds i n it hs hb
    simp only [hrow.1, hrow.2]
    have h := ih (i + 1) (rest_of i it)
      ((layout_row i it (idx.set i (j : Int)) j).2.1.set (j + (row_of i it).length) (-1))
      (j + (row_of i it).length + 1) hr.1 hr.2
    refine ⟨h.1, ?_⟩
    rw [h.2]
    have := row_rest_length i it
    omega

theorem spec_body_length (n : Nat) :
    ∀ (i : Nat) (it : List edge_t),
      it.Pairwise (fun a b => a.u ≤ b.u) →
      (∀ e ∈ it, (i : Int) ≤ e.u ∧ e.u < ((i + n : Nat) : Int)) →
      (spec_body n i it).length = n + it.length := by
  induction n with
  | zero =>
    intro i it _ hb
    have hnil : it = [] := by
      cases it with
      | nil => rfl
      | cons e rest =>
        have := hb e (List.mem_cons_self _ _)
        simp only [Nat.add_zero] at this
        omega
    subst hnil
    rfl
  | succ n ih =>
    intro i it hs hb
    have hr := rest_of_bounds i n it hs hb
    rw [spec_body_succ]
    simp only [List.length_append, List.length_map, List.length_cons]
    rw [ih (i + 1) (rest_of i it) hr.1 hr.2]
    have := row_rest_length i it
    omega

theorem spec_ptrs_next (n : Nat) :
    ∀ (i : Nat) (it : List edge_t) (j k : Nat), k + 1 < n →
      ∃ x : Nat, (spec_ptrs n i it j)[k]? = some (x : Int) ∧
        (spec_ptrs n i it j)[k + 1]? = some ((x + (rowk n i it k).length + 1 : Nat) : Int) := by
  induction n with
  | zero => intro i it j k hk; omega
  | succ n ih =>
    intro i it j k hk
    cases k with
    | zero =>
      cases n with
      | zero => omega
      | succ m =>
        refine ⟨j, ?_, ?_⟩
        · rw [spec_ptrs_succ]; simp
        · rw [spec_ptrs_succ, spec_ptrs_succ]
          have hr : rowk (m + 1 + 1) i it 0 = row_of i it := rfl
          rw [hr]
          simp
    | succ k =>
      obtain ⟨x, h1, h2⟩ := ih (i + 1) (rest_of i it) (j + (row_of i it).length + 1) k
        (by omega)
      refine ⟨x, ?_, ?_⟩
      · rw [spec_ptrs_succ, List.getElem?_cons_succ]; exact h1
      · rw [spec_ptrs_succ, List.getElem?_cons_succ, h2]
        cases n with
        | zero => omega
        | succ m => rfl

theorem spec_ptrs_head (n i : Nat) (it : List edge_t) (j : Nat) (h : 0 < n) :
    (spec_ptrs n i it j)[0]? = some (j : Int) := by
  cases n with
  | zero => omega
  | succ m => rw [spec_ptrs_succ]; simp

theorem build_edges_count (st : pkg_store) (pkgs : List Nat) (opt : Bool) :
    (graph_build_rdepends st pkgs opt).edges = (build_uniq st pkgs opt).length := rfl

theorem build_uniq_le (st : pkg_store) (pkgs : List Nat) (opt : Bool) :
    (build_uniq st pkgs opt).Pairwise (fun a b => a.u ≤ b.u) := by
  apply List.Pairwise.imp _ (build_uniq_sorted st pkgs opt)
  intro a b hab
  rw [edge_compare_lt] at hab
  omega

theorem build_uniq_bounds (st : pkg_store) (pkgs : List Nat) (opt : Bool) :
    ∀ e ∈ build_uniq st pkgs opt,
      ((0 : Nat) : Int) ≤ e.u ∧ e.u < ((0 + pkgs.length : Nat) : Int) := by
  intro e he
  have h := build_uniq_ok st pkgs opt e he
  refine ⟨by simpa using h.1, ?_⟩
  rw [Nat.zero_add]
  exact h.2.1

theorem build_uniq_dedup (st : pkg_store) (pkgs : List Nat) (opt : Bool) :
    (build_uniq st pkgs opt).length =
      (build_edges st opt pkgs pkgs 0 [] pkgs).1.dedup.length := by
  apply List.Perm.length_eq
  rw [List.perm_ext_iff_of_nodup _ (List.nodup_dedup _)]
  · intro e
    unfold build_uniq
    rw [(dedup_edges_spec _ (msort_sorted _ _)).2, msort_mem, List.mem_dedup]
  · apply List.Pairwise.imp _ (build_uniq_sorted st pkgs opt)
    intro a b hab heq
    subst heq
    rw [edge_compare_lt] at hab
    omega

theorem build_idx_exact (st : pkg_store) (pkgs : List Nat) (opt : Bool) :
    (graph_build_rdepends st pkgs opt).idx =
      spec_ptrs pkgs.length 0 (build_uniq st pkgs opt) pkgs.length ++
      spec_body pkgs.length 0 (build_uniq st pkgs opt) := by
  rw [build_idx]
  have hl := spec_body_length pkgs.length 0 (build_uniq st pkgs opt) (build_uniq_le st pkgs opt)
    (build_uniq_bounds st pkgs opt)
  rw [hl, List.drop_eq_nil_of_le (by simp), List.append_nil]

theorem build_idx_frame (st : pkg_store) (pkgs : List Nat) (opt : Bool) (T : List Int) :
    (layout_rows pkgs.length 0 (build_uniq st pkgs opt)
      ((graph_alloc pkgs.length (build_uniq st pkgs opt).length).idx ++ T) pkgs.length).2.1 =
      (graph_build_rdepends st pkgs opt).idx ++ T := by
  have hl := spec_body_length pkgs.length 0 (build_uniq st pkgs opt) (build_uniq_le st pkgs opt)
    (build_uniq_bounds st pkgs opt)
  have h := layout_rows_spec pkgs.length 0 (build_uniq st pkgs opt) []
    (List.replicate pkgs.length 0) []
    (List.replicate (pkgs.length + (build_uniq st pkgs opt).length) 0 ++ T) pkgs.length rfl
    (by simp) (by simp) (by
      rw [hl, List.length_append, List.length_replicate]
      omega)
  have hrep : (graph_alloc pkgs.length (build_uniq st pkgs opt).length).idx ++ T =
      [] ++ List.replicate pkgs.length 0 ++ [] ++
        (List.replicate (pkgs.length + (build_uniq st pkgs opt).length) 0 ++ T) := by
    unfold graph_alloc
    simp only [List.nil_append, List.append_nil]
    rw [← List.append_assoc, ← List.replicate_add]
    congr 2
    omega
  rw [hrep, h, build_idx_exact, hl]
  have hd : (List.replicate (pkgs.length + (build_uniq st pkgs opt).length) (0 : Int) ++ T).drop
      (pkgs.length + (build_uniq st pkgs opt).length) = T := by
    have := List.drop_left (List.replicate (pkgs.length + (build_uniq st pkgs opt).length)
      (0 : Int)) T
    rw [List.length_replicate] at this
    exact this
  rw [hd]
  simp

theorem build_degree (st : pkg_store) (pkgs : List Nat) (opt : Bool) (u : Nat)
    (hu : u < pkgs.length) :
    (neighbors (graph_build_rdepends st pkgs opt) u).length =
      (rowk pkgs.length 0 (build_uniq st pkgs opt) u).length := by
  rw [(build_neighbors st pkgs opt u hu).1, List.length_map,
    rowk_eq_filter pkgs.length 0 (build_uniq st pkgs opt) u hu (build_uniq_le st pkgs opt)
      (fun e he => (build_uniq_bounds st pkgs opt e he).1)]
  simp

/-- Claim C14. The layout loop of `graph_build_rdepends` fills the array of
`graph_alloc(nodes, edges)` exactly: `edges` is the number of distinct emitted pairs, the array
has `2 * nodes + edges` cells, `idx[0] = nodes` when there is a node, `idx[u + 1]` is `idx[u]`
plus the number of neighbours of `u` plus one, every node's list ends with `-1`, the loop
leaves no edge unconsumed, the write index ends at `2 * nodes + edges`, and cells at or beyond
that bound are never written (whatever follows the array is left as it was). -/
theorem layout_exact (st : pkg_store) (pkgs : List Nat) (opt : Bool) :
    (graph_build_rdepends st pkgs opt).nodes = pkgs.length ∧
    (graph_build_rdepends st pkgs opt).edges =
      (build_edges st opt pkgs pkgs 0 [] pkgs).1.dedup.length ∧
    (graph_build_rdepends st pkgs opt).edges = (build_uniq st pkgs opt).length ∧
    (graph_build_rdepends st pkgs opt).idx.length =
      2 * (graph_build_rdepends st pkgs opt).nodes + (graph_build_rdepends st pkgs opt).edges ∧
    (0 < (graph_build_rdepends st pkgs opt).nodes →
      (graph_build_rdepends st pkgs opt).idx[0]? =
        some ((graph_build_rdepends st pkgs opt).nodes : Int)) ∧
    (∀ u, u + 1 < (graph_build_rdepends st pkgs opt).nodes →
      ∃ x : Nat, (graph_build_rdepends st pkgs opt).idx[u]? = some (x : Int) ∧
        (graph_build_rdepends st pkgs opt).idx[u + 1]? =
          some ((x + (neighbors (graph_build_rdepends st pkgs opt) u).length + 1 : Nat) : Int)) ∧
    (∀ u, u < (graph_build_rdepends st pkgs opt).nodes →
      (graph_build_rdepends st pkgs opt).idx[
        graph_edges_from (graph_build_rdepends st pkgs opt) u +
          (neighbors (graph_build_rdepends st pkgs opt) u).length]? = some (-1)) ∧
    (layout_rows pkgs.length 0 (build_uniq st pkgs opt)
      (graph_alloc pkgs.length (build_uniq st pkgs opt).length).idx pkgs.length).1 = [] ∧
    (layout_rows pkgs.length 0 (build_uniq st pkgs opt)
      (graph_alloc pkgs.length (build_uniq st pkgs opt).length).idx pkgs.length).2.2 =
        2 * (graph_build_rdepends st pkgs opt).nodes +
          (graph_build_rdepends st pkgs opt).edges ∧
    ∀ T : List Int,
      (layout_rows pkgs.length 0 (build_uniq st pkgs opt)
        ((graph_alloc pkgs.length (build_uniq st pkgs opt).length).idx ++ T) pkgs.length).2.1 =
        (graph_build_rdepends st pkgs opt).idx ++ T := by
  have hl := spec_body_length pkgs.length 0 (build_uniq st pkgs opt) (build_uniq_le st pkgs opt)
    (build_uniq_bounds st pkgs opt)
  have hend := layout_rows_end pkgs.length 0 (build_uniq st pkgs opt)
    (graph_alloc pkgs.length (build_uniq st pkgs opt).length).idx pkgs.length
    (build_uniq_le st pkgs opt) (build_uniq_bounds st pkgs opt)
  rw [build_nodes, build_edges_count]
  refine ⟨rfl, build_uniq_dedup st pkgs opt, rfl, ?_, ?_, ?_, ?_, hend.1, ?_,
    build_idx_frame st pkgs opt⟩
  · rw [build_idx_exact, List.length_append, spec_ptrs_length, hl]
    omega
  · intro h
    rw [build_idx_exact, List.getElem?_append_left (by rw [spec_ptrs_length]; exact h)]
    exact spec_ptrs_head _ _ _ _ h
  · intro u hu
    obtain ⟨x, h1, h2⟩ := spec_ptrs_next pkgs.length 0 (build_uniq st pkgs opt) pkgs.length u hu
    refine ⟨x, ?_, ?_⟩
    · rw [build_idx_exact, List.getElem?_append_left (by rw [spec_ptrs_length]; omega)]
      exact h1
    · rw [build_idx_exact, List.getElem?_append_left (by rw [spec_ptrs_length]; omega), h2,
        build_degree st pkgs opt u (by omega)]
  · intro u hu
    exact (build_neighbors st pkgs opt u hu).2.2
  · rw [hend.2]
    omega

/-- Witness for `layout_exact`: the graph of the two-package store with a mutual dependency
has the array `[2, 4, 1, -1, 0, -1]`. -/
theorem layout_exact_witness :
    (graph_build_rdepends example_store [10, 20] false).idx = [2, 4, 1, -1, 0, -1] ∧
    0 < (graph_build_rdepends example_store [10, 20] false).nodes ∧
    (graph_build_rdepends example_store [10, 20] false).idx[0]? =
      some ((graph_build_rdepends example_store [10, 20] false).nodes : Int) ∧
    0 + 1 < (graph_build_rdepends example_store [10, 20] false).nodes ∧
    (∃ x : Nat, (graph_build_rdepends example_store [10, 20] false).idx[0]? = some (x : Int) ∧
      (graph_build_rdepends example_store [10, 20] false).idx[0 + 1]? =
        some ((x + (neighbors (graph_build_rdepends example_store [10, 20] false) 0).length + 1 :
          Nat) : Int)) :=
  ⟨by decide, by decide,
    (layout_exact example_store [10, 20] false).2.2.2.2.1 (by decide), by decide,
    (layout_exact example_store [10, 20] false).2.2.2.2.2.1 0 (by decide)⟩

/-! ## The candidate list of `append_edges` -/

theorem append_edges_one_some (st : pkg_store) (v : Nat) (pkgs : List Nat) (dep fst : Nat)
    (edges : List edge_t) (copy : List Nat) (h : alpm_find_satisfier st copy dep = some fst) :
    (append_edges st edges v [dep] pkgs copy).2 = fst :: copy.erase fst := by
  simp only [append_edges, h]
  cases h2 : alpm_find_satisfier st (copy.erase fst) dep with
  | none =>
    simp only []
    split_ifs <;> rfl
  | some snd => rfl

theorem append_edges_one_none (st : pkg_store) (v : Nat) (pkgs : List Nat) (dep : Nat)
    (edges : List edge_t) (copy : List Nat) (h : alpm_find_satisfier st copy dep = none) :
    append_edges st edges v [dep] pkgs copy = (edges, copy) := by
  simp only [append_edges, h]

theorem append_edges_perm (st : pkg_store) (v : Nat) (pkgs : List Nat) (deps : List Nat) :
    ∀ (edges : List edge_t) (copy : List Nat), copy.Perm pkgs →
      (append_edges st edges v deps pkgs copy).2.Perm pkgs := by
  induction deps with
  | nil => intro edges copy h; exact h
  | cons dep rest ih =>
    intro edges copy h
    rw [append_edges_cons]
    apply ih
    cases hf : alpm_find_satisfier st copy dep with
    | none => rw [append_edges_one_none st v pkgs dep edges copy hf]; exact h
    | some fst =>
      rw [append_edges_one_some st v pkgs dep fst edges copy hf]
      exact (List.perm_cons_erase (find_some st copy dep fst hf).1).symm.trans h

theorem build_edges_perm (st : pkg_store) (opt : Bool) (pkgs : List Nat) (it : List Nat) :
    ∀ (i : Nat) (edges : List edge_t) (copy : List Nat), copy.Perm pkgs →
      (build_edges st opt pkgs it i edges copy).2.Perm pkgs := by
  induction it with
  | nil => intro i edges copy h; exact h
  | cons pkg rest ih =>
    intro i edges copy h
    unfold build_edges
    apply ih
    have h1 := append_edges_perm st i pkgs (st.depends pkg) edges copy h
    cases opt with
    | false => exact h1
    | true => exact append_edges_perm st i pkgs (st.optdepends pkg) _ _ h1

/-- Claim C17. Processing one constraint in `append_edges` leaves the candidate list unchanged
when the constraint has no satisfier, and otherwise turns it into the first satisfier `fst`
followed by the previous list without `fst` (its other entries in unchanged order), whether or
not a second satisfier exists. Processing a constraint list is processing its first constraint
and then the rest. Hence, started from a rearrangement of the installed list, the candidate list
is a rearrangement of the installed list after any number of constraints and packages, and holds
every package exactly once when the installed list has no repetition. -/
theorem candidate_list (st : pkg_store) (v : Nat) (pkgs : List Nat) (edges : List edge_t)
    (copy : List Nat) (hp : copy.Perm pkgs) :
    (∀ dep, alpm_find_satisfier st copy dep = none →
      (append_edges st edges v [dep] pkgs copy).2 = copy) ∧
    (∀ dep fst, alpm_find_satisfier st copy dep = some fst →
      (append_edges st edges v [dep] pkgs copy).2 = fst :: copy.erase fst ∧
      (copy.Nodup → copy.erase fst = copy.filter (fun p => p != fst))) ∧
    (∀ dep rest, append_edges st edges v (dep :: rest) pkgs copy =
      append_edges st (append_edges st edges v [dep] pkgs copy).1 v rest pkgs
        (append_edges st edges v [dep] pkgs copy).2) ∧
    (∀ deps, (append_edges st edges v deps pkgs copy).2.Perm pkgs ∧
      (pkgs.Nodup → ∀ p ∈ pkgs, (append_edges st edges v deps pkgs copy).2.count p = 1)) ∧
    (∀ opt it i, (build_edges st opt pkgs it i edges copy).2.Perm pkgs ∧
      (pkgs.Nodup → ∀ p ∈ pkgs, (build_edges st opt pkgs it i edges copy).2.count p = 1)) := by
  refine ⟨?_, ?_, ?_, ?_, ?_⟩
  · intro dep h
    rw [append_edges_one_none st v pkgs dep edges copy h]
  · intro dep fst h
    refine ⟨append_edges_one_some st v pkgs dep fst edges copy h, ?_⟩
    intro hnd
    exact hnd.erase_eq_filter fst
  · intro dep rest
    exact append_edges_cons st v pkgs dep rest edges copy
  · intro deps
    have h := append_edges_perm st v pkgs deps edges copy hp
    refine ⟨h, ?_⟩
    intro hnd p hpm
    rw [h.count_eq]
    exact List.count_eq_one_of_mem hnd hpm
  · intro opt it i
    have h := build_edges_perm st opt pkgs it i edges copy hp
    refine ⟨h, ?_⟩
    intro hnd p hpm
    rw [h.count_eq]
    exact List.count_eq_one_of_mem hnd hpm

/-- Witness for `candidate_list`: in the two-package store the constraint `100` moves its
satisfier `20` to the front of the candidate list. -/
theorem candidate_list_witness :
    ([10, 20] : List Nat).Perm [10, 20] ∧
    alpm_find_satisfier example_store [10, 20] 100 = some 20 ∧
    (append_edges example_store [] 0 [100] [10, 20] [10, 20]).2 = [20, 10] :=
  ⟨List.Perm.refl _, rfl,
    ((candidate_list example_store 0 [10, 20] [] [10, 20] (List.Perm.refl _)).2.1 100 20
      rfl).1⟩

/-! ## The bitmap as a set of indices -/

theorem bitmap_run_snoc (len : Nat) (ops : List bitmap_op) (op : bitmap_op) :
    bitmap_run len (ops ++ [op]) = bitmap_apply len (bitmap_run len ops) op := by
  unfold bitmap_run
  rw [List.foldl_append]
  rfl

theorem is_set_snoc (ops : List bitmap_op) (op : bitmap_op) (k : Nat) :
    is_set (ops ++ [op]) k = set_latest (op :: ops.reverse) k := by
  unfold is_set
  rw [List.reverse_append]
  rfl

theorem bm_bit_of_zero (bm : List Nat) (h : ∀ w ∈ bm, w = 0) (k : Nat) : bm_bit bm k = false :=
  (bits_zero_iff bm (bm_ok_of_zero bm h)).mp h k

theorem length_bitmap_new (len : Nat) : (bitmap_new len).length = bitmap_end len := by
  simp [bitmap_new]

theorem bitmap_run_spec (len : Nat) (ops : List bitmap_op) :
    (∀ op ∈ ops, op_in_range len op) →
      (bitmap_run len ops).length = bitmap_end len ∧ bm_ok (bitmap_run len ops) ∧
      (∀ k, bm_bit (bitmap_run len ops) k = is_set ops k) ∧
      (∀ k, len ≤ k → is_set ops k = false) := by
  induction ops using List.reverseRecOn with
  | nil =>
    intro _
    refine ⟨length_bitmap_new len, bm_ok_of_zero _ (bitmap_new_zero len), ?_, ?_⟩
    · intro k
      rw [show bitmap_run len [] = bitmap_new len from rfl,
        bm_bit_of_zero _ (bitmap_new_zero len)]
      rfl
    · intro k _; rfl
  | append_singleton ops op ih =>
    intro h
    obtain ⟨hl, hok, hbit, hge⟩ := ih (fun o ho => h o (List.mem_append_left _ ho))
    have hop := h op (List.mem_append_right _ (List.mem_singleton_self _))
    rw [bitmap_run_snoc]
    cases op with
    | setbit i =>
      have hi : i / BITS_PER_LONG < (bitmap_run len ops).length := by
        rw [hl]; exact bitmap_end_spec len i hop
      refine ⟨by rw [← hl]; exact length_setbit _ _, bm_ok_setbit _ _ hok, ?_, ?_⟩
      · intro k
        rw [is_set_snoc]
        show bm_bit (bitmap_setbit (bitmap_run len ops) i) k = _
        rw [bit_setbit _ _ _ hi, hbit]
        unfold set_latest is_set
        by_cases hik : i = k
        · simp [hik]
        · have : ¬ k = i := fun h => hik h.symm
          simp [hik, this]
      · intro k hk
        rw [is_set_snoc]
        have hop' : i < len := hop
        have : ¬ i = k := by omega
        simp only [set_latest, this, if_false]
        exact hge k hk
    | clearbit i =>
      have hi : i / BITS_PER_LONG < (bitmap_run len ops).length := by
        rw [hl]; exact bitmap_end_spec len i hop
      refine ⟨by rw [← hl]; exact length_clearbit _ _, bm_ok_clearbit _ _ hok, ?_, ?_⟩
      · intro k
        rw [is_set_snoc]
        show bm_bit (bitmap_clearbit (bitmap_run len ops) i) k = _
        rw [bit_clearbit _ _ _ hi, hbit]
        unfold set_latest is_set
        by_cases hik : i = k
        · simp [hik]
        · have : ¬ k = i := fun h => hik h.symm
          simp [hik, this]
      · intro k hk
        rw [is_set_snoc]
        have hop' : i < len := hop
        have : ¬ i = k := by omega
        simp only [set_latest, this, if_false]
        exact hge k hk
    | clear =>
      have hz := bitmap_clear_zero (bitmap_run len ops) len hl
      refine ⟨by rw [← hl]; exact length_bitmap_clear _ _, bm_ok_of_zero _ hz, ?_, ?_⟩
      · intro k
        rw [is_set_snoc]
        show bm_bit (bitmap_clear (bitmap_run len ops) len) k = _
        rw [bm_bit_of_zero _ hz]
        rfl
      · intro k _
        rw [is_set_snoc]
        rfl

/-- Claim C19. For every bitmap reached from `bitmap_new(len)` by calls of `bitmap_setbit`,
`bitmap_clearbit` (with indices below `len`) and `bitmap_clear`: every bit of the bitmap is the
membership of its index in the set described by the calls (`is_set`: the latest call on the
index is a `setbit` with no later `clearbit` of it or `clear`), `bitmap_empty` returns true
exactly when no index below `len` is set, `bitmap_new` and `bitmap_clear` give an empty set, and
`setbit`/`clearbit` on `i` set/clear bit `i` and leave every other bit as it was. -/
theorem bitmap_set_semantics (len : Nat) (ops : List bitmap_op)
    (h : ∀ op ∈ ops, op_in_range len op) :
    (bitmap_empty (bitmap_run len ops) len = true ↔ ∀ k, k < len → is_set ops k = false) ∧
    (∀ k, bm_bit (bitmap_run len ops) k = is_set ops k) ∧
    bitmap_empty (bitmap_new len) len = true ∧
    bitmap_empty (bitmap_clear (bitmap_run len ops) len) len = true ∧
    (∀ i, i < len →
      bm_bit (bitmap_setbit (bitmap_run len ops) i) i = true ∧
      bm_bit (bitmap_clearbit (bitmap_run len ops) i) i = false ∧
      ∀ k, k ≠ i →
        bm_bit (bitmap_setbit (bitmap_run len ops) i) k = bm_bit (bitmap_run len ops) k ∧
        bm_bit (bitmap_clearbit (bitmap_run len ops) i) k = bm_bit (bitmap_run len ops) k) := by
  obtain ⟨hl, hok, hbit, hge⟩ := bitmap_run_spec len ops h
  refine ⟨?_, hbit, ?_, ?_, ?_⟩
  · rw [bitmap_empty_iff_zero _ _ hl, bits_zero_iff _ hok]
    constructor
    · intro hz k _
      rw [← hbit]; exact hz k
    · intro hz k
      rw [hbit]
      rcases Nat.lt_or_ge k len with hk | hk
      · exact hz k hk
      · exact hge k hk
  · rw [bitmap_empty_iff_zero _ _ (length_bitmap_new len)]
    exact bitmap_new_zero len
  · rw [bitmap_empty_iff_zero _ _ (by rw [length_bitmap_clear]; exact hl)]
    exact bitmap_clear_zero _ _ hl
  · intro i hi
    have hi' : i / BITS_PER_LONG < (bitmap_run len ops).length := by
      rw [hl]; exact bitmap_end_spec len i hi
    refine ⟨?_, ?_, ?_⟩
    · rw [bit_setbit _ _ _ hi']; simp
    · rw [bit_clearbit _ _ _ hi']; simp
    · intro k hk
      rw [bit_setbit _ _ _ hi', bit_clearbit _ _ _ hi']
      simp [hk]

/-- Witness for `bitmap_set_semantics`: a 70-bit bitmap (two words) after five calls. -/
theorem bitmap_set_semantics_witness :
    (∀ op ∈ [bitmap_op.setbit 3, bitmap_op.setbit 65, bitmap_op.clearbit 3, bitmap_op.clear,
      bitmap_op.setbit 69], op_in_range 70 op) ∧
    bitmap_run 70 [bitmap_op.setbit 3, bitmap_op.setbit 65, bitmap_op.clearbit 3,
      bitmap_op.clear, bitmap_op.setbit 69] = [0, 32] ∧
    (bitmap_empty (bitmap_run 70 [bitmap_op.setbit 3, bitmap_op.setbit 65,
        bitmap_op.clearbit 3, bitmap_op.clear, bitmap_op.setbit 69]) 70 = true ↔
      ∀ k, k < 70 → is_set [bitmap_op.setbit 3, bitmap_op.setbit 65, bitmap_op.clearbit 3,
        bitmap_op.clear, bitmap_op.setbit 69] k = false) :=
  ⟨by decide, by decide,
    (bitmap_set_semantics 70 [bitmap_op.setbit 3, bitmap_op.setbit 65, bitmap_op.clearbit 3,
      bitmap_op.clear, bitmap_op.setbit 69] (by decide)).1⟩

/-! ## Termination of the loops of `tarjan` -/

theorem tarjan_root_eq (g : graph_t) (ac : Bool) (fuel : Nat) (s : tarjan_state) (i : Nat) :
    tarjan_root g ac fuel s i =
      if s.rindex.getD i 0 ≠ 0 then some s else tarjan_while g ac fuel (tarjan_enter s i) := rfl

theorem for_pre (g : graph_t) (hg : graph_wf g) (ac : Bool) (n : Nat) :
    ∀ (i : Nat) (s : tarjan_state), BInv g ac i s → i + n ≤ g.nodes →
      ∃ s', tarjan_for g ac (tarjan_fuel g) n i s = some s' ∧ BInv g ac (i + n) s' := by
  induction n with
  | zero => intro i s hb _; exact ⟨s, rfl, hb⟩
  | succ n ih =>
    intro i s hb hin
    obtain ⟨s1, h1, h2⟩ := root_spec g hg ac i s hb (by omega)
    obtain ⟨s2, h3, h4⟩ := ih (i + 1) s1 h2 (by omega)
    refine ⟨s2, ?_, ?_⟩
    · unfold tarjan_for
      rw [h1]
      exact h3
    · have : i + (n + 1) = i + 1 + n := by omega
      rw [this]; exact h4

theorem for_reach (g : graph_t) (hg : graph_wf g) (ac : Bool) (k : Nat) (hk : k ≤ g.nodes) :
    ∃ s, tarjan_for g ac (tarjan_fuel g) k 0 (tarjan_init g) = some s ∧ BInv g ac k s := by
  obtain ⟨s, h1, h2⟩ := for_pre g hg ac k 0 (tarjan_init g) (init_inv g ac) (by omega)
  rw [Nat.zero_add] at h2
  exact ⟨s, h1, h2⟩

theorem while_iter (g : graph_t) (ac : Bool) (fuel : Nat) :
    ∀ (s s1 : tarjan_state), tarjan_while g ac fuel s = some s1 →
      ∃ n, n < fuel ∧ ∃ s', tarjan_iter g ac n s = some s' ∧
        tarjan_step g ac s' = (s1, true) := by
  induction fuel with
  | zero => intro s s1 h; simp [tarjan_while] at h
  | succ fuel ih =>
    intro s s1 h
    unfold tarjan_while at h
    cases hs : tarjan_step g ac s with
    | mk s2 b =>
      rw [hs] at h
      cases b with
      | true =>
        simp only [Option.some.injEq] at h
        subst h
        exact ⟨0, by omega, s, rfl, hs⟩
      | false =>
        simp only at h
        obtain ⟨n, hn, s', h1, h2⟩ := ih s2 s1 h
        refine ⟨n + 1, by omega, s', ?_, h2⟩
        unfold tarjan_iter
        rw [hs]
        exact h1

theorem collect_stops (g : graph_t) (uidx : Nat) (fuel : Nat) :
    ∀ (s : tarjan_state), g.nodes ≤ fuel + s.r + 1 →
      ¬ tarjan_collect_cond g uidx (tarjan_collect g uidx fuel s) ∧
      s.r < (tarjan_collect g uidx fuel s).r ∧
      (s.r < g.nodes → (tarjan_collect g uidx fuel s).r ≤ g.nodes) := by
  induction fuel with
  | zero =>
    intro s h
    have hr : (tarjan_pop_one g s).r = s.r + 1 := rfl
    unfold tarjan_collect
    refine ⟨?_, by rw [hr]; omega, fun h' => by rw [hr]; omega⟩
    unfold tarjan_collect_cond
    rw [hr]
    omega
  | succ fuel ih =>
    intro s h
    have hr : (tarjan_pop_one g s).r = s.r + 1 := rfl
    unfold tarjan_collect
    dsimp only
    split_ifs with hc
    · have h1 := ih (tarjan_pop_one g s) (by rw [hr]; omega)
      rw [hr] at h1
      refine ⟨h1.1, by omega, fun _ => h1.2.2 ?_⟩
      have := hc.1
      rw [hr] at this
      exact this
    · refine ⟨hc, by rw [hr]; omega, fun h' => by rw [hr]; omega⟩

theorem collect_fuel (g : graph_t) (uidx : Nat) (fuel : Nat) :
    ∀ (fuel' : Nat) (s : tarjan_state), g.nodes ≤ fuel + s.r + 1 → g.nodes ≤ fuel' + s.r + 1 →
      tarjan_collect g uidx fuel s = tarjan_collect g uidx fuel' s := by
  induction fuel with
  | zero =>
    intro fuel' s h h'
    have hr : (tarjan_pop_one g s).r = s.r + 1 := rfl
    cases fuel' with
    | zero => rfl
    | succ f =>
      unfold tarjan_collect
      dsimp only
      rw [if_neg]
      intro hc
      have := hc.1
      rw [hr] at this
      omega
  | succ fuel ih =>
    intro fuel' s h h'
    have hr : (tarjan_pop_one g s).r = s.r + 1 := rfl
    cases fuel' with
    | zero =>
      unfold tarjan_collect
      dsimp only
      rw [if_neg]
      intro hc
      have := hc.1
      rw [hr] at this
      omega
    | succ f =>
      unfold tarjan_collect
      dsimp only
      split_ifs with hc
      · exact ih f (tarjan_pop_one g s) (by rw [hr]; omega) (by rw [hr]; omega)
      · rfl

/-- Claim C15. On a well-formed graph and in either mode `tarjan` returns a result. For every
node `k` the outer loop reaches the iteration `i = k`, and that iteration ends with `top = 0`;
when it starts a traversal, the `while(1)` loop leaves through `break` after fewer than
`tarjan_fuel` iterations. The `do ... while` loop stops because its condition fails (the step
budget of the model plays no part), and it does so before `r` exceeds `N`. -/
theorem tarjan_terminates (g : graph_t) (hg : graph_wf g) (ac : Bool) :
    (∃ res, tarjan g ac = some res) ∧
    (∀ k, k < g.nodes → ∃ s0 s1,
      tarjan_for g ac (tarjan_fuel g) k 0 (tarjan_init g) = some s0 ∧
      tarjan_root g ac (tarjan_fuel g) s0 k = some s1 ∧ s1.top = 0 ∧
      (s0.rindex.getD k 0 = 0 → ∃ n, n < tarjan_fuel g ∧ ∃ s,
        tarjan_iter g ac n (tarjan_enter s0 k) = some s ∧ tarjan_step g ac s = (s1, true))) ∧
    (∀ (uidx fuel : Nat) (s : tarjan_state), g.nodes ≤ fuel →
      tarjan_collect g uidx fuel s = tarjan_collect g uidx g.nodes s ∧
      ¬ tarjan_collect_cond g uidx (tarjan_collect g uidx g.nodes s) ∧
      s.r < (tarjan_collect g uidx g.nodes s).r ∧
      (s.r < g.nodes → (tarjan_collect g uidx g.nodes s).r ≤ g.nodes)) := by
  refine ⟨?_, ?_, ?_⟩
  · obtain ⟨res, h, _⟩ := tarjan_spec g hg ac
    exact ⟨res, h⟩
  · intro k hk
    obtain ⟨s0, h0, hb⟩ := for_reach g hg ac k (by omega)
    obtain ⟨s1, h1, hb1⟩ := root_spec g hg ac k s0 hb hk
    refine ⟨s0, s1, h0, h1, hb1.top_zero, ?_⟩
    intro hz
    rw [tarjan_root_eq, if_neg (not_not.mpr hz)] at h1
    exact while_iter g ac _ _ _ h1
  · intro uidx fuel s hf
    exact ⟨collect_fuel g uidx fuel g.nodes s (by omega) (by omega),
      collect_stops g uidx g.nodes s (by omega)⟩

/-- Witness for `tarjan_terminates`: the four-node example graph in closed-leaf mode. -/
theorem tarjan_terminates_witness :
    graph_wf example_graph ∧
    ((∃ res, tarjan example_graph false = some res) ∧
    (∀ k, k < example_graph.nodes → ∃ s0 s1,
      tarjan_for example_graph false (tarjan_fuel example_graph) k 0
        (tarjan_init example_graph) = some s0 ∧
      tarjan_root example_graph false (tarjan_fuel example_graph) s0 k = some s1 ∧ s1.top = 0 ∧
      (s0.rindex.getD k 0 = 0 → ∃ n, n < tarjan_fuel example_graph ∧ ∃ s,
        tarjan_iter example_graph false n (tarjan_enter s0 k) = some s ∧
        tarjan_step example_graph false s = (s1, true))) ∧
    (∀ (uidx fuel : Nat) (s : tarjan_state), example_graph.nodes ≤ fuel →
      tarjan_collect example_graph uidx fuel s =
        tarjan_collect example_graph uidx example_graph.nodes s ∧
      ¬ tarjan_collect_cond example_graph uidx
        (tarjan_collect example_graph uidx example_graph.nodes s) ∧
      s.r < (tarjan_collect example_graph uidx example_graph.nodes s).r ∧
      (s.r < example_graph.nodes →
        (tarjan_collect example_graph uidx example_graph.nodes s).r ≤ example_graph.nodes))) :=
  ⟨by decide, tarjan_terminates example_graph (by decide) false⟩

/-! ## Invariants at every state of the run -/

theorem iter_inv (g : graph_t) (hg : graph_wf g) (ac : Bool) (n : Nat) :
    ∀ (s s' : tarjan_state) (a : astate), Sim g s a → AInv g ac a →
      tarjan_iter g ac n s = some s' → ∃ a', Sim g s' a' ∧ AInv g ac a' := by
  induction n with
  | zero =>
    intro s s' a hsim hinv h
    simp only [tarjan_iter, Option.some.injEq] at h
    subst h
    exact ⟨a, hsim, hinv⟩
  | succ n ih =>
    intro s s' a hsim hinv h
    obtain ⟨h1, h2, _⟩ := step_sim g hg ac s a hsim hinv.shape
    unfold tarjan_iter at h
    cases hs : tarjan_step g ac s with
    | mk s1 b =>
      rw [hs] at h h1 h2
      cases b with
      | true => simp at h
      | false =>
        simp only at h h1 h2
        exact ih s1 s' _ (h2 h1.symm) (astep_inv g hg ac a hinv h1.symm) h

theorem at_inv (g : graph_t) (hg : graph_wf g) (ac : Bool) (k n : Nat) (s : tarjan_state)
    (h : tarjan_at g ac k n = some s) : ∃ a, Sim g s a ∧ AInv g ac a := by
  unfold tarjan_at at h
  cases hf : tarjan_for g ac (tarjan_fuel g) k 0 (tarjan_init g) with
  | none => rw [hf] at h; simp at h
  | some s0 =>
    rw [hf] at h
    simp only at h
    split_ifs at h with hk
    obtain ⟨s0', h0, hb⟩ := for_reach g hg ac k (by omega)
    rw [hf] at h0
    simp only [Option.some.injEq] at h0
    subst h0
    obtain ⟨a, hsim, hinv, _, _⟩ := root_start g hg ac k s0 hb hk.1 hk.2
    exact iter_inv g hg ac n _ s a hsim hinv h

theorem at_bitmap_empty (g : graph_t) (hg : graph_wf g) (k n : Nat) (s : tarjan_state)
    (h : tarjan_at g false k n = some s) : bitmap_empty s.sccredges g.nodes = true := by
  obtain ⟨a, hsim, hinv⟩ := at_inv g hg false k n s h
  rw [bitmap_empty_iff_zero _ _ (by rw [← hsim.sccredges]; exact hinv.shape.bits_len),
    ← hsim.sccredges]
  exact hinv.out.bits_zero rfl

theorem sim_open (g : graph_t) (s : tarjan_state) (a : astate) (hsim : Sim g s a)
    (hsh : AShape g a) :
    (s.u :: s.stack.drop s.r).Nodup ∧ ∀ v ∈ s.u :: s.stack.drop s.r, v < g.nodes := by
  rw [← hsim.u, ← hsim.comp]
  constructor
  · have := hsh.nodup
    simp only [astate.opn, astate.pathN, List.cons_append] at this
    rw [List.nodup_cons] at this ⊢
    exact ⟨fun hc => this.1 (List.mem_append_right _ hc), (List.nodup_append.mp this.2).2.1⟩
  · intro v hv
    apply hsh.lt_nodes
    simp only [astate.opn, astate.pathN, List.cons_append, List.mem_cons, List.mem_append]
    rcases List.mem_cons.mp hv with h | h
    · exact Or.inl h
    · exact Or.inr (Or.inr h)

theorem collected_spec (g : graph_t) (hg : graph_wf g) (s : tarjan_state) (a : astate)
    (hsim : Sim g s a) (hsh : AShape g a) :
    tarjan_cluster g s = s.u :: (s.stack.drop s.r).takeWhile
      (fun w => decide (s.rindex.getD s.u 0 ≤ s.rindex.getD w 0)) ∧
    (tarjan_collected g s).sccredges = (tarjan_cluster g s).foldl
      (fun bm v => (nbrs g v).foldl bitmap_setbit bm) s.sccredges := by
  obtain ⟨hnd, hlt⟩ := sim_open g s a hsim hsh
  have htop := top_lt_r g s a hsim hsh
  have hr := hsim.r_le
  have hlen := hsim.stack_len
  have hr1 : s.r - 1 < s.stack.length := by omega
  have hd1 : (s.stack.set (s.r - 1) s.u).drop (s.r - 1) = s.u :: s.stack.drop s.r := by
    rw [drop_set_self _ _ _ hr1]
    congr 2
    omega
  have hc := collect_spec g hg (s.rindex.getD s.u 0) g.nodes
    { s with j := s.j + 1, r := s.r - 1, stack := s.stack.set (s.r - 1) s.u } s.u
    (s.stack.drop s.r)
    (by simpa using hlen) hd1 hnd hlt (by simp only; omega)
  have hcl : tarjan_cluster g s = s.u :: (s.stack.drop s.r).takeWhile
      (fun w => decide (s.rindex.getD s.u 0 ≤ s.rindex.getD w 0)) := by
    unfold tarjan_cluster tarjan_collected
    rw [hc]
    simp only
    rw [hd1]
    have : s.r - 1 + 1 + ((s.stack.drop s.r).takeWhile
        (fun w => decide (s.rindex.getD s.u 0 ≤ s.rindex.getD w 0))).length - (s.r - 1) =
        ((s.stack.drop s.r).takeWhile
          (fun w => decide (s.rindex.getD s.u 0 ≤ s.rindex.getD w 0))).length + 1 := by omega
    rw [this, List.take_succ_cons, take_length_takeWhile]
  refine ⟨hcl, ?_⟩
  rw [hcl]
  unfold tarjan_collected
  rw [hc]

theorem cluster_lt (g : graph_t) (hg : graph_wf g) (s : tarjan_state) (a : astate)
    (hsim : Sim g s a) (hsh : AShape g a) :
    (tarjan_cluster g s).Nodup ∧ ∀ v ∈ tarjan_cluster g s, v < g.nodes := by
  obtain ⟨hnd, hlt⟩ := sim_open g s a hsim hsh
  rw [(collected_spec g hg s a hsim hsh).1]
  have hsub : (s.u :: (s.stack.drop s.r).takeWhile
      (fun w => decide (s.rindex.getD s.u 0 ≤ s.rindex.getD w 0))).Sublist
      (s.u :: s.stack.drop s.r) :=
    List.Sublist.cons₂ _ (List.takeWhile_sublist _)
  exact ⟨hnd.sublist hsub, fun v hv => hlt v (hsub.subset hv)⟩

/-! ## The bitmap when a component is collected -/

/-- Claim C20, counterexample. In cycle mode on the four-node example graph, the iteration that
finishes node 0 enters the `do ... while` loop with bits 1 and 3 still set in the bitmap: they
were set when the component of nodes 3 and 1 was collected and are never cleared. -/
theorem bitmap_cycle_mode_counterexample :
    graph_wf example_graph ∧
    (tarjan_at example_graph true 0 5).map
      (fun s => (decide (tarjan_collects example_graph s),
        bitmap_empty s.sccredges example_graph.nodes, s.sccredges)) =
      some (true, false, [10]) := by
  decide

/-- Claim C20, amended. In closed-leaf mode on a well-formed graph the bitmap is empty at the top
of every iteration of the `while(1)` loop, in particular every time the `do ... while` loop is
entered, and right after that loop the set bits are exactly the neighbours of the collected
members. -/
theorem bitmap_empty_closed_mode (g : graph_t) (hg : graph_wf g) (k n : Nat) (s : tarjan_state)
    (h : tarjan_at g false k n = some s) :
    bitmap_empty s.sccredges g.nodes = true ∧
    (tarjan_collects g s → ∀ b,
      bm_bit (tarjan_collected g s).sccredges b = true ↔ ∃ x ∈ tarjan_cluster g s, b ∈ nbrs g x)
    := by
  obtain ⟨a, hsim, hinv⟩ := at_inv g hg false k n s h
  have hz : ∀ w ∈ s.sccredges, w = 0 := by
    rw [← hsim.sccredges]; exact hinv.out.bits_zero rfl
  have hl : s.sccredges.length = bitmap_end g.nodes := by
    rw [← hsim.sccredges]; exact hinv.shape.bits_len
  refine ⟨at_bitmap_empty g hg k n s h, ?_⟩
  intro _ b
  obtain ⟨_, hlt⟩ := cluster_lt g hg s a hsim hinv.shape
  rw [(collected_spec g hg s a hsim hinv.shape).2, foldl_nested_setbit,
    bit_foldl_setbit _ _ g.nodes hl (by
      intro w hw
      rw [List.mem_flatMap] at hw
      obtain ⟨x, hx, hwx⟩ := hw
      exact nbrs_lt g hg x (hlt x hx) w hwx) b,
    bm_bit_of_zero _ hz]
  simp [List.mem_flatMap]

/-- Witness for `bitmap_empty_closed_mode`: the example graph when node 0 is about to finish. -/
theorem bitmap_empty_closed_mode_witness :
    graph_wf example_graph ∧ tarjan_at example_graph false 0 5 = some example_state ∧
    (bitmap_empty example_state.sccredges example_graph.nodes = true ∧
    (tarjan_collects example_graph example_state → ∀ b,
      bm_bit (tarjan_collected example_graph example_state).sccredges b = true ↔
        ∃ x ∈ tarjan_cluster example_graph example_state, b ∈ nbrs example_graph x)) :=
  ⟨by decide, by decide,
    bitmap_empty_closed_mode example_graph (by decide) 0 5 example_state (by decide)⟩

/-! ## Where the reported clusters come from -/

theorem collect_frame (g : graph_t) (uidx fuel : Nat) :
    ∀ (s : tarjan_state), (tarjan_collect g uidx fuel s).sccs = s.sccs ∧
      (tarjan_collect g uidx fuel s).stack = s.stack := by
  induction fuel with
  | zero => intro s; exact ⟨rfl, rfl⟩
  | succ fuel ih =>
    intro s
    unfold tarjan_collect
    dsimp only
    split_ifs
    · exact ih (tarjan_pop_one g s)
    · exact ⟨rfl, rfl⟩

theorem finish_sccs (g : graph_t) (ac : Bool) (s : tarjan_state) :
    (tarjan_finish g ac s).sccs = s.sccs ∨
    (s.rindex.getD s.u 0 &&& 1 = 0 ∧
      (tarjan_finish g ac s).sccs = s.sccs ++
        [(((tarjan_collect g (s.rindex.getD s.u 0) g.nodes
            { s with r := s.r - 1, stack := s.stack.set (s.r - 1) s.u }).stack.drop
              (s.r - 1)).take
          ((tarjan_collect g (s.rindex.getD s.u 0) g.nodes
            { s with r := s.r - 1, stack := s.stack.set (s.r - 1) s.u }).r - (s.r - 1))).map
          Int.ofNat ++ [-1]]) := by
  have hf := collect_frame g (s.rindex.getD s.u 0) g.nodes
    { s with r := s.r - 1, stack := s.stack.set (s.r - 1) s.u }
  unfold tarjan_finish
  dsimp only
  split_ifs with h1 h2 h3 h4
  · right
    refine ⟨h1, ?_⟩
    simp only [append_scc, hf.1]
  · left; exact hf.1
  · right
    refine ⟨h1, ?_⟩
    simp only [append_scc, hf.1]
  · left; exact hf.1
  · left; rfl

theorem step_sccs (g : graph_t) (ac : Bool) (s : tarjan_state) :
    (tarjan_step g ac s).1.sccs = s.sccs ∨
    (tarjan_collects g s ∧
      (tarjan_step g ac s).1.sccs = s.sccs ++ [(tarjan_cluster g s).map Int.ofNat ++ [-1]]) := by
  by_cases hv : 0 ≤ g.idx.getD (graph_edges_from g s.u + s.j) (-1)
  · left
    unfold tarjan_step
    simp only [hv, if_true]
    split_ifs <;> rfl
  · have hstep : (tarjan_step g ac s).1.sccs =
        (tarjan_finish g ac { s with j := s.j + 1 }).sccs := by
      unfold tarjan_step
      simp only [hv, if_false]
      split_ifs <;> rfl
    rw [hstep]
    rcases finish_sccs g ac { s with j := s.j + 1 } with h | ⟨h1, h2⟩
    · left; exact h
    · right
      exact ⟨⟨by omega, h1⟩, h2⟩

theorem while_sccs (g : graph_t) (ac : Bool) (fuel : Nat) :
    ∀ (s s1 : tarjan_state), tarjan_while g ac fuel s = some s1 →
      ∀ c ∈ s1.sccs, c ∈ s.sccs ∨ ∃ n s', tarjan_iter g ac n s = some s' ∧
        tarjan_collects g s' ∧ c = (tarjan_cluster g s').map Int.ofNat ++ [-1] := by
  induction fuel with
  | zero => intro s s1 h; simp [tarjan_while] at h
  | succ fuel ih =>
    intro s s1 h c hc
    have hstep := step_sccs g ac s
    unfold tarjan_while at h
    cases hs : tarjan_step g ac s with
    | mk s2 b =>
      rw [hs] at h hstep
      simp only at hstep
      have hc2 : c ∈ s2.sccs → c ∈ s.sccs ∨ ∃ n s', tarjan_iter g ac n s = some s' ∧
          tarjan_collects g s' ∧ c = (tarjan_cluster g s').map Int.ofNat ++ [-1] := by
        intro hc2
        rcases hstep with h1 | ⟨h1, h2⟩
        · left; rw [← h1]; exact hc2
        · rw [h2, List.mem_append, List.mem_singleton] at hc2
          rcases hc2 with h3 | h3
          · left; exact h3
          · right; exact ⟨0, s, rfl, h1, h3⟩
      cases b with
      | true =>
        simp only [Option.some.injEq] at h
        subst h
        exact hc2 hc
      | false =>
        simp only at h
        rcases ih s2 s1 h c hc with h1 | ⟨n, s', h1, h2, h3⟩
        · exact hc2 h1
        · right
          refine ⟨n + 1, s', ?_, h2, h3⟩
          unfold tarjan_iter
          rw [hs]
          exact h1

theorem for_snoc (g : graph_t) (ac : Bool) (fuel n : Nat) :
    ∀ (i : Nat) (s : tarjan_state),
      tarjan_for g ac fuel (n + 1) i s =
        (tarjan_for g ac fuel n i s).bind (fun s1 => tarjan_root g ac fuel s1 (i + n)) := by
  induction n with
  | zero =>
    intro i s
    simp only [tarjan_for, Nat.add_zero, Option.some_bind]
    cases tarjan_root g ac fuel s i <;> rfl
  | succ n ih =>
    intro i s
    rw [tarjan_for]
    cases h : tarjan_root g ac fuel s i with
    | none =>
      simp only [tarjan_for, h, Option.none_bind]
    | some s1 =>
      simp only
      rw [ih (i + 1) s1]
      have : i + 1 + n = i + (n + 1) := by omega
      rw [this]
      conv_rhs => rw [tarjan_for, h]

theorem for_sccs (g : graph_t) (ac : Bool) (n : Nat) :
    ∀ (i : Nat) (s s' : tarjan_state), i + n ≤ g.nodes →
      tarjan_for g ac (tarjan_fuel g) i 0 (tarjan_init g) = some s →
      tarjan_for g ac (tarjan_fuel g) n i s = some s' →
      ∀ c ∈ s'.sccs, c ∈ s.sccs ∨ ∃ k m st, tarjan_at g ac k m = some st ∧
        tarjan_collects g st ∧ c = (tarjan_cluster g st).map Int.ofNat ++ [-1] := by
  induction n with
  | zero =>
    intro i s s' _ _ h c hc
    simp only [tarjan_for, Option.some.injEq] at h
    subst h
    exact Or.inl hc
  | succ n ih =>
    intro i s s' hin hs h c hc
    rw [tarjan_for] at h
    cases hr : tarjan_root g ac (tarjan_fuel g) s i with
    | none => rw [hr] at h; simp at h
    | some s1 =>
      rw [hr] at h
      simp only at h
      have hs1 : tarjan_for g ac (tarjan_fuel g) (i + 1) 0 (tarjan_init g) = some s1 := by
        rw [for_snoc, hs, Option.some_bind, Nat.zero_add]
        exact hr
      rcases ih (i + 1) s1 s' (by omega) hs1 h c hc with h1 | h1
      · rw [tarjan_root_eq] at hr
        split_ifs at hr with h0
        · simp only [Option.some.injEq] at hr
          subst hr
          exact Or.inl h1
        · rcases while_sccs g ac _ _ _ hr c h1 with h2 | ⟨m, st, h2, h3, h4⟩
          · exact Or.inl h2
          · right
            refine ⟨i, m, st, ?_, h3, h4⟩
            unfold tarjan_at
            rw [hs]
            simp only
            rw [if_pos ⟨by omega, not_not.mp h0⟩]
            exact h2
      · exact Or.inr h1

theorem tarjan_sccs (g : graph_t) (ac : Bool) (res : List (List Int))
    (h : tarjan g ac = some res) :
    ∀ c ∈ res, ∃ k m st, tarjan_at g ac k m = some st ∧
      tarjan_collects g st ∧ c = (tarjan_cluster g st).map Int.ofNat ++ [-1] := by
  intro c hc
  unfold tarjan at h
  cases hf : tarjan_for g ac (tarjan_fuel g) g.nodes 0 (tarjan_init g) with
  | none => rw [hf] at h; simp at h
  | some s' =>
    rw [hf] at h
    simp only [Option.map_some', Option.some.injEq] at h
    subst h
    rcases for_sccs g ac g.nodes 0 (tarjan_init g) s' (by omega) rfl hf c hc with h1 | h1
    · exact absurd h1 (List.not_mem_nil _)
    · exact h1

/-! ## Order of the members of a cluster -/

theorem iter_succ (g : graph_t) (ac : Bool) (n : Nat) :
    ∀ (s0 s' : tarjan_state), tarjan_iter g ac (n + 1) s0 = some s' →
      ∃ s, tarjan_iter g ac n s0 = some s ∧ tarjan_step g ac s = (s', false) := by
  induction n with
  | zero =>
    intro s0 s' h
    unfold tarjan_iter at h
    cases hs : tarjan_step g ac s0 with
    | mk s1 b =>
      rw [hs] at h
      cases b with
      | true => simp at h
      | false =>
        simp only [tarjan_iter, Option.some.injEq] at h
        subst h
        exact ⟨s0, rfl, hs⟩
  | succ n ih =>
    intro s0 s' h
    rw [tarjan_iter] at h
    cases hs : tarjan_step g ac s0 with
    | mk s1 b =>
      rw [hs] at h
      cases b with
      | true => simp at h
      | false =>
        simp only at h
        obtain ⟨s, h1, h2⟩ := ih s1 s' h
        refine ⟨s, ?_, h2⟩
        rw [tarjan_iter, hs]
        exact h1

theorem at_succ (g : graph_t) (ac : Bool) (k n : Nat) (s' : tarjan_state)
    (h : tarjan_at g ac k (n + 1) = some s') :
    ∃ s, tarjan_at g ac k n = some s ∧ tarjan_step g ac s = (s', false) := by
  unfold tarjan_at at h ⊢
  cases hf : tarjan_for g ac (tarjan_fuel g) k 0 (tarjan_init g) with
  | none => rw [hf] at h; simp at h
  | some s0 =>
    rw [hf] at h
    simp only at h ⊢
    split_ifs at h ⊢ with hk
    exact iter_succ g ac n _ s' h

theorem step_comp (g : graph_t) (hg : graph_wf g) (ac : Bool) (s s' : tarjan_state) (a : astate)
    (hsim : Sim g s a) (hinv : AInv g ac a) (hs : tarjan_step g ac s = (s', false)) :
    s'.stack.drop s'.r = s.stack.drop s.r ∨
    (g.idx.getD (graph_edges_from g s.u + s.j) (-1) < 0 ∧ s.rindex.getD s.u 0 % 2 = 1 ∧
      s'.stack.drop s'.r = s.u :: s.stack.drop s.r) ∨
    (tarjan_collects g s ∧
      s'.stack.drop s'.r = (s.stack.drop s.r).dropWhile
        (fun w => decide (s.rindex.getD s.u 0 ≤ s.rindex.getD w 0))) := by
  obtain ⟨h1, h2, _⟩ := step_sim g hg ac s a hsim hinv.shape
  rw [hs] at h1 h2
  simp only at h1 h2
  have hsim' := h2 h1.symm
  have hcomp := hsim'.comp
  have hneg : a.j = (nbrs g a.u).length →
      g.idx.getD (graph_edges_from g s.u + s.j) (-1) < 0 := by
    intro hj
    rw [← hsim.u, ← hsim.j, hj]
    exact read_end g hg a.u (cur_lt_nodes g a hinv.shape)
  have hrix : a.rix a.u = s.rindex.getD s.u 0 := by
    unfold astate.rix
    rw [hsim.rindex, hsim.u]
  rw [← hcomp, ← hsim.comp]
  rcases astep_cases g hg ac a hinv with
    ⟨b, _, _, _, heq⟩ | ⟨b, _, _, _, _, heq⟩ | ⟨b, _, _, _, _, heq⟩ |
    ⟨p, jp, rest, hj, hodd, _, _, heq⟩ | ⟨p, jp, rest, hj, hodd, _, _, heq⟩ |
    ⟨p, jp, rest, hj, hroot, _, heq⟩ | ⟨_, _, _, heq⟩
  · left; rw [heq]; rfl
  · left; rw [heq]; rfl
  · left; rw [heq]; rfl
  · right; left
    refine ⟨hneg hj, by rw [← hrix]; exact hodd, ?_⟩
    rw [heq, ← hsim.u]; rfl
  · right; left
    refine ⟨hneg hj, by rw [← hrix]; exact hodd, ?_⟩
    rw [heq, ← hsim.u]; rfl
  · right; right
    refine ⟨⟨hneg hj, ?_⟩, ?_⟩
    · rw [← hrix, Nat.and_one_is_mod]; exact hroot
    · rw [heq, ← hsim.u, ← hsim.rindex]; rfl
  · rw [heq] at h1
    simp at h1

/-- Claim C18, counterexample. On the three-node graph with edges 0 → 1, 0 → 2, 1 → 0, 2 → 0
the traversal from node 0 discovers node 1 first (after one iteration node 1 has marker 4 and
node 2 is still unvisited), but the reported cluster lists node 2 before node 1. -/
theorem discovery_order_counterexample :
    graph_wf example_fork ∧
    tarjan example_fork false = some [[0, 2, 1, -1]] ∧
    tarjan example_fork true = some [[0, 2, 1, -1]] ∧
    (tarjan_at example_fork false 0 1).map (fun s => (s.rindex.getD 1 0, s.rindex.getD 2 0)) =
      some (4, 0) := by
  decide

/-- Claim C18, amended. On a well-formed graph and in either mode, every cluster returned by
`tarjan` is appended by an iteration of the `while(1)` loop that finishes a node `u` with an even
marker, and lists `u` first, then the leading entries of the completion stack `stack[r..N)` in
stack order, each member once, followed by `-1`. The completion stack changes only at its top:
a finished node that is not a root is pushed in front, and collecting a component pops the
entries taken for it; so the members after `u` are listed from the most recently finished to
the least recently finished. -/
theorem cluster_order (g : graph_t) (hg : graph_wf g) (ac : Bool) :
    (∃ res, tarjan g ac = some res ∧
      ∀ c ∈ res, ∃ k n s, tarjan_at g ac k n = some s ∧ tarjan_collects g s ∧
        c = (s.u :: (s.stack.drop s.r).takeWhile
          (fun w => decide (s.rindex.getD s.u 0 ≤ s.rindex.getD w 0))).map Int.ofNat ++ [-1] ∧
        (scc_members c).Nodup) ∧
    (∀ k n s s', tarjan_at g ac k n = some s → tarjan_at g ac k (n + 1) = some s' →
      s'.stack.drop s'.r = s.stack.drop s.r ∨
      (g.idx.getD (graph_edges_from g s.u + s.j) (-1) < 0 ∧ s.rindex.getD s.u 0 % 2 = 1 ∧
        s'.stack.drop s'.r = s.u :: s.stack.drop s.r) ∨
      (tarjan_collects g s ∧
        s'.stack.drop s'.r = (s.stack.drop s.r).dropWhile
          (fun w => decide (s.rindex.getD s.u 0 ≤ s.rindex.getD w 0)))) := by
  constructor
  · obtain ⟨res, hres, _⟩ := tarjan_spec g hg ac
    refine ⟨res, hres, ?_⟩
    intro c hc
    obtain ⟨k, n, s, h1, h2, h3⟩ := tarjan_sccs g ac res hres c hc
    obtain ⟨a, hsim, hinv⟩ := at_inv g hg ac k n s h1
    refine ⟨k, n, s, h1, h2, ?_, ?_⟩
    · rw [h3, (collected_spec g hg s a hsim hinv.shape).1]
    · rw [h3, scc_members_enc]
      exact (cluster_lt g hg s a hsim hinv.shape).1
  · intro k n s s' h1 h2
    obtain ⟨s2, h3, h4⟩ := at_succ g ac k n s' h2
    rw [h1] at h3
    simp only [Option.some.injEq] at h3
    subst h3
    obtain ⟨a, hsim, hinv⟩ := at_inv g hg ac k n s h1
    exact step_comp g hg ac s s' a hsim hinv h4

/-- Witness for `cluster_order`: the three-node graph of the counterexample. -/
theorem cluster_order_witness :
    graph_wf example_fork ∧
    tarjan_at example_fork false 0 6 = some example_fork_state ∧
    tarjan_collects example_fork example_fork_state ∧
    ((∃ res, tarjan example_fork false = some res ∧
      ∀ c ∈ res, ∃ k n s, tarjan_at example_fork false k n = some s ∧
        tarjan_collects example_fork s ∧
        c = (s.u :: (s.stack.drop s.r).takeWhile
          (fun w => decide (s.rindex.getD s.u 0 ≤ s.rindex.getD w 0))).map Int.ofNat ++ [-1] ∧
        (scc_members c).Nodup) ∧
    (∀ k n s s', tarjan_at example_fork false k n = some s →
      tarjan_at example_fork false k (n + 1) = some s' →
      s'.stack.drop s'.r = s.stack.drop s.r ∨
      (example_fork.idx.getD (graph_edges_from example_fork s.u + s.j) (-1) < 0 ∧
        s.rindex.getD s.u 0 % 2 = 1 ∧
        s'.stack.drop s'.r = s.u :: s.stack.drop s.r) ∨
      (tarjan_collects example_fork s ∧
        s'.stack.drop s'.r = (s.stack.drop s.r).dropWhile
          (fun w => decide (s.rindex.getD s.u 0 ≤ s.rindex.getD w 0))))) :=
  ⟨by decide, by decide, by decide, cluster_order example_fork (by decide) false⟩

/-! ## Every array access of `tarjan` is in range -/

theorem array_read_some (a : List Nat) (i : Nat) (h : i < a.length) :
    array_read a i = some (a.getD i 0) := by
  unfold array_read
  rw [List.getD_eq_getElem?_getD, List.getElem?_eq_getElem h]
  rfl

theorem array_write_some (a : List Nat) (i x : Nat) (h : i < a.length) :
    array_write a i x = some (a.set i x) := by
  unfold array_write
  rw [if_pos h]

theorem setbit_chk (bm : List Nat) (i : Nat) (h : i / BITS_PER_LONG < bm.length) :
    bitmap_setbit_chk bm i = some (bitmap_setbit bm i) := by
  unfold bitmap_setbit_chk bitmap_setbit
  rw [array_read_some _ _ h]
  simp only [Option.bind_eq_bind, Option.some_bind]
  rw [array_write_some _ _ _ h]

theorem clearbit_chk (bm : List Nat) (i : Nat) (h : i / BITS_PER_LONG < bm.length) :
    bitmap_clearbit_chk bm i = some (bitmap_clearbit bm i) := by
  unfold bitmap_clearbit_chk bitmap_clearbit
  rw [array_read_some _ _ h]
  simp only [Option.bind_eq_bind, Option.some_bind]
  rw [array_write_some _ _ _ h]

theorem empty_from_chk (bm : List Nat) (n : Nat) :
    ∀ i, i + n ≤ bm.length →
      bitmap_empty_from bm n i =
        some ((List.range' i n).all (fun k => bm.getD k 0 == 0)) := by
  induction n with
  | zero => intro i _; rfl
  | succ n ih =>
    intro i h
    unfold bitmap_empty_from
    rw [array_read_some _ _ (by omega)]
    simp only [Option.bind_eq_bind, Option.some_bind]
    rw [List.range'_succ, List.all_cons]
    by_cases hw : bm.getD i 0 = 0
    · rw [if_neg (not_not.mpr hw), ih (i + 1) (by omega), hw]
      rfl
    · rw [if_pos hw]
      have : (bm.getD i 0 == 0) = false := by simpa using hw
      rw [this]
      rfl

theorem empty_chk (bm : List Nat) (len : Nat) (h : bm.length = bitmap_end len) :
    bitmap_empty_chk bm len = some (bitmap_empty bm len) := by
  unfold bitmap_empty_chk bitmap_empty
  rw [empty_from_chk bm (bitmap_end len) 0 (by omega), List.range_eq_range']

theorem clear_chk (bm : List Nat) (len : Nat) (h : bm.length = bitmap_end len) :
    bitmap_clear_chk bm len = some (bitmap_clear bm len) := by
  unfold bitmap_clear_chk
  rw [if_pos (by omega)]

theorem mark_edges_chk_drop (g : graph_t) (hg : graph_wf g) (v : Nat) (hv : v < g.nodes)
    (fuel : Nat) :
    ∀ (k : Nat) (bm : List Nat), k ≤ (nbrs g v).length → bm.length = bitmap_end g.nodes →
      tarjan_mark_edges_chk g fuel (graph_edges_from g v + k) bm =
        some (tarjan_mark_edges g fuel (graph_edges_from g v + k) bm) := by
  induction fuel with
  | zero => intro k bm _ _; rfl
  | succ fuel ih =>
    intro k bm hk hl
    unfold tarjan_mark_edges_chk tarjan_mark_edges
    by_cases h0 : 0 ≤ g.idx.getD (graph_edges_from g v + k) (-1)
    · have hlt := read_nonneg g hg v k hv hk h0
      obtain ⟨b, hb1, hb2⟩ := read_lt g v k hlt
      have hbn : b < g.nodes := nbrs_lt g hg v hv b (mem_of_getElem?_some _ _ _ hb1)
      simp only [h0, if_true, hb2, Int.toNat_ofNat]
      rw [setbit_chk _ _ (by rw [hl]; exact bitmap_end_spec _ _ hbn)]
      simp only [Option.bind_eq_bind, Option.some_bind]
      rw [Nat.add_assoc]
      exact ih (k + 1) _ (by omega) (by rw [length_setbit]; exact hl)
    · simp only [h0, if_false]

theorem mark_edges_chk (g : graph_t) (hg : graph_wf g) (v : Nat) (hv : v < g.nodes)
    (bm : List Nat) (hl : bm.length = bitmap_end g.nodes) :
    tarjan_mark_edges_chk g (g.idx.length + 1) (graph_edges_from g v) bm =
      some (tarjan_mark_edges g (g.idx.length + 1) (graph_edges_from g v) bm) := by
  have h := mark_edges_chk_drop g hg v hv (g.idx.length + 1) 0 bm (Nat.zero_le _) hl
  simpa using h

theorem pop_one_chk (g : graph_t) (hg : graph_wf g) (s : tarjan_state)
    (hr : s.r < s.stack.length) (hv : s.stack.getD s.r 0 < g.nodes)
    (hri : s.rindex.length = g.nodes) (hl : s.sccredges.length = bitmap_end g.nodes) :
    tarjan_pop_one_chk g s = some (tarjan_pop_one g s) := by
  unfold tarjan_pop_one_chk tarjan_pop_one
  rw [array_read_some _ _ hr]
  simp only [Option.bind_eq_bind, Option.some_bind]
  rw [array_write_some _ _ _ (by rw [hri]; exact hv)]
  simp only [Option.some_bind]
  rw [mark_edges_chk g hg _ hv _ hl]
  simp only [Option.some_bind]

theorem pop_one_frame (g : graph_t) (hg : graph_wf g) (s : tarjan_state)
    (hv : s.stack.getD s.r 0 < g.nodes) :
    (tarjan_pop_one g s).stack = s.stack ∧ (tarjan_pop_one g s).r = s.r + 1 ∧
    (tarjan_pop_one g s).rindex.length = s.rindex.length ∧
    (tarjan_pop_one g s).sccredges.length = s.sccredges.length := by
  refine ⟨rfl, rfl, ?_, ?_⟩
  · simp [tarjan_pop_one]
  · unfold tarjan_pop_one
    simp only
    rw [mark_edges_spec g hg _ hv, length_foldl_setbit]

theorem getD_mem_drop (l : List Nat) (k j : Nat) (hk : k ≤ j) (hj : j < l.length) :
    l.getD j 0 ∈ l.drop k := by
  rw [List.getD_eq_getElem?_getD, List.getElem?_eq_getElem hj]
  simp only [Option.getD_some]
  rw [List.mem_iff_getElem]
  refine ⟨j - k, by rw [List.length_drop]; omega, ?_⟩
  rw [List.getElem_drop]
  congr 1
  omega

theorem collect_chk (g : graph_t) (hg : graph_wf g) (uidx fuel : Nat) :
    ∀ (s : tarjan_state) (x : Nat) (rest : List Nat),
      s.stack.length = g.nodes → s.stack.drop s.r = x :: rest →
      (∀ v ∈ x :: rest, v < g.nodes) → s.rindex.length = g.nodes →
      s.sccredges.length = bitmap_end g.nodes →
      tarjan_collect_chk g uidx fuel s = some (tarjan_collect g uidx fuel s) ∧
      (tarjan_collect g uidx fuel s).rindex.length = g.nodes ∧
      (tarjan_collect g uidx fuel s).sccredges.length = bitmap_end g.nodes := by
  induction fuel with
  | zero =>
    intro s x rest hlen hdrop hlt hri hl
    obtain ⟨h1, _, h3⟩ := drop_cons_getD _ _ _ _ hdrop
    have hx : s.stack.getD s.r 0 < g.nodes := by
      rw [h1]; exact hlt x (List.mem_cons_self _ _)
    obtain ⟨_, _, f3, f4⟩ := pop_one_frame g hg s hx
    unfold tarjan_collect_chk tarjan_collect
    exact ⟨pop_one_chk g hg s h3 hx hri hl, by rw [f3]; exact hri, by rw [f4]; exact hl⟩
  | succ fuel ih =>
    intro s x rest hlen hdrop hlt hri hl
    obtain ⟨h1, h2, h3⟩ := drop_cons_getD _ _ _ _ hdrop
    have hx : s.stack.getD s.r 0 < g.nodes := by
      rw [h1]; exact hlt x (List.mem_cons_self _ _)
    obtain ⟨f1, f2, f3, f4⟩ := pop_one_frame g hg s hx
    unfold tarjan_collect_chk tarjan_collect
    rw [pop_one_chk g hg s h3 hx hri hl]
    simp only [Option.bind_eq_bind, Option.some_bind]
    by_cases hr : (tarjan_pop_one g s).r < g.nodes
    · have hr' : (tarjan_pop_one g s).r < (tarjan_pop_one g s).stack.length := by
        rw [f1, hlen]; exact hr
      have hdrop' : (tarjan_pop_one g s).stack.drop (tarjan_pop_one g s).r = rest := by
        rw [f1, f2]; exact h2
      have hy : (tarjan_pop_one g s).stack.getD (tarjan_pop_one g s).r 0 ∈ rest := by
        rw [← hdrop']
        exact getD_mem_drop _ _ _ (Nat.le_refl _) hr'
      have hyn := hlt _ (List.mem_cons_of_mem _ hy)
      rw [if_pos hr, array_read_some _ _ hr']
      simp only [Option.some_bind]
      rw [array_read_some _ _ (by rw [f3, hri]; exact hyn)]
      simp only [Option.some_bind, hr, true_and]
      cases rest with
      | nil => exact absurd hy (List.not_mem_nil _)
      | cons y rest' =>
        split_ifs
        · exact ih (tarjan_pop_one g s) y rest' (by rw [f1]; exact hlen) hdrop'
            (fun v hv => hlt v (List.mem_cons_of_mem _ hv)) (by rw [f3]; exact hri)
            (by rw [f4]; exact hl)
        · exact ⟨rfl, by rw [f3]; exact hri, by rw [f4]; exact hl⟩
    · rw [if_neg hr]
      simp only [hr, false_and, if_false]
      exact ⟨trivial, by rw [f3]; exact hri, by rw [f4]; exact hl⟩

theorem clear_fold_chk (stack : List Nat) (n : Nat) (l : List Nat) :
    ∀ (bm : List Nat), (∀ j ∈ l, j < stack.length ∧ stack.getD j 0 < n) →
      bm.length = bitmap_end n →
      l.foldlM (fun bm j => do
          let v ← array_read stack j
          bitmap_clearbit_chk bm v) bm =
        some (l.foldl (fun bm j => bitmap_clearbit bm (stack.getD j 0)) bm) ∧
      (l.foldl (fun bm j => bitmap_clearbit bm (stack.getD j 0)) bm).length = bitmap_end n := by
  induction l with
  | nil => intro bm _ hl; exact ⟨rfl, hl⟩
  | cons j rest ih =>
    intro bm h hl
    obtain ⟨hj1, hj2⟩ := h j (List.mem_cons_self _ _)
    rw [List.foldlM_cons, List.foldl_cons, array_read_some _ _ hj1]
    simp only [Option.bind_eq_bind, Option.some_bind]
    rw [clearbit_chk _ _ (by rw [hl]; exact bitmap_end_spec _ _ hj2)]
    simp only [Option.some_bind]
    exact ih _ (fun k hk => h k (List.mem_cons_of_mem _ hk)) (by rw [length_clearbit]; exact hl)

theorem clear_members_chk (stack : List Nat) (n scc r : Nat) (bm : List Nat)
    (hr : r ≤ stack.length) (hlt : ∀ j, scc ≤ j → j < r → stack.getD j 0 < n)
    (hl : bm.length = bitmap_end n) :
    tarjan_clear_members_chk stack scc r bm = some (tarjan_clear_members stack scc r bm) ∧
    (tarjan_clear_members stack scc r bm).length = bitmap_end n := by
  unfold tarjan_clear_members_chk tarjan_clear_members
  apply clear_fold_chk stack n _ bm _ hl
  intro j hj
  rw [List.mem_range'_1] at hj
  exact ⟨by omega, hlt j hj.1 (by omega)⟩

theorem finish_chk (g : graph_t) (hg : graph_wf g) (ac : Bool) (s : tarjan_state)
    (hlen : s.stack.length = g.nodes) (htop : s.top < s.r) (hr : s.r ≤ g.nodes)
    (hopen : ∀ v ∈ s.u :: s.stack.drop s.r, v < g.nodes)
    (hri : s.rindex.length = g.nodes) (hl : s.sccredges.length = bitmap_end g.nodes) :
    tarjan_finish_chk g ac s = some (tarjan_finish g ac s) ∧
    (tarjan_finish g ac s).rindex.length = g.nodes := by
  have hr1 : s.r - 1 < s.stack.length := by omega
  have hd1 : (s.stack.set (s.r - 1) s.u).drop (s.r - 1) = s.u :: s.stack.drop s.r := by
    rw [drop_set_self _ _ _ hr1]
    congr 2
    omega
  have hu : s.u < g.nodes := hopen s.u (List.mem_cons_self _ _)
  obtain ⟨c1, c2, c3⟩ := collect_chk g hg (s.rindex.getD s.u 0) g.nodes
    { s with r := s.r - 1, stack := s.stack.set (s.r - 1) s.u } s.u (s.stack.drop s.r)
    (by simpa using hlen) hd1 hopen hri hl
  obtain ⟨_, d2, d3⟩ := collect_stops g (s.rindex.getD s.u 0) g.nodes
    { s with r := s.r - 1, stack := s.stack.set (s.r - 1) s.u } (by omega)
  obtain ⟨_, e2⟩ := collect_frame g (s.rindex.getD s.u 0) g.nodes
    { s with r := s.r - 1, stack := s.stack.set (s.r - 1) s.u }
  simp only at d2 d3 e2
  have d3' := d3 (by omega)
  have hguard : ¬ (s.r = 0 ∨ s.r - 1 < s.top) := by omega
  unfold tarjan_finish_chk tarjan_finish
  rw [if_neg hguard, array_write_some _ _ _ hr1]
  simp only [Option.bind_eq_bind, Option.some_bind]
  rw [array_read_some _ _ (by rw [hri]; exact hu)]
  simp only [Option.some_bind]
  by_cases hroot : s.rindex.getD s.u 0 &&& 1 = 0
  · simp only [hroot, if_true]
    rw [c1]
    simp only [Option.some_bind]
    generalize tarjan_collect g (s.rindex.getD s.u 0) g.nodes
      { s with r := s.r - 1, stack := s.stack.set (s.r - 1) s.u } = C at c2 c3 d2 d3' e2 ⊢
    have hCl : C.stack.length = g.nodes := by rw [e2, List.length_set]; exact hlen
    have hent : ∀ j, s.r - 1 ≤ j → j < C.r → C.stack.getD j 0 < g.nodes := by
      intro j hj1 hj2
      apply hopen
      rw [← hd1, e2]
      exact getD_mem_drop _ _ _ hj1 (by rw [List.length_set]; omega)
    have happ : ∀ sccs, append_scc_chk sccs C.stack (s.r - 1) (C.r - (s.r - 1)) =
        some (append_scc sccs (C.stack.drop (s.r - 1)) (C.r - (s.r - 1))) := by
      intro sccs
      unfold append_scc_chk
      rw [if_pos (by omega)]
    cases ac with
    | false =>
      obtain ⟨m1, m2⟩ := clear_members_chk C.stack g.nodes (s.r - 1) C.r C.sccredges
        (by omega) hent c3
      simp only [Bool.not_false, if_true]
      rw [m1]
      simp only [Option.some_bind]
      rw [empty_chk _ _ m2]
      simp only [Option.some_bind]
      split_ifs
      · rw [happ]
        exact ⟨rfl, c2⟩
      · rw [clear_chk _ _ m2]
        exact ⟨rfl, c2⟩
    | true =>
      simp only [Bool.not_true, Bool.false_eq_true, if_false]
      split_ifs
      · rw [happ]
        exact ⟨rfl, c2⟩
      · exact ⟨rfl, c2⟩
  · simp only [hroot, if_false]
    exact ⟨trivial, hri⟩

theorem step_chk (g : graph_t) (hg : graph_wf g) (ac : Bool) (s : tarjan_state) (a : astate)
    (hsim : Sim g s a) (hinv : AInv g ac a) :
    tarjan_step_chk g ac s = some (tarjan_step g ac s) := by
  have hsh := hinv.shape
  have htop := top_lt_r g s a hsim hsh
  have hr := hsim.r_le
  have hsl := hsim.stack_len
  have hel := hsim.estack_len
  have hri : s.rindex.length = g.nodes := by rw [← hsim.rindex]; exact hsh.rindex_len
  have hl : s.sccredges.length = bitmap_end g.nodes := by
    rw [← hsim.sccredges]; exact hsh.bits_len
  have hu : s.u < g.nodes := by rw [← hsim.u]; exact cur_lt_nodes g a hsh
  have hj : s.j ≤ (nbrs g s.u).length := by
    rw [← hsim.u, ← hsim.j]; exact cur_le_deg g a hinv.edge
  obtain ⟨_, hopen⟩ := sim_open g s a hsim hsh
  unfold tarjan_step_chk tarjan_step
  by_cases hv : 0 ≤ g.idx.getD (graph_edges_from g s.u + s.j) (-1)
  · have hlt := read_nonneg g hg s.u s.j hu hj hv
    obtain ⟨b, hb1, hb2⟩ := read_lt g s.u s.j hlt
    have hbn : b < g.nodes := nbrs_lt g hg s.u hu b (mem_of_getElem?_some _ _ _ hb1)
    have hb0 : (0 : Int) ≤ (b : Int) := Int.ofNat_nonneg b
    simp only [hb2, hb0, if_true, Int.toNat_ofNat]
    rw [array_read_some _ _ (by rw [hri]; exact hbn)]
    simp only [Option.bind_eq_bind, Option.some_bind]
    by_cases h0 : s.rindex.getD b 0 = 0
    · simp only [h0, if_true]
      rw [if_neg (by omega), array_write_some _ _ _ (by omega),
        array_write_some _ _ _ (by omega), array_write_some _ _ _ (by rw [hri]; exact hbn)]
      rfl
    · simp only [h0, if_false]
      rw [array_read_some _ _ (by rw [hri]; exact hu)]
      simp only [Option.some_bind]
      split_ifs
      · rw [array_write_some _ _ _ (by rw [hri]; exact hu)]
        rfl
      · rfl
  · simp only [hv, if_false]
    obtain ⟨c1, c2⟩ := finish_chk g hg ac { s with j := s.j + 1 } hsl htop hr hopen hri hl
    obtain ⟨hnd, _⟩ := sim_open g s a hsim hsh
    obtain ⟨_, _, _, _, f5, f6, f7, f8, _, f10, _⟩ :=
      finish_sim g hg ac { s with j := s.j + 1 } a hsim.u hsim.comp hsim.rindex hsim.sccredges
        hsim.sccs hsl htop hr (by rw [hsim.u, hsim.comp]; exact hnd)
        (by rw [hsim.u, hsim.comp]; exact hopen)
    simp only at f5 f6 f7 f8
    rw [c1]
    simp only [Option.bind_eq_bind, Option.some_bind]
    generalize tarjan_finish g ac { s with j := s.j + 1 } = F at c2 f5 f6 f7 f8 f10 ⊢
    by_cases ht : F.top = 0
    · simp only [ht, if_true]
    · simp only [ht, if_false]
      have ht1 : F.top - 1 < g.nodes := by omega
      have hp : F.stack.getD (F.top - 1) 0 < g.nodes := by
        rw [getD_of_take_eq _ _ _ _ f5 (by omega)]
        apply hsh.lt_nodes
        have hz := zip_take_succ s.stack s.estack (s.top - 1) (by omega) (by omega)
        have htt : s.top - 1 + 1 = s.top := by omega
        rw [htt, ← hsim.anc] at hz
        unfold astate.opn astate.pathN
        rw [hz, ← f7]
        simp
      rw [array_read_some _ _ (by rw [f10]; exact ht1),
        array_read_some _ _ (by rw [f6, hel]; exact ht1)]
      simp only [Option.some_bind]
      rw [array_read_some _ _ (by rw [c2, f8]; exact hu),
        array_read_some _ _ (by rw [c2]; exact hp)]
      simp only [Option.some_bind]
      split_ifs
      · rw [array_write_some _ _ _ (by rw [c2]; exact hp)]
        rfl
      · rfl

/-- Claim C16. On a well-formed graph and in either mode, at the top of every iteration of the
`while(1)` loop `top < r` and `r ≤ N` hold and the four arrays have their allocated sizes; the
iteration makes no access outside `stack`, `estack`, `rindex` or the bitmap and no push onto
one of the two stacks sharing `stack` reaches the other (the bounds-checked step agrees with
the step); after `stack[--r] = u` and the collection the entries `stack[0..top)` are as before;
after the iteration `top ≤ r ≤ N` holds again. Before and after the traversal of every root,
`r = N` and `top = 0`. -/
theorem stacks_in_range (g : graph_t) (hg : graph_wf g) (ac : Bool) :
    (∀ k n s, tarjan_at g ac k n = some s →
      s.top < s.r ∧ s.r ≤ g.nodes ∧
      s.stack.length = g.nodes ∧ s.estack.length = g.nodes ∧ s.rindex.length = g.nodes ∧
      s.sccredges.length = bitmap_end g.nodes ∧
      tarjan_step_chk g ac s = some (tarjan_step g ac s) ∧
      (tarjan_finish g ac { s with j := s.j + 1 }).stack.take s.top = s.stack.take s.top ∧
      (tarjan_step g ac s).1.top ≤ (tarjan_step g ac s).1.r ∧
      (tarjan_step g ac s).1.r ≤ g.nodes) ∧
    (∀ k, k ≤ g.nodes → ∃ s,
      tarjan_for g ac (tarjan_fuel g) k 0 (tarjan_init g) = some s ∧
      s.r = g.nodes ∧ s.top = 0) := by
  constructor
  · intro k n s h
    obtain ⟨a, hsim, hinv⟩ := at_inv g hg ac k n s h
    have hsh := hinv.shape
    have htop := top_lt_r g s a hsim hsh
    obtain ⟨hnd, hopen⟩ := sim_open g s a hsim hsh
    obtain ⟨_, _, _, _, f5, _⟩ :=
      finish_sim g hg ac { s with j := s.j + 1 } a hsim.u hsim.comp hsim.rindex hsim.sccredges
        hsim.sccs hsim.stack_len htop hsim.r_le (by rw [hsim.u, hsim.comp]; exact hnd)
        (by rw [hsim.u, hsim.comp]; exact hopen)
    refine ⟨htop, hsim.r_le, hsim.stack_len, hsim.estack_len,
      by rw [← hsim.rindex]; exact hsh.rindex_len,
      by rw [← hsim.sccredges]; exact hsh.bits_len,
      step_chk g hg ac s a hsim hinv, f5, ?_⟩
    obtain ⟨h1, h2, h3⟩ := step_sim g hg ac s a hsim hsh
    cases hb : (astep g ac a).2 with
    | false =>
      have hsim' := h2 hb
      have hlt := top_lt_r g _ _ hsim' (astep_inv g hg ac a hinv hb).shape
      exact ⟨by omega, hsim'.r_le⟩
    | true =>
      have hend := h3 hb
      exact ⟨by rw [hend.top_zero]; omega, hend.r_le⟩
  · intro k hk
    obtain ⟨s, h1, hb⟩ := for_reach g hg ac k hk
    exact ⟨s, h1, hb.r_full, hb.top_zero⟩

/-- Witness for `stacks_in_range`: the example graph in closed-leaf mode when node 0 is about
to finish. -/
theorem stacks_in_range_witness :
    graph_wf example_graph ∧ tarjan_at example_graph false 0 5 = some example_state ∧
    (example_state.top < example_state.r ∧ example_state.r ≤ example_graph.nodes ∧
      example_state.stack.length = example_graph.nodes ∧
      example_state.estack.length = example_graph.nodes ∧
      example_state.rindex.length = example_graph.nodes ∧
      example_state.sccredges.length = bitmap_end example_graph.nodes ∧
      tarjan_step_chk example_graph false example_state =
        some (tarjan_step example_graph false example_state) ∧
      (tarjan_finish example_graph false
        { example_state with j := example_state.j + 1 }).stack.take example_state.top =
        example_state.stack.take example_state.top ∧
      (tarjan_step example_graph false example_state).1.top ≤
        (tarjan_step example_graph false example_state).1.r ∧
      (tarjan_step example_graph false example_state).1.r ≤ example_graph.nodes) :=
  ⟨by decide, by decide,
    (stacks_in_range example_graph (by decide) false).1 0 5 example_state (by decide)⟩

end Pacleaves
